import Mathlib

/-!
# Verification of `stringhash`, `datetime` and `base64` (ram-nad/go-utils)

Shallow embeddings of `src/stringhash/hash.go`, of the clock arithmetic and
formatting of `src/datetime/clock.go` and of `src/base64/base64.go`, each with
the Go standard-library routines it calls, followed by the theorems settling
the claims of the specification. All definitions come first, one namespace per
package; the theorems follow in the same order.

# Package `stringhash` (`src/stringhash/hash.go`)

The routines of the standard library that `Hash` calls are
`unicode/utf8.DecodeRune`, `unicode/utf16.RuneLen` and
`unicode/utf16.EncodeRune`.

Conventions of the embedding:

* a Go `string` / `[]byte` is a `List Byte`, a byte being a number below 256;
* `rune` (int32), `uint32` and `uint` values are natural numbers; every rune
  produced by `DecodeRune` is non-negative and below `2^21`, so the only places
  where fixed-width arithmetic matters are the `uint32` product `hash * 33`
  (reduced modulo `2^32`) and the `uint` subtraction `lenStr - 1` (reduced
  modulo `2^64`);
* a run-time panic (index out of range) is the outcome `Outcome.panic`;
* the conversion loop is driven by a fuel parameter; `Outcome.outOfFuel` is the
  outcome of a run that needs more iterations than the fuel allows.
-/

namespace Stringhash

/-- Result of running a piece of Go code: a value, a run-time panic, or
exhaustion of the iteration budget of the model. -/
inductive Outcome (α : Type) where
  | ok (v : α) : Outcome α
  | panic : Outcome α
  | outOfFuel : Outcome α
  deriving DecidableEq, Repr

/-- A Go `byte` (`uint8`). -/
abbrev Byte : Type := Fin 256

/-! ## `unicode/utf8` -/

namespace utf8

/-- The constant `utf8.RuneError`, U+FFFD. -/
def RuneError : Nat := 0xFFFD

/-- Mask `maskx = 0b00111111`. -/
def maskx : Nat := 0x3F
/-- Mask `mask2 = 0b00011111`. -/
def mask2 : Nat := 0x1F
/-- Mask `mask3 = 0b00001111`. -/
def mask3 : Nat := 0x0F
/-- Mask `mask4 = 0b00000111`. -/
def mask4 : Nat := 0x07

/-- Lowest continuation byte, `locb = 0b10000000`. -/
def locb : Nat := 0x80
/-- Highest continuation byte, `hicb = 0b10111111`. -/
def hicb : Nat := 0xBF

/-- Table entry `xx`: invalid, size 1. -/
def xx : Nat := 0xF1
/-- Table entry `as`: ASCII, size 1. -/
def as : Nat := 0xF0
/-- Table entry `s1`: accept 0, size 2. -/
def s1 : Nat := 0x02
/-- Table entry `s2`: accept 1, size 3. -/
def s2 : Nat := 0x13
/-- Table entry `s3`: accept 0, size 3. -/
def s3 : Nat := 0x03
/-- Table entry `s4`: accept 2, size 3. -/
def s4 : Nat := 0x23
/-- Table entry `s5`: accept 3, size 4. -/
def s5 : Nat := 0x34
/-- Table entry `s6`: accept 0, size 4. -/
def s6 : Nat := 0x04
/-- Table entry `s7`: accept 4, size 4. -/
def s7 : Nat := 0x44

/-- The table `first`: information about the first byte of a UTF-8 sequence,
256 entries (rows 0x00-0x7F, 0x80-0xBF, 0xC0-0xDF, 0xE0-0xEF, 0xF0-0xFF). -/
def first : List Nat :=
  List.replicate 128 as ++
  List.replicate 64 xx ++
  ([xx, xx] ++ List.replicate 30 s1) ++
  [s2, s3, s3, s3, s3, s3, s3, s3, s3, s3, s3, s3, s3, s4, s3, s3] ++
  [s5, s6, s6, s6, s7, xx, xx, xx, xx, xx, xx, xx, xx, xx, xx, xx]

/-- The table `acceptRanges`: `(lo, hi)` bounds of the second byte; entries 5
to 15 are the zero value. -/
def acceptRanges : List (Nat × Nat) :=
  [(locb, hicb), (0xA0, hicb), (locb, 0x9F), (0x90, hicb), (locb, 0x8F)] ++
  List.replicate 11 (0, 0)

/-- Byte `p[k]` as a number; every use below is guarded by a length check. -/
def byteAt (p : List Byte) (k : Nat) : Nat := (p.getD k 0).val

/-- Go `utf8.DecodeRune`: the rune at the start of `p` and its width in bytes;
`(RuneError, 0)` for the empty slice and `(RuneError, 1)` for an invalid
encoding. The `int32` expression `rune(x) << 31 >> 31` is all ones when the low
bit of `x` is set and zero otherwise. -/
def DecodeRune (p : List Byte) : Nat × Nat :=
  let n := p.length
  if n < 1 then (RuneError, 0)
  else
    let p0 := byteAt p 0
    let x := first.getD p0 0
    if x ≥ as then
      let mask := if (x <<< 31) % 2 ^ 32 ≥ 2 ^ 31 then 0xFFFFFFFF else 0
      ((p0 &&& (mask ^^^ 0xFFFFFFFF)) ||| (RuneError &&& mask), 1)
    else
      let sz := x &&& 7
      let accept := acceptRanges.getD (x >>> 4) (0, 0)
      if n < sz then (RuneError, 1)
      else
        let b1 := byteAt p 1
        if b1 < accept.1 ∨ accept.2 < b1 then (RuneError, 1)
        else if sz ≤ 2 then (((p0 &&& mask2) <<< 6) ||| (b1 &&& maskx), 2)
        else
          let b2 := byteAt p 2
          if b2 < locb ∨ hicb < b2 then (RuneError, 1)
          else if sz ≤ 3 then
            (((p0 &&& mask3) <<< 12) ||| ((b1 &&& maskx) <<< 6) ||| (b2 &&& maskx), 3)
          else
            let b3 := byteAt p 3
            if b3 < locb ∨ hicb < b3 then (RuneError, 1)
            else
              (((p0 &&& mask4) <<< 18) ||| ((b1 &&& maskx) <<< 12) |||
                ((b2 &&& maskx) <<< 6) ||| (b3 &&& maskx), 4)

end utf8

/-! ## `unicode/utf16` -/

namespace utf16

/-- The constant `replacementChar`, U+FFFD. -/
def replacementChar : Nat := 0xFFFD
/-- The constant `maxRune`, U+10FFFF. -/
def maxRune : Nat := 0x10FFFF
/-- Start of the high surrogates. -/
def surr1 : Nat := 0xd800
/-- Start of the low surrogates. -/
def surr2 : Nat := 0xdc00
/-- First value after the surrogates. -/
def surr3 : Nat := 0xe000
/-- First value that needs a surrogate pair. -/
def surrSelf : Nat := 0x10000

/-- Go `utf16.RuneLen`: number of 16-bit words of the UTF-16 encoding of `r`,
`-1` when `r` is not a valid value to encode (runes here are non-negative, so
the test `0 <= r` of the source is always true). -/
def RuneLen (r : Nat) : Int :=
  if r < surr1 ∨ (surr3 ≤ r ∧ r < surrSelf) then 1
  else if surrSelf ≤ r ∧ r ≤ maxRune then 2
  else -1

/-- Go `utf16.EncodeRune`: the surrogate pair of `r`, or
`(U+FFFD, U+FFFD)` when `r` does not need one. -/
def EncodeRune (r : Nat) : Nat × Nat :=
  if r < surrSelf ∨ r > maxRune then (replacementChar, replacementChar)
  else
    let r' := r - surrSelf
    (surr1 + ((r' >>> 10) &&& 0x3ff), surr2 + (r' &&& 0x3ff))

end utf16

/-! ## `stringhash.Hash` -/

/-- The constant `stackAllocateSizeLimit = 1024 / 4`. -/
def stackAllocateSizeLimit : Nat := 1024 / 4

/-- Variables of the conversion loop: the scratch buffer `utf16Slice`, the byte
index `i` and the code-unit index `j`. -/
structure ConvState where
  utf16Slice : List Nat
  i : Nat
  j : Nat
  deriving DecidableEq, Repr

/-- The assignment `s[k] = v` on a slice: panics when `k` is out of range. -/
def store (s : List Nat) (k v : Nat) : Outcome (List Nat) :=
  if k < s.length then .ok (s.set k v) else .panic

/-- One iteration of the conversion loop of `Hash` (lines 72-96): decode the
rune at `strBytes[i:]`, write its one or two code units at `j`, advance `i` by
the rune width. `uint32(x)` is `x % 2^32`. -/
def convertBody (strBytes : List Byte) (st : ConvState) : Outcome ConvState :=
  let (utf8Rune, runeWidth) := utf8.DecodeRune (strBytes.drop st.i)
  let utf16CodePointsCount := utf16.RuneLen utf8Rune
  if utf16CodePointsCount = 1 then
    if utf8Rune = utf8.RuneError then
      match strBytes[st.i]? with
      | none => .panic
      | some b =>
        match store st.utf16Slice st.j (b.val % 2 ^ 32) with
        | .ok s => .ok ⟨s, st.i + runeWidth, st.j + 1⟩
        | .panic => .panic
        | .outOfFuel => .outOfFuel
    else
      match store st.utf16Slice st.j (utf8Rune % 2 ^ 32) with
      | .ok s => .ok ⟨s, st.i + runeWidth, st.j + 1⟩
      | .panic => .panic
      | .outOfFuel => .outOfFuel
  else if utf16CodePointsCount = 2 then
    let (r1, r2) := utf16.EncodeRune utf8Rune
    match store st.utf16Slice st.j (r1 % 2 ^ 32) with
    | .ok s =>
      match store s (st.j + 1) (r2 % 2 ^ 32) with
      | .ok s' => .ok ⟨s', st.i + runeWidth, st.j + 2⟩
      | .panic => .panic
      | .outOfFuel => .outOfFuel
    | .panic => .panic
    | .outOfFuel => .outOfFuel
  else
    .ok ⟨st.utf16Slice, st.i + runeWidth, st.j⟩

/-- The conversion loop `for i := uint(0); i < lenStr && j <= i; { ... }`,
run for at most `fuel` iterations. -/
def convertLoop (strBytes : List Byte) (lenStr : Nat) : Nat → ConvState → Outcome ConvState
  | 0, st => if st.i < lenStr ∧ st.j ≤ st.i then .outOfFuel else .ok st
  | fuel + 1, st =>
    if st.i < lenStr ∧ st.j ≤ st.i then
      match convertBody strBytes st with
      | .ok st' => convertLoop strBytes lenStr fuel st'
      | .panic => .panic
      | .outOfFuel => .outOfFuel
    else .ok st

/-- The recurrence loop `for i := len(utf16CodePoints) - 1; i >= 0; i -= 1`;
the first argument is `i + 1`, the number of indices still to visit. -/
def hashLoop (utf16CodePoints : List Nat) : Nat → Nat → Outcome Nat
  | 0, hash => .ok hash
  | i + 1, hash =>
    match utf16CodePoints[i]? with
    | none => .panic
    | some c => hashLoop utf16CodePoints i (((hash * 33) % 2 ^ 32) ^^^ (c % 2 ^ 32))

/-- The scratch buffer chosen by `Hash`: the zeroed 256-slot array when the
input has at most 256 bytes, a zeroed slice of the input length otherwise. -/
def scratch (lenStr : Nat) : List Nat :=
  if lenStr ≤ stackAllocateSizeLimit then List.replicate stackAllocateSizeLimit 0
  else List.replicate lenStr 0

/-- Lines 64-107 of `Hash` for a given scratch buffer `utf16Slice`, with the
conversion loop limited to `fuel` iterations. The two bounds-check hints read
index `lenStr - 1`, computed on `uint` (modulo `2^64`). -/
def hashCore (utf16Slice : List Nat) (fuel : Nat) (strBytes : List Byte) : Outcome Nat :=
  let hash : Nat := 5381
  let lenStr := strBytes.length
  let hint := (lenStr + 2 ^ 64 - 1) % 2 ^ 64
  if ¬ hint < strBytes.length then .panic
  else if ¬ hint < utf16Slice.length then .panic
  else
    match convertLoop strBytes lenStr fuel ⟨utf16Slice, 0, 0⟩ with
    | .ok st =>
      if st.j ≤ st.utf16Slice.length then
        let utf16CodePoints := st.utf16Slice.take st.j
        hashLoop utf16CodePoints utf16CodePoints.length hash
      else .panic
    | .panic => .panic
    | .outOfFuel => .outOfFuel

/-- The function `Hash` with the conversion loop limited to `fuel` iterations:
the buffer selection of lines 53-62 followed by the rest of the body. -/
def HashFuel (fuel : Nat) (str : List Byte) : Outcome Nat :=
  hashCore (scratch str.length) fuel str

/-- The function `Hash`: every iteration of the conversion loop consumes at
least one byte, so `len(str)` iterations are enough. -/
def Hash (str : List Byte) : Outcome Nat := HashFuel str.length str

/-! ## UTF-8 well-formedness and an arithmetic reading of `DecodeRune` -/

/-- Bounds test `lo ≤ b ≤ hi` on a byte. -/
def inRange (lo hi : Nat) (b : Byte) : Prop := lo ≤ b.val ∧ b.val ≤ hi

instance (lo hi : Nat) (b : Byte) : Decidable (inRange lo hi b) := by
  unfold inRange; infer_instance

/-- Lower bound of the second byte after the lead byte `n`. -/
def secondLo (n : Nat) : Nat := if n = 0xE0 then 0xA0 else if n = 0xF0 then 0x90 else 0x80

/-- Upper bound of the second byte after the lead byte `n`. -/
def secondHi (n : Nat) : Nat := if n = 0xED then 0x9F else if n = 0xF4 then 0x8F else 0xBF

/-- Arithmetic description of `DecodeRune` by the shape of the leading bytes. -/
def decodeSpec : List Byte → Nat × Nat
  | [] => (utf8.RuneError, 0)
  | b0 :: tl =>
    if b0.val < 0x80 then (b0.val, 1)
    else if b0.val < 0xC2 then (utf8.RuneError, 1)
    else if b0.val < 0xE0 then
      match tl with
      | b1 :: _ =>
        if inRange 0x80 0xBF b1 then (b0.val % 32 * 64 + b1.val % 64, 2) else (utf8.RuneError, 1)
      | _ => (utf8.RuneError, 1)
    else if b0.val < 0xF0 then
      match tl with
      | b1 :: b2 :: _ =>
        if inRange (secondLo b0.val) (secondHi b0.val) b1 ∧ inRange 0x80 0xBF b2 then
          (b0.val % 16 * 4096 + b1.val % 64 * 64 + b2.val % 64, 3)
        else (utf8.RuneError, 1)
      | _ => (utf8.RuneError, 1)
    else if b0.val < 0xF5 then
      match tl with
      | b1 :: b2 :: b3 :: _ =>
        if inRange (secondLo b0.val) (secondHi b0.val) b1 ∧ inRange 0x80 0xBF b2 ∧
            inRange 0x80 0xBF b3 then
          (b0.val % 8 * 262144 + b1.val % 64 * 4096 + b2.val % 64 * 64 + b3.val % 64, 4)
        else (utf8.RuneError, 1)
      | _ => (utf8.RuneError, 1)
    else (utf8.RuneError, 1)

/-- The byte with value `n % 256`. -/
def byteOf (n : Nat) : Byte := ⟨n % 256, Nat.mod_lt n (by decide)⟩

/-- Unicode scalar values: code points outside the surrogate range, up to U+10FFFF. -/
def IsScalar (r : Nat) : Prop := r < 0xD800 ∨ (0xE000 ≤ r ∧ r ≤ 0x10FFFF)

instance (r : Nat) : Decidable (IsScalar r) := by unfold IsScalar; infer_instance

/-- The UTF-8 encoding of a code point (Unicode standard, table 3-6). -/
def utf8Encode (r : Nat) : List Byte :=
  if r < 0x80 then [byteOf r]
  else if r < 0x800 then [byteOf (0xC0 + r / 64), byteOf (0x80 + r % 64)]
  else if r < 0x10000 then
    [byteOf (0xE0 + r / 4096), byteOf (0x80 + r / 64 % 64), byteOf (0x80 + r % 64)]
  else
    [byteOf (0xF0 + r / 262144), byteOf (0x80 + r / 4096 % 64), byteOf (0x80 + r / 64 % 64),
      byteOf (0x80 + r % 64)]

/-- The bytes `p` begin with the UTF-8 encoding of a scalar value. -/
def BeginsValid (p : List Byte) : Prop := ∃ r, IsScalar r ∧ utf8Encode r <+: p

/-! ## Buffer-free reading of `Hash` -/

/-- Code units written by one iteration of the conversion loop when the unread
bytes are `p`: the buffer-free reading of lines 72-95 of `Hash`. -/
def stepUnits (p : List Byte) : List Nat :=
  let (utf8Rune, _) := utf8.DecodeRune p
  let utf16CodePointsCount := utf16.RuneLen utf8Rune
  if utf16CodePointsCount = 1 then
    if utf8Rune = utf8.RuneError then [utf8.byteAt p 0 % 2 ^ 32] else [utf8Rune % 2 ^ 32]
  else if utf16CodePointsCount = 2 then
    let (r1, r2) := utf16.EncodeRune utf8Rune
    [r1 % 2 ^ 32, r2 % 2 ^ 32]
  else []

/-- Buffer-free extraction: the code units of all decode steps over `p`, in
order, for at most `fuel` steps. -/
def codeUnitsFuel : Nat → List Byte → List Nat
  | 0, _ => []
  | fuel + 1, p =>
    if p.length = 0 then []
    else stepUnits p ++ codeUnitsFuel fuel (p.drop (utf8.DecodeRune p).2)

/-- Buffer-free extraction of the code units of `str`. -/
def codeUnits (str : List Byte) : List Nat := codeUnitsFuel str.length str

/-- The recurrence on a list of code units: seed 5381, and from the last unit
to the first `h = ((h * 33) mod 2^32) xor c`. -/
def foldUnits : List Nat → Nat
  | [] => 5381
  | c :: rest => ((foldUnits rest * 33) % 2 ^ 32) ^^^ c

/-! ## Reference definitions of the specification -/

/-- The UTF-16 encoding of a scalar value: the value itself below U+10000, a
high and a low surrogate otherwise. -/
def utf16Encode (r : Nat) : List Nat :=
  if r < 0x10000 then [r]
  else [0xD800 + (r - 0x10000) / 1024, 0xDC00 + (r - 0x10000) % 1024]

/-- The UTF-8 bytes of a text given as a list of scalar values. -/
def utf8String (text : List Nat) : List Byte := text.flatMap utf8Encode

/-- The UTF-16 code units of a text given as a list of scalar values. -/
def utf16String (text : List Nat) : List Nat := text.flatMap utf16Encode

/-- The fold of claim C7 on bytes: `f [] = 5381`,
`f (b :: rest) = ((f rest * 33) mod 2^32) xor b`. -/
def asciiFold : List Byte → Nat
  | [] => 5381
  | b :: rest => ((asciiFold rest * 33) % 2 ^ 32) ^^^ b.val

/-- States of the conversion loop reached from `s`: each step passes the loop
guard `i < lenStr && j <= i` and runs the loop body without a panic. -/
inductive Reaches (strBytes : List Byte) (s : ConvState) : ConvState → Prop where
  | start : Reaches strBytes s s
  | step (st st' : ConvState) : Reaches strBytes s st →
      st.i < strBytes.length ∧ st.j ≤ st.i → convertBody strBytes st = .ok st' →
      Reaches strBytes s st'

/-! ## Test vectors of `hash_test.go` -/

/-- The bytes of `"Mary had a little lamb."`. -/
def maryBytes : List Byte :=
  [77, 97, 114, 121, 32, 104, 97, 100, 32, 97, 32, 108, 105, 116, 116, 108, 101, 32, 108, 97,
   109, 98, 46]

/-- The bytes of `"Hello, world!"`. -/
def helloWorldBytes : List Byte :=
  [72, 101, 108, 108, 111, 44, 32, 119, 111, 114, 108, 100, 33]

/-- The bytes of `"Hello"`. -/
def helloBytes : List Byte :=
  [72, 101, 108, 108, 111]

/-- The UTF-8 bytes of the test string `"Hello, "` followed by U+4E16 and
U+754C (`E4 B8 96`, `E7 95 8C`). -/
def helloCjkBytes : List Byte :=
  [72, 101, 108, 108, 111, 44, 32, 228, 184, 150, 231, 149, 140]

/-- The UTF-8 bytes of the test string `"A"` followed by U+754C and U+10437
(`E7 95 8C`, `F0 90 90 B7`). -/
def supplementaryBytes : List Byte :=
  [65, 231, 149, 140, 240, 144, 144, 183]

/-- The bytes of the invalid test string `"\xed\x80\x01"`. -/
def invalidBytes : List Byte := [0xED, 0x80, 0x01]

/-- The bytes of the string `largeStr` of the test `Large/String` (489 ASCII bytes). -/
def largeBytes : List Byte :=
  [72, 101, 108, 108, 111, 32, 84, 104, 105, 115, 32, 105, 115, 32, 97, 32, 118, 101, 114, 121,
   32, 108, 97, 114, 103, 101, 32, 115, 116, 114, 105, 110, 103, 44, 32, 115, 117, 112, 112,
   111, 115, 101, 100, 32, 116, 111, 32, 98, 101, 32, 109, 111, 114, 101, 32, 116, 104, 97,
   110, 32, 50, 53, 54, 32, 99, 104, 97, 114, 97, 99, 116, 101, 114, 115, 58, 32, 97, 98, 99,
   100, 101, 102, 103, 104, 105, 106, 107, 108, 109, 110, 111, 112, 113, 114, 115, 116, 117,
   118, 119, 120, 121, 122, 48, 49, 50, 51, 52, 53, 54, 55, 56, 57, 65, 66, 67, 68, 69, 70, 71,
   72, 73, 74, 75, 76, 77, 78, 79, 80, 81, 82, 83, 84, 85, 86, 87, 88, 89, 90, 46, 46, 46, 32,
   87, 97, 105, 116, 46, 46, 32, 73, 32, 99, 97, 110, 32, 119, 114, 105, 116, 101, 32, 97, 32,
   115, 111, 110, 103, 58, 32, 72, 101, 121, 32, 74, 117, 100, 101, 44, 32, 100, 111, 110, 39,
   116, 32, 109, 97, 107, 101, 32, 105, 116, 32, 98, 97, 100, 46, 32, 84, 97, 107, 101, 32, 97,
   32, 115, 97, 100, 32, 115, 111, 110, 103, 32, 97, 110, 100, 32, 109, 97, 107, 101, 32, 105,
   116, 32, 98, 101, 116, 116, 101, 114, 46, 32, 82, 101, 109, 101, 109, 98, 101, 114, 32, 116,
   111, 32, 108, 101, 116, 32, 104, 101, 114, 32, 105, 110, 116, 111, 32, 121, 111, 117, 114,
   32, 104, 101, 97, 114, 116, 44, 32, 84, 104, 101, 110, 32, 121, 111, 117, 32, 99, 97, 110,
   32, 115, 116, 97, 114, 116, 32, 116, 111, 32, 109, 97, 107, 101, 32, 105, 116, 32, 98, 101,
   116, 116, 101, 114, 46, 32, 72, 101, 121, 32, 74, 117, 100, 101, 44, 32, 100, 111, 110, 39,
   116, 32, 98, 101, 32, 97, 102, 114, 97, 105, 100, 44, 32, 89, 111, 117, 32, 119, 101, 114,
   101, 32, 109, 97, 100, 101, 32, 116, 111, 32, 103, 111, 32, 111, 117, 116, 32, 97, 110, 100,
   32, 103, 101, 116, 32, 104, 101, 114, 44, 32, 84, 104, 101, 32, 109, 105, 110, 117, 116,
   101, 32, 121, 111, 117, 32, 108, 101, 116, 32, 104, 101, 114, 32, 117, 110, 100, 101, 114,
   32, 121, 111, 117, 114, 32, 115, 107, 105, 110, 32, 84, 104, 101, 110, 32, 121, 111, 117,
   32, 98, 101, 103, 105, 110, 32, 116, 111, 32, 109, 97, 107, 101, 32, 105, 116, 32, 98, 101,
   116, 116, 101, 114, 46, 32, 78, 97, 32, 78, 97, 32, 78, 97, 32, 78, 97, 32, 78, 97, 32, 78,
   97, 32, 78, 97, 32, 78, 97, 32, 78, 97, 32, 78, 97, 32, 78, 97, 46, 46, 32, 72, 101, 121,
   32, 74, 117, 100, 101]

/-! ## The recurrence as JavaScript computes it

The package comment of `hash.go` (lines 8-23) says that the reference
implementation works on signed 32-bit integers. The definitions below follow
that description: `hash = 5381`, then for each code unit from the last to the
first `hash = (hash * 33) ^ unit`, where `^` converts both operands with
`ToInt32`, and at the end `hash >>> 0`. -/

/-- The ECMAScript conversion `ToInt32`: the value modulo `2^32`, read as a
signed 32-bit integer. -/
def toInt32 (x : Int) : Int :=
  let m := x % 4294967296
  if m ≥ 2147483648 then m - 4294967296 else m

/-- The ECMAScript conversion `ToUint32`, which is what `x >>> 0` computes. -/
def toUint32 (x : Int) : Nat := (x % 4294967296).toNat

/-- The JavaScript operator `^`: both operands are converted with `ToInt32`, the
bit patterns are combined, and the result is a signed 32-bit integer. -/
def jsXor (a b : Int) : Int :=
  toInt32 (((toUint32 (toInt32 a)) ^^^ (toUint32 (toInt32 b)) : Nat) : Int)

/-- The JavaScript loop `while (i) hash = (hash * 33) ^ str.charCodeAt(--i)` on a
list of code units, from `hash = 5381`. -/
def jsHashLoop : List Nat → Int
  | [] => 5381
  | c :: rest => jsXor (jsHashLoop rest * 33) (c : Int)

/-- The JavaScript result `hash >>> 0`. -/
def jsHash (units : List Nat) : Nat := toUint32 (jsHashLoop units)

end Stringhash

/-! # Package `datetime`: `ClockTime` (`src/datetime/clock.go`)

`ClockTime` and `Duration` are `int64`; they are integers here, and the `int64`
operations `-` and `+` wrap around through `wrapInt64`. -/

namespace Datetime

/-- The constant `math.MaxInt64`. -/
def MaxInt64 : Int := 9223372036854775807

/-- The constant `math.MinInt64`. -/
def MinInt64 : Int := -9223372036854775808

/-- The values of type `int64`. -/
def InInt64 (x : Int) : Prop := MinInt64 ≤ x ∧ x ≤ MaxInt64

instance (x : Int) : Decidable (InInt64 x) := by unfold InInt64; infer_instance

/-- Two's complement wraparound of an `int64` result. -/
def wrapInt64 (x : Int) : Int :=
  (x + 9223372036854775808) % 18446744073709551616 - 9223372036854775808

/-- The constant `time.Second`, in nanoseconds. -/
def Second : Int := 1000000000

/-- The function `subClockTime` (lines 27-39). -/
def subClockTime (t1 t2 : Int) : Int :=
  let r := wrapInt64 (t1 - t2)
  if r < 0 ∧ t1 > t2 then MaxInt64
  else if r > 0 ∧ t1 < t2 then MinInt64
  else r

/-- The function `addClockTime` (lines 41-53). -/
def addClockTime (t1 d : Int) : Int :=
  let r := wrapInt64 (t1 + d)
  if r < t1 ∧ d > 0 then MaxInt64
  else if r > t1 ∧ d < 0 then MinInt64
  else r

/-- The method `ClockTime.Sub`. -/
def ClockTime.Sub (t d : Int) : Int := subClockTime t d

/-- The method `ClockTime.Add`. -/
def ClockTime.Add (t d : Int) : Int := addClockTime t d

/-- Decimal digits of a natural number, as `fmt` prints them. -/
def decimal (n : Nat) : List Char := Nat.toDigits 10 n

/-- The verb `%+d` of `fmt.Sprintf`: a sign, always, then the decimal digits of
the absolute value. -/
def fmtPlusD (x : Int) : List Char :=
  (if x < 0 then '-' else '+') :: decimal x.natAbs

/-- Zero padding on the left up to `width` characters. -/
def zeroPad (width : Nat) (digits : List Char) : List Char :=
  List.replicate (width - digits.length) '0' ++ digits

/-- The verb `%09d` of `fmt.Sprintf`: the decimal digits padded with zeros to
width 9; for a negative number the sign comes first and counts in the width. -/
def fmtZero9 (x : Int) : List Char :=
  if x < 0 then '-' :: zeroPad 8 (decimal x.natAbs) else zeroPad 9 (decimal x.natAbs)

/-- The method `ClockTime.GoString` (lines 94-100): the verb `%+d` on the
quotient and on the remainder of the truncated division by `time.Second`. -/
def ClockTime.GoString (t : Int) : String :=
  String.mk ("\x7bs: ".data ++ fmtPlusD (t.tdiv Second) ++ ", nsec: ".data ++
    fmtPlusD (t.tmod Second) ++ "\x7d".data)

/-- The method `ClockTime.String` (lines 84-91); `/` and `%` of Go truncate
toward zero. -/
def ClockTime.String (t : Int) : String :=
  let s := t.tdiv Second
  let ns := t.tmod Second
  let ns := if ns < 0 then wrapInt64 (-ns) else ns
  String.mk (['m'] ++ fmtPlusD s ++ ['.'] ++ fmtZero9 ns)

/-! ## `Duration` (`src/datetime/duration.go`)

A `Duration` is an `int64` number of nanoseconds. The constructors multiply on
`int64`, so the product wraps around; the divisors of the accessors are
positive constants, so the `int64` quotient is the truncated quotient. The
methods `Abs`, `Truncate` and `Round` call the methods of `time.Duration`
of the same names, which are embedded first. -/

/-- The constant `time.Nanosecond`. -/
def Nanosecond : Int := 1

/-- The constant `time.Microsecond`. -/
def Microsecond : Int := 1000 * Nanosecond

/-- The constant `time.Millisecond`. -/
def Millisecond : Int := 1000 * Microsecond

/-- The constant `time.Minute`. -/
def Minute : Int := 60 * Second

/-- The constant `time.Hour`. -/
def Hour : Int := 60 * Minute

/-- The function `Nanoseconds` (lines 17-19). -/
def Nanoseconds (ns : Int) : Int := ns

/-- The function `Microseconds` (lines 21-23). -/
def Microseconds (us : Int) : Int := wrapInt64 (us * Microsecond)

/-- The function `Milliseconds` (lines 25-27). -/
def Milliseconds (ms : Int) : Int := wrapInt64 (ms * Millisecond)

/-- The function `Seconds` (lines 29-31). -/
def Seconds (s : Int) : Int := wrapInt64 (s * Second)

/-- The function `Minutes` (lines 33-35). -/
def Minutes (m : Int) : Int := wrapInt64 (m * Minute)

/-- The function `Hours` (lines 37-39). -/
def Hours (h : Int) : Int := wrapInt64 (h * Hour)

/-- The method `Duration.Nanoseconds` (lines 42-44). -/
def Duration.Nanoseconds (d : Int) : Int := d

/-- The method `Duration.Microseconds` (lines 47-49). -/
def Duration.Microseconds (d : Int) : Int := d.tdiv Microsecond

/-- The method `Duration.Milliseconds` (lines 52-54). -/
def Duration.Milliseconds (d : Int) : Int := d.tdiv Millisecond

/-- The method `Duration.Seconds` (lines 57-59). -/
def Duration.Seconds (d : Int) : Int := d.tdiv Second

/-- The method `Duration.Minutes` (lines 62-64). -/
def Duration.Minutes (d : Int) : Int := d.tdiv Minute

/-- The method `Duration.Hours` (lines 67-69). -/
def Duration.Hours (d : Int) : Int := d.tdiv Hour

/-- The method `time.Duration.Abs`: `math.MinInt64` is converted to
`math.MaxInt64`. -/
def time.Duration.Abs (d : Int) : Int :=
  if d ≥ 0 then d
  else if d = MinInt64 then MaxInt64
  else wrapInt64 (-d)

/-- The method `time.Duration.Truncate`: `d` unchanged when `m <= 0`, else
`d - d%m`. -/
def time.Duration.Truncate (d m : Int) : Int :=
  if m ≤ 0 then d else wrapInt64 (d - d.tmod m)

/-- The conversion `uint64(x)` of an `int64`. -/
def toUint64 (x : Int) : Int := x % 18446744073709551616

/-- The function `lessThanHalf` of package `time`: `uint64(x)+uint64(x) < uint64(y)`. -/
def time.lessThanHalf (x y : Int) : Prop :=
  (toUint64 x + toUint64 x) % 18446744073709551616 < toUint64 y

instance (x y : Int) : Decidable (time.lessThanHalf x y) := by
  unfold time.lessThanHalf; infer_instance

/-- The method `time.Duration.Round`: `d` unchanged when `m <= 0`; else the
remainder `r` decides between the multiple toward zero and the next one away
from zero, and a result that overflows is replaced by the minimum or the
maximum duration. -/
def time.Duration.Round (d m : Int) : Int :=
  if m ≤ 0 then d
  else
    let r := d.tmod m
    if d < 0 then
      let r := wrapInt64 (-r)
      if time.lessThanHalf r m then wrapInt64 (d + r)
      else
        let d1 := wrapInt64 (wrapInt64 (d - m) + r)
        if d1 < d then d1 else MinInt64
    else
      if time.lessThanHalf r m then wrapInt64 (d - r)
      else
        let d1 := wrapInt64 (wrapInt64 (d + m) - r)
        if d1 > d then d1 else MaxInt64

/-- The method `Duration.Abs` (lines 80-82). -/
def Duration.Abs (d : Int) : Int := time.Duration.Abs d

/-- The method `Duration.Truncate` (lines 85-87). -/
def Duration.Truncate (d m : Int) : Int := time.Duration.Truncate d (time.Duration.Abs m)

/-- The method `Duration.Round` (lines 90-92). -/
def Duration.Round (d m : Int) : Int := time.Duration.Round d (time.Duration.Abs m)

/-! ## `Time` (`src/datetime/datetime.go`)

A `Time` is a `time.Time`, and every function of `datetime.go` is a call of
the function of package `time` of the same name. A `time.Time` holds an instant
in its fields `wall` and `ext` and a pointer `loc` to a location. The embedding
follows what package `time` does with `loc`: `setLoc`, `UTC`, `Location`, the
location that `unixTime` and `Date` set, the location that `Add`, `AddDate`,
`Truncate` and `Round` keep or pass on, and the zone offset and zone suffix of
`Format` with the layout `RFC3339`. The computations of package `time` on
`wall` and `ext`, its zone database and the reading of the system clock are
parameters, collected in `Instants`. -/

open Stringhash (Outcome)

/-- The pointers of type `*time.Location` that the code tells apart: `&utcLoc`
(the value of `time.UTC`), `&localLoc` (the value of `time.Local`) and the
pointers to other locations; the nil pointer is `none` of `Option Location`. -/
inductive Location where
  | utcLoc : Location
  | localLoc : Location
  | other (id : Nat) : Location
  deriving DecidableEq, Repr

/-- The struct `time.Time`. -/
structure time.Time where
  wall : Nat
  ext : Int
  loc : Option Location
  deriving DecidableEq, Repr

/-- The type `Time` of `datetime.go` (line 16): `type Time time.Time`. -/
abbrev Time : Type := time.Time

/-- What package `time` computes on the fields `wall` and `ext`, what its zone
database answers, and what the system clock reads. -/
structure Instants where
  -- The fields `wall` and `ext` that `unixTime(sec, nsec)` sets.
  unixTime : Int → Int → Nat × Int
  -- The Unix seconds and the nanoseconds that `Date` computes from the civil
  -- time, before the zone adjustment.
  dateUnix : Int → Int → Int → Int → Int → Int → Int → Int × Int
  -- The adjustment of the Unix seconds that `Date` makes for a location other
  -- than `&utcLoc`.
  zoneAdjust : Location → Int → Int
  -- The fields after `stripMono`.
  stripMono : Nat × Int → Nat × Int
  -- The fields after `Add(d)`.
  add : Nat × Int → Int → Nat × Int
  -- The remainder `r` of `div(t, d)`.
  divRem : Nat × Int → Int → Int
  -- The results of `t.Date()`, `t.Clock()` and `t.nsec()` for an instant and a
  -- zone offset: year, month, day, hour, minute, second, nanosecond.
  civil : Nat × Int → Int → Int × Int × Int × Int × Int × Int × Int
  -- The result of `t.unixSec()`.
  unixSec : Nat × Int → Int
  -- The result of `t.Nanosecond()`.
  nanosecond : Nat × Int → Int
  -- The zone offset that `l.lookup(sec)` returns.
  lookupOffset : Location → Int → Int
  -- The date and the time of day that `Format` writes for the layout `RFC3339`,
  -- for an instant and a zone offset.
  dateTimeText : Nat × Int → Int → List Char
  -- The time that `time.Now()` returns.
  now : time.Time

/-- The method `(*Time).setLoc`: `&utcLoc` is stored as nil. -/
def time.Time.setLoc (ar : Instants) (t : time.Time) (loc : Option Datetime.Location) :
    time.Time :=
  let loc := if loc = some .utcLoc then none else loc
  let we := ar.stripMono (t.wall, t.ext)
  ⟨we.1, we.2, loc⟩

/-- The method `Time.UTC`: `t.setLoc(&utcLoc)`. -/
def time.Time.UTC (ar : Instants) (t : time.Time) : time.Time :=
  t.setLoc ar (some .utcLoc)

/-- The function `unixTime`: the location is `Local`. -/
def time.unixTime (ar : Instants) (sec nsec : Int) : time.Time :=
  let we := ar.unixTime sec nsec
  ⟨we.1, we.2, some .localLoc⟩

/-- The function `time.Unix`: `nsec` outside `[0, 1e9)` is carried into `sec`. -/
def time.Unix (ar : Instants) (sec nsec : Int) : time.Time :=
  if nsec < 0 ∨ nsec ≥ 1000000000 then
    let n := nsec.tdiv 1000000000
    let sec := wrapInt64 (sec + n)
    let nsec := wrapInt64 (nsec - wrapInt64 (n * 1000000000))
    if nsec < 0 then time.unixTime ar (wrapInt64 (sec - 1)) (wrapInt64 (nsec + 1000000000))
    else time.unixTime ar sec nsec
  else time.unixTime ar sec nsec

/-- The function `time.UnixMilli`: `Unix(msec/1e3, (msec%1e3)*1e6)`. -/
def time.UnixMilli (ar : Instants) (msec : Int) : time.Time :=
  time.Unix ar (msec.tdiv 1000) (wrapInt64 (msec.tmod 1000 * 1000000))

/-- The function `time.Date`: a panic for a nil location; the zone adjustment
for a location other than `&utcLoc`; then `unixTime` and `setLoc(loc)`. -/
def time.Date (ar : Instants) (year month day hour min sec nsec : Int)
    (loc : Option Datetime.Location) : Outcome time.Time :=
  match loc with
  | none => .panic
  | some l =>
    let un := ar.dateUnix year month day hour min sec nsec
    let unix := if l ≠ .utcLoc then ar.zoneAdjust l un.1 else un.1
    .ok ((time.unixTime ar unix un.2).setLoc ar (some l))

/-- The method `Time.Add`: new fields `wall` and `ext`, the same `loc`. -/
def time.Time.Add (ar : Instants) (t : time.Time) (d : Int) : time.Time :=
  let we := ar.add (t.wall, t.ext) d
  ⟨we.1, we.2, t.loc⟩

/-- The method `(*Location).get`: nil stands for `&utcLoc`. -/
def time.Location.get (l : Option Datetime.Location) : Datetime.Location :=
  match l with
  | none => .utcLoc
  | some l => l

/-- The zone offset that `Time.locabs` computes: nil and `&localLoc` go through
`get`; the offset is `0` for `&utcLoc` and the answer of the zone cache or of the
lookup otherwise. -/
def time.Time.offset (ar : Instants) (t : time.Time) : Int :=
  let l : Option Datetime.Location :=
    if t.loc = none ∨ t.loc = some .localLoc then some (time.Location.get t.loc) else t.loc
  if l ≠ some .utcLoc then
    ar.lookupOffset (time.Location.get l) (ar.unixSec (t.wall, t.ext))
  else 0

/-- The method `Time.Location`: `UTC` for a nil `loc`. -/
def time.Time.Location (t : time.Time) : Datetime.Location :=
  match t.loc with
  | none => .utcLoc
  | some l => l

/-- The method `Time.AddDate`: `Date` of the civil time of `t` with the
arguments added, in `t.Location()`. -/
def time.Time.AddDate (ar : Instants) (t : time.Time) (years months days : Int) :
    Outcome time.Time :=
  let c := ar.civil (t.wall, t.ext) (t.offset ar)
  time.Date ar (c.1 + years) (c.2.1 + months) (c.2.2.1 + days) c.2.2.2.1 c.2.2.2.2.1
    c.2.2.2.2.2.1 c.2.2.2.2.2.2 (some t.Location)

/-- The method `Time.Truncate`: `stripMono`, then `t` for `d <= 0` and
`t.Add(-r)` otherwise. -/
def time.Time.Truncate (ar : Instants) (t : time.Time) (d : Int) : time.Time :=
  let we := ar.stripMono (t.wall, t.ext)
  let t : time.Time := ⟨we.1, we.2, t.loc⟩
  if d ≤ 0 then t
  else
    let r := ar.divRem (t.wall, t.ext) d
    t.Add ar (wrapInt64 (-r))

/-- The method `Time.Round`: `stripMono`, then `t` for `d <= 0`, `t.Add(-r)`
when `r` is less than half of `d`, and `t.Add(d - r)` otherwise. -/
def time.Time.Round (ar : Instants) (t : time.Time) (d : Int) : time.Time :=
  let we := ar.stripMono (t.wall, t.ext)
  let t : time.Time := ⟨we.1, we.2, t.loc⟩
  if d ≤ 0 then t
  else
    let r := ar.divRem (t.wall, t.ext) d
    if time.lessThanHalf r d then t.Add ar (wrapInt64 (-r))
    else t.Add ar (wrapInt64 (d - r))

/-- Two decimal digits, as `appendInt(b, x, 2)` writes them for `0 ≤ x`. -/
def twoDigits (x : Int) : List Char := zeroPad 2 (decimal x.natAbs)

/-- The zone that `Format` writes for the layout `RFC3339`: `Z` for the offset
`0`, otherwise the sign and the hours and minutes of the offset. -/
def time.zoneText (offset : Int) : List Char :=
  if offset = 0 then ['Z']
  else
    let zone := offset.tdiv 60
    (if zone < 0 then ['-'] else ['+']) ++
      twoDigits ((if zone < 0 then -zone else zone).tdiv 60) ++ [':'] ++
      twoDigits ((if zone < 0 then -zone else zone).tmod 60)

/-- The method `Time.Format` for the layout `RFC3339`: the date and the time of
day at the zone offset of `t`, then the zone. -/
def time.Time.formatRFC3339 (ar : Instants) (t : time.Time) : List Char :=
  ar.dateTimeText (t.wall, t.ext) (t.offset ar) ++ time.zoneText (t.offset ar)

/-- The function `Date` (lines 38-43): `time.Date` with the location `time.UTC`. -/
def Date (ar : Instants) (year month day hour minute second nsec : Int) : Outcome Time :=
  time.Date ar year month day hour minute second nsec (some .utcLoc)

/-- The function `Now` (lines 45-49). -/
def Now (ar : Instants) : Time :=
  let now := ar.now
  (time.Unix ar (ar.unixSec (now.wall, now.ext)) (ar.nanosecond (now.wall, now.ext))).UTC ar

/-- The function `Unix` (lines 51-55). -/
def Unix (ar : Instants) (sec nsec : Int) : Time := (time.Unix ar sec nsec).UTC ar

/-- The function `UnixMilli` (lines 57-60). -/
def UnixMilli (ar : Instants) (msec : Int) : Time := (time.UnixMilli ar msec).UTC ar

/-- The method `Time.AddDate` (lines 70-72). -/
def Time.AddDate (ar : Instants) (t : Time) (years months days : Int) : Outcome Time :=
  time.Time.AddDate ar t years months days

/-- The method `Time.Add` (lines 74-76). -/
def Time.Add (ar : Instants) (t : Time) (d : Int) : Time := time.Time.Add ar t d

/-- The method `Time.Truncate` (lines 95-97). -/
def Time.Truncate (ar : Instants) (t : Time) (d : Int) : Time :=
  time.Time.Truncate ar t (time.Duration.Abs d)

/-- The method `Time.Round` (lines 100-102). -/
def Time.Round (ar : Instants) (t : Time) (d : Int) : Time :=
  time.Time.Round ar t (time.Duration.Abs d)

/-- The method `Time.ISOString` (lines 193-195): `t.Format(RFC3339)`. -/
def Time.ISOString (ar : Instants) (t : Time) : String :=
  String.mk (time.Time.formatRFC3339 ar t)

/-- A time is in UTC when `Location()` returns `time.UTC`. -/
def Time.IsUTC (t : Time) : Prop := time.Time.Location t = .utcLoc

instance (t : Time) : Decidable (Time.IsUTC t) := by unfold Time.IsUTC; infer_instance

end Datetime

/-! # Package `base64` (`src/base64/base64.go`)

The functions of the package are thin wrappers around `StdEncoding` and
`RawURLEncoding` of Go's `encoding/base64`, which is embedded first: `Encode`,
`EncodedLen`, `DecodedLen`, `decodeQuantum` and `Decode` with its two fast
paths. A destination buffer is represented by its length and by the bytes
written so far, which are always the bytes `dst[:n]`; a write past the end of
the buffer is `Outcome.panic`. Both encodings are non-strict, so the branches
guarded by `enc.strict` are absent. -/

namespace Base64

open Stringhash (Byte Outcome byteOf)

/-- The bytes of an ASCII string literal. -/
def bytesOf (s : String) : List Byte := s.data.map (fun c => byteOf c.toNat)

/-- The constant `NoPadding`. -/
def NoPadding : Int := -1

/-- The constant `StdPadding`, the character `=`. -/
def StdPadding : Int := 61

/-- The type `Encoding`: the 64-character alphabet `encode`, the 256-entry
`decodeMap` (`0xFF` for a byte outside the alphabet), the padding character and
the strict flag. -/
structure Encoding where
  encode : List Byte
  decodeMap : List Nat
  padChar : Int
  strict : Bool

/-- The alphabet `encodeStd`. -/
def encodeStd : List Byte :=
  bytesOf "ABCDEFGHIJKLMNOPQRSTUVWXYZabcdefghijklmnopqrstuvwxyz0123456789+/"

/-- The alphabet `encodeURL`. -/
def encodeURL : List Byte :=
  bytesOf "ABCDEFGHIJKLMNOPQRSTUVWXYZabcdefghijklmnopqrstuvwxyz0123456789-_"

/-- The function `NewEncoding`: the decode map starts as all `0xFF` and entry
`encoder[i]` is set to `i`. -/
def NewEncoding (encoder : List Byte) : Encoding where
  encode := encoder
  decodeMap := (List.range encoder.length).foldl
    (fun m i => m.set (encoder.getD i 0).val i) (List.replicate 256 0xFF)
  padChar := StdPadding
  strict := false

/-- The method `WithPadding`. -/
def Encoding.WithPadding (enc : Encoding) (padding : Int) : Encoding :=
  { enc with padChar := padding }

/-- The encoding `StdEncoding`. -/
def StdEncoding : Encoding := NewEncoding encodeStd

/-- The encoding `URLEncoding`. -/
def URLEncoding : Encoding := NewEncoding encodeURL

/-- The encoding `RawURLEncoding`: `URLEncoding` without padding. -/
def RawURLEncoding : Encoding := URLEncoding.WithPadding NoPadding

/-- The method `EncodedLen`. -/
def Encoding.EncodedLen (enc : Encoding) (n : Nat) : Nat :=
  if enc.padChar = NoPadding then n / 3 * 4 + (n % 3 * 8 + 5) / 6
  else (n + 2) / 3 * 4

/-- The method `DecodedLen`. -/
def Encoding.DecodedLen (enc : Encoding) (n : Nat) : Nat :=
  if enc.padChar = NoPadding then n / 4 * 3 + n % 4 * 6 / 8
  else n / 4 * 3

/-- The table lookup `enc.encode[v]`. -/
def Encoding.encodeAt (enc : Encoding) (v : Nat) : Byte := enc.encode.getD v 0

/-- The table lookup `enc.decodeMap[in]`. -/
def Encoding.decodeAt (enc : Encoding) (c : Byte) : Nat := enc.decodeMap.getD c.val 0xFF

/-- The conversion `byte(enc.padChar)`. -/
def Encoding.padByte (enc : Encoding) : Byte := byteOf (enc.padChar % 256).toNat

/-- The bytes that `Encode` writes to `dst`, in order: four characters for every
full group of three source bytes, then the block for the one or two remaining
bytes, padded unless the encoding has no padding. -/
def Encoding.encodeBytes (enc : Encoding) : List Byte → List Byte
  | [] => []
  | [a] =>
    let val := a.val <<< 16
    [enc.encodeAt ((val >>> 18) &&& 0x3F), enc.encodeAt ((val >>> 12) &&& 0x3F)] ++
      (if enc.padChar ≠ NoPadding then [enc.padByte, enc.padByte] else [])
  | [a, b] =>
    let val := (a.val <<< 16) ||| (b.val <<< 8)
    [enc.encodeAt ((val >>> 18) &&& 0x3F), enc.encodeAt ((val >>> 12) &&& 0x3F),
      enc.encodeAt ((val >>> 6) &&& 0x3F)] ++
      (if enc.padChar ≠ NoPadding then [enc.padByte] else [])
  | a :: b :: c :: rest =>
    let val := (a.val <<< 16) ||| (b.val <<< 8) ||| c.val
    [enc.encodeAt ((val >>> 18) &&& 0x3F), enc.encodeAt ((val >>> 12) &&& 0x3F),
      enc.encodeAt ((val >>> 6) &&& 0x3F), enc.encodeAt (val &&& 0x3F)] ++
      enc.encodeBytes rest

/-- The method `Encode(dst, src)`: the new contents of `dst`; writing more bytes
than `dst` holds panics. -/
def Encoding.Encode (enc : Encoding) (dst src : List Byte) : Outcome (List Byte) :=
  let out := enc.encodeBytes src
  if out.length ≤ dst.length then .ok (out ++ dst.drop out.length) else .panic

/-- The error type `CorruptInputError`: the offset of the bad input byte, or no
error (`nil`). -/
abbrev DecodeError : Type := Option Int

/-- How the character loop of `decodeQuantum` ends: an early `return si, 0, err`
or leaving the loop with the buffer `dbuf`, the length `dlen` and an error that
is set for trailing garbage after padding. -/
inductive ReadResult where
  | ret (nsi : Nat) (err : DecodeError) : ReadResult
  | done (nsi : Nat) (dbuf : List Nat) (dlen : Nat) (err : DecodeError) : ReadResult
  deriving DecidableEq, Repr

/-- The loop `for si < len(src) && (src[si] == '\n' || src[si] == '\r') { si++ }`
on the unread bytes `src[si:]`. -/
def skipNewlines : List Byte → Nat → List Byte × Nat
  | [], si => ([], si)
  | c :: rest, si =>
    if c.val = 10 ∨ c.val = 13 then skipNewlines rest (si + 1) else (c :: rest, si)

/-- The character loop `for j := 0; j < len(dbuf); j++` of `decodeQuantum`, on
the unread bytes `src[si:]`, from the loop variable `j` and the buffer `dbuf`.
A newline leaves `j` unchanged (`j--` followed by `j++`). -/
def Encoding.readLoop (enc : Encoding) (srcLen : Nat) :
    List Byte → Nat → Nat → List Nat → ReadResult
  | [], si, j, dbuf =>
    if ¬ j < 4 then .done si dbuf 4 none
    else if j = 0 then .ret si none
    else if j = 1 ∨ enc.padChar ≠ NoPadding then .ret si (some ((si : Int) - j))
    else .done si dbuf j none
  | c :: rest, si0, j, dbuf =>
    if ¬ j < 4 then .done si0 dbuf 4 none
    else
      let si := si0 + 1
      let out := enc.decodeAt c
      if out ≠ 0xFF then enc.readLoop srcLen rest si (j + 1) (dbuf.set j out)
      else if c.val = 10 ∨ c.val = 13 then enc.readLoop srcLen rest si j dbuf
      else if (c.val : Int) ≠ enc.padChar then .ret si (some ((si : Int) - 1))
      else if j = 0 ∨ j = 1 then .ret si (some ((si : Int) - 1))
      else if j = 2 then
        match skipNewlines rest si with
        | ([], si1) => .ret si1 (some (srcLen : Int))
        | (c1 :: rest1, si1) =>
          if (c1.val : Int) ≠ enc.padChar then .ret si1 (some ((si1 : Int) - 1))
          else
            match skipNewlines rest1 (si1 + 1) with
            | ([], si2) => .done si2 dbuf j none
            | (_ :: _, si2) => .done si2 dbuf j (some (si2 : Int))
      else
        match skipNewlines rest si with
        | ([], si2) => .done si2 dbuf j none
        | (_ :: _, si2) => .done si2 dbuf j (some (si2 : Int))

/-- The result of `decodeQuantum`: the new source index, the bytes written at
the start of `dst` (their number is the result `n`) and the error. -/
structure Quantum where
  nsi : Nat
  written : List Byte
  err : DecodeError
  deriving DecidableEq, Repr

/-- The method `decodeQuantum(dst, src, si)` for a destination of length
`dstLen`: the character loop, then the conversion of the four 6-bit values into
three bytes, of which `dlen - 1` are written (highest index first, so the write
panics when `dst` is shorter than `dlen - 1`). -/
def Encoding.decodeQuantum (enc : Encoding) (dstLen : Nat) (src : List Byte) (si : Nat) :
    Outcome Quantum :=
  match enc.readLoop src.length (src.drop si) si 0 [0, 0, 0, 0] with
  | .ret nsi err => .ok ⟨nsi, [], err⟩
  | .done nsi dbuf dlen err =>
    let val := (dbuf.getD 0 0 <<< 18) ||| (dbuf.getD 1 0 <<< 12) ||| (dbuf.getD 2 0 <<< 6) |||
      dbuf.getD 3 0
    let b2 := byteOf (val >>> 0)
    let b1 := byteOf (val >>> 8)
    let b0 := byteOf (val >>> 16)
    if dlen = 4 then
      if 2 < dstLen then .ok ⟨nsi, [b0, b1, b2], err⟩ else .panic
    else if dlen = 3 then
      if 1 < dstLen then .ok ⟨nsi, [b0, b1], err⟩ else .panic
    else if dlen = 2 then
      if 0 < dstLen then .ok ⟨nsi, [b0], err⟩ else .panic
    else .ok ⟨nsi, [], err⟩

/-- The function `assemble32`: `none` when one of the four values is `0xFF`. -/
def assemble32 (n1 n2 n3 n4 : Nat) : Option Nat :=
  if n1 ||| n2 ||| n3 ||| n4 = 0xFF then none
  else some ((n1 <<< 26) ||| (n2 <<< 20) ||| (n3 <<< 14) ||| (n4 <<< 8))

/-- The function `assemble64`: `none` when one of the eight values is `0xFF`. -/
def assemble64 (n1 n2 n3 n4 n5 n6 n7 n8 : Nat) : Option Nat :=
  if n1 ||| n2 ||| n3 ||| n4 ||| n5 ||| n6 ||| n7 ||| n8 = 0xFF then none
  else some ((n1 <<< 58) ||| (n2 <<< 52) ||| (n3 <<< 46) ||| (n4 <<< 40) ||| (n5 <<< 34) |||
    (n6 <<< 28) ||| (n7 <<< 22) ||| (n8 <<< 16))

/-- Variables of `Decode`: the source index `si` and the bytes `dst[:n]`. -/
structure DecState where
  si : Nat
  dst : List Byte
  deriving DecidableEq, Repr

/-- How a loop of `Decode` ends: the loop condition fails and the function goes
on, or the function returns `n, err` from inside the loop. -/
inductive LoopExit where
  | next (st : DecState) : LoopExit
  | ret (dst : List Byte) (err : DecodeError) : LoopExit
  deriving DecidableEq, Repr

/-- The statements `si, ninc, err = enc.decodeQuantum(dst[n:], src, si); n += ninc`
followed by `if err != nil { return n, err }`. -/
def Encoding.quantumStep (enc : Encoding) (dstLen : Nat) (src : List Byte) (st : DecState) :
    Outcome LoopExit :=
  match enc.decodeQuantum (dstLen - st.dst.length) src st.si with
  | .ok q =>
    match q.err with
    | some e => .ok (.ret (st.dst ++ q.written) (some e))
    | none => .ok (.next ⟨q.nsi, st.dst ++ q.written⟩)
  | .panic => .panic
  | .outOfFuel => .outOfFuel

/-- The first loop of `Decode`: while at least 8 source bytes and 8 destination
bytes remain, decode 8 characters at once when all are in the alphabet (6 bytes
of the 8 written by `PutUint64` are kept), otherwise call `decodeQuantum`. -/
def Encoding.loop64 (enc : Encoding) (dstLen : Nat) (src : List Byte) :
    Nat → DecState → Outcome LoopExit
  | 0, st =>
    if src.length - st.si ≥ 8 ∧ dstLen - st.dst.length ≥ 8 then .outOfFuel else .ok (.next st)
  | fuel + 1, st =>
    if src.length - st.si ≥ 8 ∧ dstLen - st.dst.length ≥ 8 then
      let src2 := (src.drop st.si).take 8
      match assemble64 (enc.decodeAt (src2.getD 0 0)) (enc.decodeAt (src2.getD 1 0))
          (enc.decodeAt (src2.getD 2 0)) (enc.decodeAt (src2.getD 3 0))
          (enc.decodeAt (src2.getD 4 0)) (enc.decodeAt (src2.getD 5 0))
          (enc.decodeAt (src2.getD 6 0)) (enc.decodeAt (src2.getD 7 0)) with
      | some dn =>
        enc.loop64 dstLen src fuel ⟨st.si + 8, st.dst ++ [byteOf (dn >>> 56), byteOf (dn >>> 48),
          byteOf (dn >>> 40), byteOf (dn >>> 32), byteOf (dn >>> 24), byteOf (dn >>> 16)]⟩
      | none =>
        match enc.quantumStep dstLen src st with
        | .ok (.next st') => enc.loop64 dstLen src fuel st'
        | r => r
    else .ok (.next st)

/-- The second loop of `Decode`: the same with 4 characters and `PutUint32`, of
whose 4 bytes 3 are kept. -/
def Encoding.loop32 (enc : Encoding) (dstLen : Nat) (src : List Byte) :
    Nat → DecState → Outcome LoopExit
  | 0, st =>
    if src.length - st.si ≥ 4 ∧ dstLen - st.dst.length ≥ 4 then .outOfFuel else .ok (.next st)
  | fuel + 1, st =>
    if src.length - st.si ≥ 4 ∧ dstLen - st.dst.length ≥ 4 then
      let src2 := (src.drop st.si).take 4
      match assemble32 (enc.decodeAt (src2.getD 0 0)) (enc.decodeAt (src2.getD 1 0))
          (enc.decodeAt (src2.getD 2 0)) (enc.decodeAt (src2.getD 3 0)) with
      | some dn =>
        enc.loop32 dstLen src fuel ⟨st.si + 4, st.dst ++ [byteOf (dn >>> 24), byteOf (dn >>> 16),
          byteOf (dn >>> 8)]⟩
      | none =>
        match enc.quantumStep dstLen src st with
        | .ok (.next st') => enc.loop32 dstLen src fuel st'
        | r => r
    else .ok (.next st)

/-- The last loop of `Decode`: `for si < len(src)`, one `decodeQuantum` per
iteration. -/
def Encoding.loopTail (enc : Encoding) (dstLen : Nat) (src : List Byte) :
    Nat → DecState → Outcome LoopExit
  | 0, st => if st.si < src.length then .outOfFuel else .ok (.next st)
  | fuel + 1, st =>
    if st.si < src.length then
      match enc.quantumStep dstLen src st with
      | .ok (.next st') => enc.loopTail dstLen src fuel st'
      | r => r
    else .ok (.next st)

/-- The method `Decode(dst, src)` for a destination of length `dstLen`, each loop
limited to `fuel` iterations: the bytes `dst[:n]` and the error. -/
def Encoding.DecodeFuel (enc : Encoding) (fuel dstLen : Nat) (src : List Byte) :
    Outcome (List Byte × DecodeError) :=
  if src.length = 0 then .ok ([], none)
  else
    match enc.loop64 dstLen src fuel ⟨0, []⟩ with
    | .ok (.ret dst err) => .ok (dst, err)
    | .ok (.next st1) =>
      match enc.loop32 dstLen src fuel st1 with
      | .ok (.ret dst err) => .ok (dst, err)
      | .ok (.next st2) =>
        match enc.loopTail dstLen src fuel st2 with
        | .ok (.ret dst err) => .ok (dst, err)
        | .ok (.next st3) => .ok (st3.dst, none)
        | .panic => .panic
        | .outOfFuel => .outOfFuel
      | .panic => .panic
      | .outOfFuel => .outOfFuel
    | .panic => .panic
    | .outOfFuel => .outOfFuel

/-- The method `Decode`: every iteration of a loop consumes at least one source
byte, so `len(src)` iterations of each loop are enough. -/
def Encoding.Decode (enc : Encoding) (dstLen : Nat) (src : List Byte) :
    Outcome (List Byte × DecodeError) :=
  enc.DecodeFuel src.length dstLen src

/-- The function `EncodeBase64Bytes` (lines 28-32). -/
def EncodeBase64Bytes (data : List Byte) : Outcome (List Byte) :=
  StdEncoding.Encode (List.replicate (StdEncoding.EncodedLen data.length) 0) data

/-- The function `DecodeBase64Bytes` (lines 39-45): the bytes `dst[:n]` and the
error. -/
def DecodeBase64Bytes (str : List Byte) : Outcome (List Byte × DecodeError) :=
  StdEncoding.Decode (StdEncoding.DecodedLen str.length) str

/-- The function `EncodeBase64` (lines 48-50). -/
def EncodeBase64 (str : List Byte) : Outcome (List Byte) := EncodeBase64Bytes str

/-- The function `DecodeBase64` (lines 53-60): the empty string with the error,
or the decoded bytes with no error. -/
def DecodeBase64 (str : List Byte) : Outcome (List Byte × DecodeError) :=
  match DecodeBase64Bytes str with
  | .ok (decodedBytes, err) => if err ≠ none then .ok ([], err) else .ok (decodedBytes, none)
  | .panic => .panic
  | .outOfFuel => .outOfFuel

/-- The function `EncodeBase64URLBytes` (lines 67-71). -/
def EncodeBase64URLBytes (data : List Byte) : Outcome (List Byte) :=
  RawURLEncoding.Encode (List.replicate (RawURLEncoding.EncodedLen data.length) 0) data

/-- The function `DecodeBase64URLBytes` (lines 78-84). -/
def DecodeBase64URLBytes (str : List Byte) : Outcome (List Byte × DecodeError) :=
  RawURLEncoding.Decode (RawURLEncoding.DecodedLen str.length) str

/-- The function `EncodeBase64URL` (lines 87-89). -/
def EncodeBase64URL (str : List Byte) : Outcome (List Byte) := EncodeBase64URLBytes str

/-- The function `DecodeBase64URL` (lines 92-98). -/
def DecodeBase64URL (str : List Byte) : Outcome (List Byte × DecodeError) :=
  match DecodeBase64URLBytes str with
  | .ok (decodedBytes, err) => if err ≠ none then .ok ([], err) else .ok (decodedBytes, none)
  | .panic => .panic
  | .outOfFuel => .outOfFuel

/-! ## Predicates on the input of `Decode` -/

/-- The bytes `'\n'` and `'\r'`, which the decoder skips. -/
def isNewline (c : Byte) : Prop := c.val = 10 ∨ c.val = 13

instance (c : Byte) : Decidable (isNewline c) := by unfold isNewline; infer_instance

/-- The input without its `'\r'` and `'\n'` bytes. -/
def strip (s : List Byte) : List Byte := s.filter (fun c => ¬ isNewline c)

/-- The byte `c` is a character of the alphabet of `enc`. -/
def Encoding.Alpha (enc : Encoding) (c : Byte) : Prop := enc.decodeAt c ≠ 0xFF

instance (enc : Encoding) (c : Byte) : Decidable (enc.Alpha c) := by
  unfold Encoding.Alpha; infer_instance

/-- The properties of an encoding that the proofs use: newlines and the padding
character are outside the alphabet, decoded values are below 64, and decoding
an alphabet character gives back its index. -/
structure Encoding.Sound (enc : Encoding) : Prop where
  newline : ∀ c : Byte, isNewline c → enc.decodeAt c = 0xFF
  pad : enc.padChar = NoPadding ∨ (enc.padChar = StdPadding ∧ enc.decodeAt 61 = 0xFF)
  lt : ∀ c : Byte, enc.decodeAt c ≠ 0xFF → enc.decodeAt c < 64
  inv : ∀ v : Fin 64, enc.decodeAt (enc.encodeAt v.val) = v.val

/-- What the character loop of `decodeQuantum` guarantees about its result when
it starts on the unread bytes `rest` at index `si` with loop variable `j`: the
bytes `consumed` it has read, and the shape of their non-newline characters. -/
def ReadSpec (enc : Encoding) (rest : List Byte) (si j : Nat) : ReadResult → Prop
  | .ret nsi err =>
    (∃ consumed rest', rest = consumed ++ rest' ∧ nsi = si + consumed.length ∧
      (rest ≠ [] → consumed ≠ [])) ∧
    (err = none → j = 0 ∧ nsi = si + rest.length ∧ strip rest = [])
  | .done nsi _ dlen err =>
    ∃ consumed rest', rest = consumed ++ rest' ∧ nsi = si + consumed.length ∧
      ((dlen = 4 ∧ err = none ∧ (∀ c ∈ strip consumed, enc.Alpha c) ∧
          j + (strip consumed).length = 4) ∨
        (dlen < 4 ∧ 2 ≤ dlen ∧ enc.padChar = NoPadding ∧ rest' = [] ∧ err = none ∧
          (∀ c ∈ strip consumed, enc.Alpha c) ∧ j + (strip consumed).length = dlen) ∨
        (dlen < 4 ∧ 2 ≤ dlen ∧ enc.padChar ≠ NoPadding ∧ (err = none → rest' = []) ∧
          ∃ body, strip consumed = body ++ List.replicate (4 - dlen) enc.padByte ∧
            (∀ c ∈ body, enc.Alpha c) ∧ j + body.length = dlen))

/-- The inputs that `Decode` accepts, not counting `'\r'` and `'\n'`: without
padding, alphabet characters whose number is not 1 modulo 4; with padding,
alphabet characters followed by at most two padding characters, a multiple of
four in all. -/
def Encoding.WellFormed (enc : Encoding) (s : List Byte) : Prop :=
  if enc.padChar = NoPadding then
    (∀ c ∈ strip s, enc.Alpha c) ∧ (strip s).length % 4 ≠ 1
  else
    ∃ body p, strip s = body ++ List.replicate p enc.padByte ∧ (∀ c ∈ body, enc.Alpha c) ∧
      p ≤ 2 ∧ (strip s).length % 4 = 0

/-- The characters that an input of `DecodeBase64` may contain: `A-Z`, `a-z`,
`0-9`, `+`, `/`, the padding `=`, `'\r'` and `'\n'`. -/
def stdAllowed (c : Byte) : Prop :=
  (65 ≤ c.val ∧ c.val ≤ 90) ∨ (97 ≤ c.val ∧ c.val ≤ 122) ∨ (48 ≤ c.val ∧ c.val ≤ 57) ∨
    c.val = 43 ∨ c.val = 47 ∨ c.val = 61 ∨ c.val = 13 ∨ c.val = 10

instance (c : Byte) : Decidable (stdAllowed c) := by unfold stdAllowed; infer_instance

/-- The characters that an input of `DecodeBase64URL` may contain: `A-Z`, `a-z`,
`0-9`, `-`, `_`, `'\r'` and `'\n'`. -/
def urlAllowed (c : Byte) : Prop :=
  (65 ≤ c.val ∧ c.val ≤ 90) ∨ (97 ≤ c.val ∧ c.val ≤ 122) ∨ (48 ≤ c.val ∧ c.val ≤ 57) ∨
    c.val = 45 ∨ c.val = 95 ∨ c.val = 13 ∨ c.val = 10

instance (c : Byte) : Decidable (urlAllowed c) := by unfold urlAllowed; infer_instance

/-- Every `=` of `s` is one of its last two characters and is followed by `=`
only. -/
def PaddingAtEnd (s : List Byte) : Prop :=
  ∀ i, i < s.length → (s.getD i 0).val = 61 →
    s.length ≤ i + 2 ∧ ∀ k, k < s.length → i < k → (s.getD k 0).val = 61

instance (s : List Byte) : Decidable (PaddingAtEnd s) := by unfold PaddingAtEnd; infer_instance

/-- The function `strings.TrimRight(s, cutset)` on bytes: `s` without its
trailing bytes that are in `cutset`. -/
def trimRight (s cutset : List Byte) : List Byte :=
  (s.reverse.dropWhile (fun c => decide (c ∈ cutset))).reverse

/-- The function `strings.ReplaceAll(s, old, new)` for one-byte `old` and `new`. -/
def replaceAll (s : List Byte) (old new : Byte) : List Byte :=
  s.map (fun c => if c = old then new else c)

/-- The helper `base64ToBase64URL` of `base64_test.go` (lines 227-234), which
the tests use to derive the expected base64url text from the base64 text. -/
def base64ToBase64URL (str : List Byte) : List Byte :=
  let stripPaddingAndSpaceCharacters := trimRight str (bytesOf "\n\r=")
  let replacePlus := replaceAll stripPaddingAndSpaceCharacters 43 45
  let replaceSlash := replaceAll replacePlus 47 95
  replaceSlash

end Base64

/-! # Theorems -/

namespace Stringhash

open utf8

theorem and_63 (n : Nat) : n &&& 0x3F = n % 64 := Nat.and_pow_two_sub_one_eq_mod n 6

theorem and_31 (n : Nat) : n &&& 0x1F = n % 32 := Nat.and_pow_two_sub_one_eq_mod n 5

theorem and_15 (n : Nat) : n &&& 0x0F = n % 16 := Nat.and_pow_two_sub_one_eq_mod n 4

theorem and_7 (n : Nat) : n &&& 0x07 = n % 8 := Nat.and_pow_two_sub_one_eq_mod n 3

theorem and_1023 (n : Nat) : n &&& 0x3ff = n % 1024 := Nat.and_pow_two_sub_one_eq_mod n 10

theorem shl_or (a b k : Nat) (h : b < 2 ^ k) : (a <<< k) ||| b = a * 2 ^ k + b := by
  rw [Nat.shiftLeft_eq, Nat.mul_comm, Nat.mul_add_lt_is_or h]

theorem or2 (a b : Nat) (hb : b < 64) : (a <<< 6) ||| b = a * 64 + b := shl_or a b 6 hb

theorem or3 (a b c : Nat) (hb : b < 64) (hc : c < 64) :
    (a <<< 12) ||| (b <<< 6) ||| c = a * 4096 + b * 64 + c := by
  have h1 : (a <<< 12) ||| (b <<< 6) = (a * 64 + b) <<< 6 := by
    rw [Nat.shiftLeft_eq b, shl_or a (b * 2 ^ 6) 12 (by omega), Nat.shiftLeft_eq]; omega
  rw [h1, shl_or _ _ 6 hc]; omega

theorem or4 (a b c d : Nat) (hb : b < 64) (hc : c < 64) (hd : d < 64) :
    (a <<< 18) ||| (b <<< 12) ||| (c <<< 6) ||| d = a * 262144 + b * 4096 + c * 64 + d := by
  have h1 : (a <<< 18) ||| (b <<< 12) = (a * 64 + b) <<< 12 := by
    rw [Nat.shiftLeft_eq b, shl_or a (b * 2 ^ 12) 18 (by omega), Nat.shiftLeft_eq]; omega
  rw [h1, or3 _ _ _ hc hd]; omega

set_option maxRecDepth 100000 in
theorem first_class : ∀ n < 256,
    (n < 0x80 ∧ first.getD n 0 = as) ∨
    (((0x80 ≤ n ∧ n < 0xC2) ∨ 0xF5 ≤ n) ∧ first.getD n 0 = xx) ∨
    (0xC2 ≤ n ∧ n < 0xE0 ∧ first.getD n 0 = s1) ∨
    (n = 0xE0 ∧ first.getD n 0 = s2) ∨
    (0xE1 ≤ n ∧ n < 0xF0 ∧ n ≠ 0xED ∧ first.getD n 0 = s3) ∨
    (n = 0xED ∧ first.getD n 0 = s4) ∨
    (n = 0xF0 ∧ first.getD n 0 = s5) ∨
    (0xF1 ≤ n ∧ n < 0xF4 ∧ first.getD n 0 = s6) ∨
    (n = 0xF4 ∧ first.getD n 0 = s7) := by decide

theorem runeError_and : RuneError &&& 4294967295 = RuneError := by decide

theorem DecodeRune_eq_decodeSpec (p : List Byte) : DecodeRune p = decodeSpec p := by
  match p with
  | [] => rfl
  | b0 :: tl =>
    have hb0 := b0.isLt
    rcases first_class b0.val hb0 with ⟨h, hx⟩ | ⟨h, hx⟩ | ⟨h, h', hx⟩ | ⟨h, hx⟩ | ⟨h, h', h'', hx⟩ |
      ⟨h, hx⟩ | ⟨h, hx⟩ | ⟨h, h', hx⟩ | ⟨h, hx⟩
    · have hm : b0.val &&& 0xFFFFFFFF = b0.val :=
        Nat.and_pow_two_sub_one_of_lt_two_pow (n := 32) (by omega)
      simp only [DecodeRune, byteAt, List.length_cons, List.getD_cons_zero, hx]
      simp [as, hm, decodeSpec, h]
    · simp only [decodeSpec]
      rw [if_neg (by omega)]
      simp only [DecodeRune, byteAt, List.length_cons, List.getD_cons_zero, hx]
      simp [as, xx, runeError_and]
      split_ifs <;> first | rfl | (exfalso; omega)
    · simp only [decodeSpec]
      rw [if_neg (by omega), if_neg (by omega), if_pos (by omega)]
      simp only [DecodeRune, byteAt, List.length_cons, List.getD_cons_zero, hx]
      match tl with
      | [] => simp [as, s1, and_7]
      | b1 :: tl =>
        simp [as, s1, and_7, and_31, and_63, acceptRanges, locb, hicb, mask2, maskx, inRange]
        rw [or2 _ _ (by omega)]
        split_ifs <;> first | rfl | (exfalso; omega)
    · simp only [decodeSpec]
      rw [if_neg (by omega), if_neg (by omega), if_neg (by omega), if_pos (by omega)]
      simp only [DecodeRune, byteAt, List.length_cons, List.getD_cons_zero, hx]
      match tl with
      | [] => simp [as, s2, and_7]
      | [b1] => simp [as, s2, and_7]
      | b1 :: b2 :: tl =>
        have e1 : secondLo b0.val = 0xA0 := by rw [h]; rfl
        have e2 : secondHi b0.val = 0xBF := by rw [h]; rfl
        simp [as, s2, and_7, and_15, and_63, acceptRanges, locb, hicb, mask3, maskx, inRange,
          e1, e2]
        rw [or3 _ _ _ (by omega) (by omega)]
        split_ifs <;> first | rfl | (exfalso; omega)
    · simp only [decodeSpec]
      rw [if_neg (by omega), if_neg (by omega), if_neg (by omega), if_pos (by omega)]
      simp only [DecodeRune, byteAt, List.length_cons, List.getD_cons_zero, hx]
      match tl with
      | [] => simp [as, s3, and_7]
      | [b1] => simp [as, s3, and_7]
      | b1 :: b2 :: tl =>
        have e1 : secondLo b0.val = 0x80 := by unfold secondLo; split_ifs <;> first | rfl | omega
        have e2 : secondHi b0.val = 0xBF := by unfold secondHi; split_ifs <;> first | rfl | omega
        simp [as, s3, and_7, and_15, and_63, acceptRanges, locb, hicb, mask3, maskx, inRange,
          e1, e2]
        rw [or3 _ _ _ (by omega) (by omega)]
        split_ifs <;> first | rfl | (exfalso; omega)
    · simp only [decodeSpec]
      rw [if_neg (by omega), if_neg (by omega), if_neg (by omega), if_pos (by omega)]
      simp only [DecodeRune, byteAt, List.length_cons, List.getD_cons_zero, hx]
      match tl with
      | [] => simp [as, s4, and_7]
      | [b1] => simp [as, s4, and_7]
      | b1 :: b2 :: tl =>
        have e1 : secondLo b0.val = 0x80 := by rw [h]; rfl
        have e2 : secondHi b0.val = 0x9F := by rw [h]; rfl
        simp [as, s4, and_7, and_15, and_63, acceptRanges, locb, hicb, mask3, maskx, inRange,
          e1, e2]
        rw [or3 _ _ _ (by omega) (by omega)]
        split_ifs <;> first | rfl | (exfalso; omega)
    · simp only [decodeSpec]
      rw [if_neg (by omega), if_neg (by omega), if_neg (by omega), if_neg (by omega),
        if_pos (by omega)]
      simp only [DecodeRune, byteAt, List.length_cons, List.getD_cons_zero, hx]
      match tl with
      | [] => simp [as, s5, and_7]
      | [b1] => simp [as, s5, and_7]
      | [b1, b2] => simp [as, s5, and_7]
      | b1 :: b2 :: b3 :: tl =>
        have e1 : secondLo b0.val = 0x90 := by rw [h]; rfl
        have e2 : secondHi b0.val = 0xBF := by rw [h]; rfl
        simp [as, s5, and_7, and_63, acceptRanges, locb, hicb, mask4, maskx, inRange,
          e1, e2]
        rw [or4 _ _ _ _ (by omega) (by omega) (by omega)]
        split_ifs <;> first | rfl | (exfalso; omega)
    · simp only [decodeSpec]
      rw [if_neg (by omega), if_neg (by omega), if_neg (by omega), if_neg (by omega),
        if_pos (by omega)]
      simp only [DecodeRune, byteAt, List.length_cons, List.getD_cons_zero, hx]
      match tl with
      | [] => simp [as, s6, and_7]
      | [b1] => simp [as, s6, and_7]
      | [b1, b2] => simp [as, s6, and_7]
      | b1 :: b2 :: b3 :: tl =>
        have e1 : secondLo b0.val = 0x80 := by unfold secondLo; split_ifs <;> first | rfl | omega
        have e2 : secondHi b0.val = 0xBF := by unfold secondHi; split_ifs <;> first | rfl | omega
        simp [as, s6, and_7, and_63, acceptRanges, locb, hicb, mask4, maskx, inRange, e1, e2]
        rw [or4 _ _ _ _ (by omega) (by omega) (by omega)]
        split_ifs <;> first | rfl | (exfalso; omega)
    · simp only [decodeSpec]
      rw [if_neg (by omega), if_neg (by omega), if_neg (by omega), if_neg (by omega),
        if_pos (by omega)]
      simp only [DecodeRune, byteAt, List.length_cons, List.getD_cons_zero, hx]
      match tl with
      | [] => simp [as, s7, and_7]
      | [b1] => simp [as, s7, and_7]
      | [b1, b2] => simp [as, s7, and_7]
      | b1 :: b2 :: b3 :: tl =>
        have e1 : secondLo b0.val = 0x80 := by rw [h]; rfl
        have e2 : secondHi b0.val = 0x8F := by rw [h]; rfl
        simp [as, s7, and_7, and_63, acceptRanges, locb, hicb, mask4, maskx, inRange,
          e1, e2]
        rw [or4 _ _ _ _ (by omega) (by omega) (by omega)]
        split_ifs <;> first | rfl | (exfalso; omega)

theorem byteOf_val (n : Nat) : (byteOf n).val = n % 256 := rfl

theorem byteOf_eq (b : Byte) (n : Nat) (h : b.val = n) : byteOf n = b := by
  apply Fin.ext; rw [byteOf_val, ← h]; exact Nat.mod_eq_of_lt b.isLt

theorem byteOf_val_of_lt {n : Nat} (h : n < 256) : (byteOf n).val = n := Nat.mod_eq_of_lt h

theorem decodeSpec_one (b0 : Byte) (tl : List Byte) (h0 : b0.val < 0x80) :
    decodeSpec (b0 :: tl) = (b0.val, 1) := by
  simp only [decodeSpec]; rw [if_pos h0]

theorem decodeSpec_two (b0 b1 : Byte) (tl : List Byte) (h0 : 0xC2 ≤ b0.val) (h0' : b0.val < 0xE0)
    (h1 : 0x80 ≤ b1.val) (h1' : b1.val ≤ 0xBF) :
    decodeSpec (b0 :: b1 :: tl) = (b0.val % 32 * 64 + b1.val % 64, 2) := by
  simp only [decodeSpec, inRange]
  rw [if_neg (by omega), if_neg (by omega), if_pos (by omega), if_pos (by omega)]

theorem decodeSpec_three (b0 b1 b2 : Byte) (tl : List Byte) (h0 : 0xE0 ≤ b0.val)
    (h0' : b0.val < 0xF0) (h1 : 0x80 ≤ b1.val) (h1' : b1.val ≤ 0xBF)
    (hE0 : b0.val = 0xE0 → 0xA0 ≤ b1.val) (hED : b0.val = 0xED → b1.val ≤ 0x9F)
    (h2 : 0x80 ≤ b2.val) (h2' : b2.val ≤ 0xBF) :
    decodeSpec (b0 :: b1 :: b2 :: tl) =
      (b0.val % 16 * 4096 + b1.val % 64 * 64 + b2.val % 64, 3) := by
  have e1 : secondLo b0.val ≤ b1.val := by unfold secondLo; split_ifs <;> omega
  have e2 : b1.val ≤ secondHi b0.val := by unfold secondHi; split_ifs <;> omega
  simp only [decodeSpec, inRange]
  rw [if_neg (by omega), if_neg (by omega), if_neg (by omega), if_pos (by omega),
    if_pos ⟨⟨e1, e2⟩, h2, h2'⟩]

theorem decodeSpec_four (b0 b1 b2 b3 : Byte) (tl : List Byte) (h0 : 0xF0 ≤ b0.val)
    (h0' : b0.val < 0xF5) (h1 : 0x80 ≤ b1.val) (h1' : b1.val ≤ 0xBF)
    (hF0 : b0.val = 0xF0 → 0x90 ≤ b1.val) (hF4 : b0.val = 0xF4 → b1.val ≤ 0x8F)
    (h2 : 0x80 ≤ b2.val) (h2' : b2.val ≤ 0xBF) (h3 : 0x80 ≤ b3.val) (h3' : b3.val ≤ 0xBF) :
    decodeSpec (b0 :: b1 :: b2 :: b3 :: tl) =
      (b0.val % 8 * 262144 + b1.val % 64 * 4096 + b2.val % 64 * 64 + b3.val % 64, 4) := by
  have e1 : secondLo b0.val ≤ b1.val := by unfold secondLo; split_ifs <;> omega
  have e2 : b1.val ≤ secondHi b0.val := by unfold secondHi; split_ifs <;> omega
  simp only [decodeSpec, inRange]
  rw [if_neg (by omega), if_neg (by omega), if_neg (by omega), if_neg (by omega),
    if_pos (by omega), if_pos ⟨⟨e1, e2⟩, ⟨h2, h2'⟩, h3, h3'⟩]

theorem decodeSpec_encode (r : Nat) (hr : IsScalar r) (rest : List Byte) :
    decodeSpec (utf8Encode r ++ rest) = (r, (utf8Encode r).length) := by
  unfold IsScalar at hr
  unfold utf8Encode
  split_ifs with h1 h2 h3
  · have v0 := byteOf_val_of_lt (n := r) (by omega)
    rw [List.singleton_append, decodeSpec_one _ _ (by omega), v0]; rfl
  · have v0 := byteOf_val_of_lt (n := 0xC0 + r / 64) (by omega)
    have v1 := byteOf_val_of_lt (n := 0x80 + r % 64) (by omega)
    simp only [List.cons_append, List.nil_append]
    rw [decodeSpec_two _ _ _ (by omega) (by omega) (by omega) (by omega), v0, v1]
    simp only [List.length_cons, List.length_nil, Prod.mk.injEq, and_true]
    omega
  · have v0 := byteOf_val_of_lt (n := 0xE0 + r / 4096) (by omega)
    have v1 := byteOf_val_of_lt (n := 0x80 + r / 64 % 64) (by omega)
    have v2 := byteOf_val_of_lt (n := 0x80 + r % 64) (by omega)
    simp only [List.cons_append, List.nil_append]
    rw [decodeSpec_three _ _ _ _ (by omega) (by omega) (by omega) (by omega) (by omega) (by omega)
      (by omega) (by omega), v0, v1, v2]
    simp only [List.length_cons, List.length_nil, Prod.mk.injEq, and_true]
    omega
  · have v0 := byteOf_val_of_lt (n := 0xF0 + r / 262144) (by omega)
    have v1 := byteOf_val_of_lt (n := 0x80 + r / 4096 % 64) (by omega)
    have v2 := byteOf_val_of_lt (n := 0x80 + r / 64 % 64) (by omega)
    have v3 := byteOf_val_of_lt (n := 0x80 + r % 64) (by omega)
    simp only [List.cons_append, List.nil_append]
    rw [decodeSpec_four _ _ _ _ _ (by omega) (by omega) (by omega) (by omega) (by omega) (by omega)
      (by omega) (by omega) (by omega) (by omega), v0, v1, v2, v3]
    simp only [List.length_cons, List.length_nil, Prod.mk.injEq, and_true]
    omega

/-- A decode result other than `(RuneError, 1)` comes from a valid encoding. -/
theorem beginsValid_of_decodeSpec (b0 : Byte) (tl : List Byte)
    (h : decodeSpec (b0 :: tl) ≠ (RuneError, 1)) :
    ∃ r rest, IsScalar r ∧ b0 :: tl = utf8Encode r ++ rest := by
  by_cases c1 : b0.val < 0x80
  · refine ⟨b0.val, tl, Or.inl (by omega), ?_⟩
    unfold utf8Encode; rw [if_pos c1, byteOf_eq b0 _ rfl]; rfl
  by_cases c2 : b0.val < 0xC2
  · exfalso; apply h; simp only [decodeSpec]; rw [if_neg c1, if_pos c2]
  by_cases c3 : b0.val < 0xE0
  · match tl, h with
    | [], h => exfalso; apply h; simp only [decodeSpec]; rw [if_neg c1, if_neg c2, if_pos c3]
    | b1 :: tl, h =>
      by_cases d1 : inRange 0x80 0xBF b1
      · obtain ⟨d1, d1'⟩ := d1
        refine ⟨b0.val % 32 * 64 + b1.val % 64, tl, Or.inl (by omega), ?_⟩
        unfold utf8Encode
        rw [if_neg (by omega), if_pos (by omega), byteOf_eq b0 _ (by omega),
          byteOf_eq b1 _ (by omega)]; rfl
      · exfalso; apply h; simp only [decodeSpec]
        rw [if_neg c1, if_neg c2, if_pos c3, if_neg d1]
  by_cases c4 : b0.val < 0xF0
  · have hdef : ∀ t, (∀ b1 b2 t', t = b1 :: b2 :: t' → False) →
        decodeSpec (b0 :: t) = (RuneError, 1) := by
      intro t ht
      simp only [decodeSpec]
      rw [if_neg c1, if_neg c2, if_neg c3, if_pos c4]
    match tl, h with
    | [], h => exact (h (hdef _ (by intro _ _ _ e; cases e))).elim
    | [_], h => exact (h (hdef _ (by intro _ _ _ e; cases e))).elim
    | b1 :: b2 :: tl, h =>
      by_cases d : inRange (secondLo b0.val) (secondHi b0.val) b1 ∧ inRange 0x80 0xBF b2
      · obtain ⟨⟨d1, d1'⟩, d2, d2'⟩ := d
        have l1 : 0x80 ≤ secondLo b0.val := by unfold secondLo; split_ifs <;> omega
        have l2 : secondHi b0.val ≤ 0xBF := by unfold secondHi; split_ifs <;> omega
        have l3 : b0.val = 0xE0 → 0xA0 ≤ b1.val := by
          intro e; rw [e] at d1; exact d1
        have l4 : b0.val = 0xED → b1.val ≤ 0x9F := by
          intro e; rw [e] at d1'; exact d1'
        refine ⟨b0.val % 16 * 4096 + b1.val % 64 * 64 + b2.val % 64, tl, by unfold IsScalar; omega, ?_⟩
        unfold utf8Encode
        rw [if_neg (by omega), if_neg (by omega), if_pos (by omega), byteOf_eq b0 _ (by omega),
          byteOf_eq b1 _ (by omega), byteOf_eq b2 _ (by omega)]; rfl
      · exfalso; apply h; simp only [decodeSpec]
        rw [if_neg c1, if_neg c2, if_neg c3, if_pos c4, if_neg d]
  by_cases c5 : b0.val < 0xF5
  · have hdef : ∀ t, (∀ b1 b2 b3 t', t = b1 :: b2 :: b3 :: t' → False) →
        decodeSpec (b0 :: t) = (RuneError, 1) := by
      intro t ht
      simp only [decodeSpec]
      rw [if_neg c1, if_neg c2, if_neg c3, if_neg c4, if_pos c5]
    match tl, h with
    | [], h => exact (h (hdef _ (by intro _ _ _ _ e; cases e))).elim
    | [_], h => exact (h (hdef _ (by intro _ _ _ _ e; cases e))).elim
    | [_, _], h => exact (h (hdef _ (by intro _ _ _ _ e; cases e))).elim
    | b1 :: b2 :: b3 :: tl, h =>
      by_cases d : inRange (secondLo b0.val) (secondHi b0.val) b1 ∧ inRange 0x80 0xBF b2 ∧
          inRange 0x80 0xBF b3
      · obtain ⟨⟨d1, d1'⟩, ⟨d2, d2'⟩, d3, d3'⟩ := d
        have l1 : 0x80 ≤ secondLo b0.val := by unfold secondLo; split_ifs <;> omega
        have l2 : secondHi b0.val ≤ 0xBF := by unfold secondHi; split_ifs <;> omega
        have l3 : b0.val = 0xF0 → 0x90 ≤ b1.val := by
          intro e; rw [e] at d1; exact d1
        have l4 : b0.val = 0xF4 → b1.val ≤ 0x8F := by
          intro e; rw [e] at d1'; exact d1'
        refine ⟨b0.val % 8 * 262144 + b1.val % 64 * 4096 + b2.val % 64 * 64 + b3.val % 64, tl,
          by unfold IsScalar; omega, ?_⟩
        unfold utf8Encode
        rw [if_neg (by omega), if_neg (by omega), if_neg (by omega), byteOf_eq b0 _ (by omega),
          byteOf_eq b1 _ (by omega), byteOf_eq b2 _ (by omega), byteOf_eq b3 _ (by omega)]; rfl
      · exfalso; apply h; simp only [decodeSpec]
        rw [if_neg c1, if_neg c2, if_neg c3, if_neg c4, if_pos c5, if_neg d]
  · exfalso; apply h; simp only [decodeSpec]
    rw [if_neg c1, if_neg c2, if_neg c3, if_neg c4, if_neg c5]

/-! ### Buffer lemmas -/

theorem take_set_of_le (buf : List Nat) (j k v : Nat) (h : k ≤ j) :
    (buf.set j v).take k = buf.take k := by
  induction buf generalizing j k with
  | nil => simp
  | cons a t ih =>
    cases k with
    | zero => simp
    | succ k =>
      cases j with
      | zero => omega
      | succ j => simp [List.set, ih j k (by omega)]

theorem take_set_succ (buf : List Nat) (j v : Nat) (h : j < buf.length) :
    (buf.set j v).take (j + 1) = buf.take j ++ [v] := by
  induction buf generalizing j with
  | nil => simp at h
  | cons a t ih =>
    cases j with
    | zero => simp
    | succ j => simp [List.set, ih j (by simpa using h)]

theorem drop_eq_cons (str : List Byte) (i : Nat) (h : i < str.length) :
    ∃ b tl, str.drop i = b :: tl ∧ str[i]? = some b ∧ tl = str.drop (i + 1) := by
  refine ⟨str[i], str.drop (i + 1), ?_, ?_, rfl⟩
  · exact List.drop_eq_getElem_cons h
  · exact List.getElem?_eq_getElem h

/-! ### Shape of the results of `DecodeRune` -/

theorem utf8Encode_length (r : Nat) :
    (utf8Encode r).length =
      if r < 0x80 then 1 else if r < 0x800 then 2 else if r < 0x10000 then 3 else 4 := by
  unfold utf8Encode; split_ifs <;> rfl

theorem DecodeRune_cases (p : List Byte) (hp : p ≠ []) :
    DecodeRune p = (RuneError, 1) ∨
      ∃ r rest, IsScalar r ∧ p = utf8Encode r ++ rest ∧
        DecodeRune p = (r, (utf8Encode r).length) := by
  match p, hp with
  | b0 :: tl, _ =>
    by_cases h : decodeSpec (b0 :: tl) = (RuneError, 1)
    · left; rw [DecodeRune_eq_decodeSpec]; exact h
    · right
      obtain ⟨r, rest, hr, he⟩ := beginsValid_of_decodeSpec b0 tl h
      refine ⟨r, rest, hr, he, ?_⟩
      rw [DecodeRune_eq_decodeSpec, he]; exact decodeSpec_encode r hr rest

theorem DecodeRune_encode (r : Nat) (hr : IsScalar r) (rest : List Byte) :
    DecodeRune (utf8Encode r ++ rest) = (r, (utf8Encode r).length) := by
  rw [DecodeRune_eq_decodeSpec]; exact decodeSpec_encode r hr rest

/-- Width and value bounds of a decode step on a non-empty slice. -/
theorem DecodeRune_bounds (p : List Byte) (hp : p ≠ []) :
    1 ≤ (DecodeRune p).2 ∧ (DecodeRune p).2 ≤ p.length ∧ (DecodeRune p).1 ≤ 0x10FFFF ∧
      (0x10000 ≤ (DecodeRune p).1 → (DecodeRune p).2 = 4) ∧ IsScalar (DecodeRune p).1 := by
  rcases DecodeRune_cases p hp with h | ⟨r, rest, hr, he, h⟩
  · rw [h]
    have : 1 ≤ p.length := by
      cases p with
      | nil => exact absurd rfl hp
      | cons a t => simp
    refine ⟨by simp, by simpa using this, by simp [RuneError], by simp [RuneError], ?_⟩
    simp [RuneError, IsScalar]
  · rw [h]
    have hl := utf8Encode_length r
    have hlen : p.length = (utf8Encode r).length + rest.length := by rw [he]; simp
    unfold IsScalar at hr
    refine ⟨?_, ?_, ?_, ?_, ?_⟩
    · show 1 ≤ (utf8Encode r).length
      rw [hl]; split_ifs <;> omega
    · show (utf8Encode r).length ≤ p.length
      omega
    · show r ≤ 0x10FFFF
      omega
    · intro h'
      show (utf8Encode r).length = 4
      have h'' : 0x10000 ≤ r := h'
      rw [hl]; split_ifs <;> omega
    · exact hr


/-! ### One iteration of the conversion loop -/

theorem RuneLen_two (r : Nat) (h : utf16.RuneLen r = 2) : 0x10000 ≤ r ∧ r ≤ 0x10FFFF := by
  unfold utf16.RuneLen at h
  simp only [utf16.surr1, utf16.surr3, utf16.surrSelf, utf16.maxRune] at h
  split_ifs at h with h1 h2
  all_goals first | exact h2 | omega

theorem stepUnits_length_le (p : List Byte) (hp : p ≠ []) :
    (stepUnits p).length ≤ (DecodeRune p).2 := by
  have hb := DecodeRune_bounds p hp
  rcases hd : DecodeRune p with ⟨r, w⟩
  rw [hd] at hb
  simp only [stepUnits, hd]
  split_ifs with h1 h2 h3
  · simp; omega
  · simp; omega
  · have := RuneLen_two r h3
    have := hb.2.2.2.1 this.1
    simp; omega
  · simp

theorem stepUnits_lt (p : List Byte) : ∀ u ∈ stepUnits p, u < 2 ^ 32 := by
  intro u hu
  rcases hd : DecodeRune p with ⟨r, w⟩
  simp only [stepUnits, hd] at hu
  split_ifs at hu <;> simp at hu
  · rw [hu]; exact Nat.mod_lt _ (by decide)
  · rw [hu]; exact Nat.mod_lt _ (by decide)
  · rcases hu with hu | hu <;> rw [hu] <;> exact Nat.mod_lt _ (by decide)

theorem convertBody_ok (str : List Byte) (buf : List Nat) (i j : Nat) (hi : i < str.length)
    (hj : j ≤ i) (hb : str.length ≤ buf.length) :
    ∃ buf', convertBody str ⟨buf, i, j⟩ =
        .ok ⟨buf', i + (DecodeRune (str.drop i)).2, j + (stepUnits (str.drop i)).length⟩ ∧
      buf'.length = buf.length ∧
      buf'.take (j + (stepUnits (str.drop i)).length) = buf.take j ++ stepUnits (str.drop i) := by
  obtain ⟨b, tl, hdrop, hget, _⟩ := drop_eq_cons str i hi
  have hp : str.drop i ≠ [] := by rw [hdrop]; simp
  have hbd := DecodeRune_bounds _ hp
  have hlen : (str.drop i).length = str.length - i := by simp
  have hsl := stepUnits_length_le _ hp
  have hb0 : byteAt (str.drop i) 0 = b.val := by rw [hdrop]; rfl
  rcases hd : DecodeRune (str.drop i) with ⟨r, w⟩
  rw [hd] at hbd hsl
  simp only [stepUnits, hd] at hsl ⊢
  simp only [convertBody, hd, hget, hb0]
  split_ifs with h1 h2 h3
  · refine ⟨buf.set j (b.val % 2 ^ 32), ?_, by simp, ?_⟩
    · simp only [store]; rw [if_pos (by omega)]; rfl
    · exact take_set_succ buf j _ (by omega)
  · refine ⟨buf.set j (r % 2 ^ 32), ?_, by simp, ?_⟩
    · simp only [store]; rw [if_pos (by omega)]; rfl
    · exact take_set_succ buf j _ (by omega)
  · have h4 := hbd.2.2.2.1 (RuneLen_two r h3).1
    simp only at h4
    rcases he : utf16.EncodeRune r with ⟨r1, r2⟩
    refine ⟨(buf.set j (r1 % 2 ^ 32)).set (j + 1) (r2 % 2 ^ 32), ?_, by simp, ?_⟩
    · simp only [store]
      rw [if_pos (by omega)]
      simp only [List.length_set]
      rw [if_pos (by omega)]; rfl
    · simp only [List.length_cons, List.length_nil]
      have e1 := take_set_succ (buf.set j (r1 % 2 ^ 32)) (j + 1) (r2 % 2 ^ 32)
        (by simp; omega)
      have e2 := take_set_succ buf j (r1 % 2 ^ 32) (by omega)
      rw [show j + (0 + 1 + 1) = j + 1 + 1 by omega, e1, e2]; simp
  · exact ⟨buf, rfl, rfl, by simp⟩


/-! ### The conversion loop and the recurrence loop -/

theorem codeUnitsFuel_cons (fuel : Nat) (p : List Byte) (hp : p ≠ []) :
    codeUnitsFuel (fuel + 1) p =
      stepUnits p ++ codeUnitsFuel fuel (p.drop (DecodeRune p).2) := by
  have : p.length ≠ 0 := by
    cases p with
    | nil => exact absurd rfl hp
    | cons a t => simp
  simp only [codeUnitsFuel]; rw [if_neg this]

theorem codeUnitsFuel_nil (fuel : Nat) : codeUnitsFuel fuel [] = [] := by
  cases fuel <;> simp [codeUnitsFuel]

theorem codeUnitsFuel_congr : ∀ (f1 f2 : Nat) (p : List Byte), p.length ≤ f1 → p.length ≤ f2 →
    codeUnitsFuel f1 p = codeUnitsFuel f2 p := by
  intro f1
  induction f1 with
  | zero =>
    intro f2 p h1 _
    have : p = [] := List.eq_nil_of_length_eq_zero (by omega)
    rw [this, codeUnitsFuel_nil, codeUnitsFuel_nil]
  | succ f1 ih =>
    intro f2 p h1 h2
    by_cases hp : p = []
    · rw [hp, codeUnitsFuel_nil, codeUnitsFuel_nil]
    · have hb := DecodeRune_bounds p hp
      cases f2 with
      | zero =>
        exact absurd (List.eq_nil_of_length_eq_zero (by omega)) hp
      | succ f2 =>
        rw [codeUnitsFuel_cons _ _ hp, codeUnitsFuel_cons _ _ hp]
        congr 1
        apply ih <;> simp only [List.length_drop] <;> omega

theorem codeUnitsFuel_eq (fuel : Nat) (p : List Byte) (h : p.length ≤ fuel) :
    codeUnitsFuel fuel p = codeUnits p :=
  codeUnitsFuel_congr fuel p.length p h (Nat.le_refl _)

theorem codeUnits_lt (p : List Byte) : ∀ u ∈ codeUnits p, u < 2 ^ 32 := by
  unfold codeUnits
  generalize p.length = fuel
  induction fuel generalizing p with
  | zero => intro u hu; simp [codeUnitsFuel] at hu
  | succ f ih =>
    intro u hu
    by_cases hp : p = []
    · rw [hp, codeUnitsFuel_nil] at hu; simp at hu
    · rw [codeUnitsFuel_cons _ _ hp, List.mem_append] at hu
      rcases hu with hu | hu
      · exact stepUnits_lt p u hu
      · exact ih _ u hu

theorem convertLoop_spec (str : List Byte) : ∀ (fuel : Nat) (buf : List Nat) (i j : Nat),
    j ≤ i → i ≤ str.length → str.length ≤ buf.length → str.length - i ≤ fuel →
    ∃ buf', convertLoop str str.length fuel ⟨buf, i, j⟩ =
        .ok ⟨buf', str.length, j + (codeUnits (str.drop i)).length⟩ ∧
      buf'.length = buf.length ∧
      buf'.take (j + (codeUnits (str.drop i)).length) = buf.take j ++ codeUnits (str.drop i) ∧
      j + (codeUnits (str.drop i)).length ≤ str.length := by
  intro fuel
  induction fuel with
  | zero =>
    intro buf i j hj hi hb hf
    have hil : i = str.length := by omega
    subst hil
    refine ⟨buf, ?_, rfl, ?_, ?_⟩
    · simp [convertLoop, codeUnits, codeUnitsFuel_nil]
    · simp [codeUnits, codeUnitsFuel_nil]
    · simp [codeUnits, codeUnitsFuel_nil]; exact hj
  | succ f ih =>
    intro buf i j hj hi hb hf
    by_cases hil : i = str.length
    · subst hil
      refine ⟨buf, ?_, rfl, ?_, ?_⟩
      · simp [convertLoop, codeUnits, codeUnitsFuel_nil]
      · simp [codeUnits, codeUnitsFuel_nil]
      · simp [codeUnits, codeUnitsFuel_nil]; exact hj
    · have hi' : i < str.length := by omega
      have hp : str.drop i ≠ [] := by
        intro h
        have := congrArg List.length h
        simp at this; omega
      obtain ⟨buf1, hbody, hlen1, htake1⟩ := convertBody_ok str buf i j hi' hj hb
      have hbd := DecodeRune_bounds _ hp
      have hsl := stepUnits_length_le _ hp
      have hdl : (str.drop i).length = str.length - i := by simp
      obtain ⟨buf', hloop, hlen', htake', hle'⟩ :=
        ih buf1 (i + (DecodeRune (str.drop i)).2) (j + (stepUnits (str.drop i)).length)
          (by omega) (by omega) (by omega) (by omega)
      have hcu : codeUnits (str.drop i) = stepUnits (str.drop i) ++
          codeUnits (str.drop (i + (DecodeRune (str.drop i)).2)) := by
        have e : codeUnits (str.drop i) = codeUnitsFuel ((str.drop i).length - 1 + 1) (str.drop i) := by
          unfold codeUnits; congr 1; omega
        rw [e, codeUnitsFuel_cons _ _ hp, List.drop_drop]
        congr 1
        rw [Nat.add_comm]
        apply codeUnitsFuel_eq
        simp only [List.length_drop]; omega
      refine ⟨buf', ?_, by omega, ?_, ?_⟩
      · simp only [convertLoop]
        rw [if_pos ⟨hi', hj⟩, hbody]
        simp only
        rw [hloop, hcu]
        simp only [List.length_append, Nat.add_assoc]
      · rw [hcu]
        simp only [List.length_append, ← Nat.add_assoc, ← List.append_assoc]
        rw [htake', htake1]
      · rw [hcu]; simp only [List.length_append]; omega

theorem hashLoop_eq (cp : List Nat) : ∀ (n hash : Nat), n ≤ cp.length →
    hashLoop cp n hash =
      .ok ((cp.take n).foldr (fun c acc => ((acc * 33) % 2 ^ 32) ^^^ (c % 2 ^ 32)) hash) := by
  intro n
  induction n with
  | zero => intro hash _; simp [hashLoop]
  | succ n ih =>
    intro hash hn
    have hlt : n < cp.length := by omega
    simp only [hashLoop]
    rw [List.getElem?_eq_getElem hlt]
    simp only
    rw [ih _ (by omega), List.take_succ, List.getElem?_eq_getElem hlt]
    simp only [Option.toList, List.foldr_append, List.foldr_cons, List.foldr_nil]

theorem foldUnits_eq_foldr (us : List Nat) (h : ∀ u ∈ us, u < 2 ^ 32) :
    us.foldr (fun c acc => ((acc * 33) % 2 ^ 32) ^^^ (c % 2 ^ 32)) 5381 = foldUnits us := by
  induction us with
  | nil => rfl
  | cons c rest ih =>
    simp only [List.foldr_cons, foldUnits]
    rw [ih (fun u hu => h u (List.mem_cons_of_mem _ hu)),
      Nat.mod_eq_of_lt (h c (List.mem_cons_self _ _))]

theorem scratch_length (n : Nat) : n ≤ (scratch n).length := by
  unfold scratch stackAllocateSizeLimit
  split_ifs with h
  · rw [List.length_replicate]; exact h
  · rw [List.length_replicate]

theorem hint_lt (n : Nat) (h : 0 < n) : (n + 2 ^ 64 - 1) % 2 ^ 64 < n := by
  have e : n + 2 ^ 64 - 1 = (n - 1) + 2 ^ 64 := by omega
  rw [e, Nat.add_mod_right]
  exact Nat.lt_of_le_of_lt (Nat.mod_le _ _) (by omega)

/-- With any scratch buffer at least as long as the input and any fuel at
least the input length, the body of `Hash` returns the fold of the extracted
code units. -/
theorem hashCore_eq (str : List Byte) (hs : str ≠ []) (buf : List Nat) (fuel : Nat)
    (hb : str.length ≤ buf.length) (hf : str.length ≤ fuel) :
    hashCore buf fuel str = .ok (foldUnits (codeUnits str)) := by
  have hpos : 0 < str.length := by
    cases str with
    | nil => exact absurd rfl hs
    | cons a t => simp
  have hh := hint_lt str.length hpos
  obtain ⟨buf', hloop, hlen', htake', hle'⟩ :=
    convertLoop_spec str fuel buf 0 0 (Nat.le_refl _) (Nat.zero_le _) hb (by omega)
  simp only [List.drop_zero, Nat.zero_add, List.take_zero, List.nil_append] at hloop htake' hle'
  simp only [hashCore]
  rw [if_neg (by omega), if_neg (by omega), hloop]
  simp only
  rw [if_pos (by omega), htake', hashLoop_eq _ _ _ (Nat.le_refl _), List.take_length,
    foldUnits_eq_foldr _ (codeUnits_lt str)]


/-! ### Consequences for `Hash` -/

theorem Hash_eq (str : List Byte) (hs : str ≠ []) :
    Hash str = .ok (foldUnits (codeUnits str)) :=
  hashCore_eq str hs (scratch str.length) str.length (scratch_length _) (Nat.le_refl _)

theorem foldUnits_lt (us : List Nat) (h : ∀ u ∈ us, u < 2 ^ 32) : foldUnits us < 2 ^ 32 := by
  cases us with
  | nil => simp [foldUnits]
  | cons c rest =>
    simp only [foldUnits]
    exact Nat.xor_lt_two_pow (Nat.mod_lt _ (by decide)) (h c (List.mem_cons_self _ _))

theorem Hash_nil : Hash [] = .panic := by decide

theorem stepUnits_ascii (b : Byte) (tl : List Byte) (h : b.val < 0x80) :
    stepUnits (b :: tl) = [b.val] ∧ (DecodeRune (b :: tl)).2 = 1 := by
  have hd : DecodeRune (b :: tl) = (b.val, 1) := by
    rw [DecodeRune_eq_decodeSpec]; exact decodeSpec_one b tl h
  have hl : utf16.RuneLen b.val = 1 := by
    unfold utf16.RuneLen utf16.surr1; rw [if_pos (Or.inl (by omega))]
  have hne : b.val ≠ RuneError := by unfold RuneError; omega
  refine ⟨?_, by rw [hd]⟩
  simp only [stepUnits, hd, hl]
  rw [if_pos trivial, if_neg hne, Nat.mod_eq_of_lt (by omega)]

theorem codeUnits_ascii (s : List Byte) (h : ∀ b ∈ s, b.val < 0x80) :
    codeUnits s = s.map Fin.val := by
  induction s with
  | nil => rfl
  | cons b tl ih =>
    have hb := h b (List.mem_cons_self _ _)
    obtain ⟨h1, h2⟩ := stepUnits_ascii b tl hb
    have e : codeUnits (b :: tl) = codeUnitsFuel (tl.length + 1) (b :: tl) := rfl
    rw [e, codeUnitsFuel_cons _ _ (by simp), h1, h2]
    simp only [List.drop_succ_cons, List.drop_zero, List.map_cons, List.singleton_append]
    congr 1
    exact ih (fun x hx => h x (List.mem_cons_of_mem _ hx))

theorem foldUnits_map_val (s : List Byte) : foldUnits (s.map Fin.val) = asciiFold s := by
  induction s with
  | nil => rfl
  | cons b tl ih => simp only [List.map_cons, foldUnits, asciiFold, ih]

/-! ### Validity of the bytes at a scan position -/

theorem not_beginsValid_of_DecodeRune (p : List Byte) (h : DecodeRune p = (RuneError, 1)) :
    ¬ BeginsValid p := by
  rintro ⟨r, hr, rest, he⟩
  have hd := DecodeRune_encode r hr rest
  rw [he, h] at hd
  have h1 : r = RuneError := (Prod.mk.inj hd).1.symm
  have h2 : (utf8Encode r).length = 1 := (Prod.mk.inj hd).2.symm
  rw [h1, utf8Encode_length] at h2
  simp [RuneError] at h2

theorem DecodeRune_of_not_beginsValid (p : List Byte) (hp : p ≠ []) (h : ¬ BeginsValid p) :
    DecodeRune p = (RuneError, 1) := by
  rcases DecodeRune_cases p hp with h' | ⟨r, rest, hr, he, _⟩
  · exact h'
  · exact absurd ⟨r, hr, rest, he.symm⟩ h

theorem DecodeRune_of_prefix (p : List Byte) (r : Nat) (hr : IsScalar r)
    (h : utf8Encode r <+: p) : DecodeRune p = (r, (utf8Encode r).length) := by
  obtain ⟨rest, he⟩ := h
  rw [← he]; exact DecodeRune_encode r hr rest

theorem convertLoop_step (str : List Byte) (fuel : Nat) (st st' : ConvState)
    (hi : st.i < str.length) (hj : st.j ≤ st.i) (h : convertBody str st = .ok st') :
    convertLoop str str.length (fuel + 1) st = convertLoop str str.length fuel st' := by
  simp only [convertLoop]
  rw [if_pos ⟨hi, hj⟩, h]


/-! ### The claims -/

/-- C1: `Hash` does not agree with the reference JavaScript hash on every
non-empty well-formed UTF-8 string. On the one-character text U+FFFD (bytes
`EF BF BD`) `Hash` returns 177482, the reference recurrence over the UTF-16
unit `0xFFFD` gives 150104. The two test vectors of the claim do hold. -/
theorem C1_hash_differs_on_replacement_character :
    IsScalar 0xFFFD ∧ utf8String [0xFFFD] = [0xEF, 0xBF, 0xBD] ∧
      utf16String [0xFFFD] = [0xFFFD] ∧
      Hash (utf8String [0xFFFD]) = Outcome.ok 177482 ∧
      foldUnits (utf16String [0xFFFD]) = 150104 ∧
      Hash (utf8String [0xFFFD]) ≠ Outcome.ok (foldUnits (utf16String [0xFFFD])) ∧
      Hash helloCjkBytes = Outcome.ok 1861035601 ∧
      Hash supplementaryBytes = Outcome.ok 1362180894 := by
  set_option maxRecDepth 100000 in decide

/-- C2: on the empty string `Hash` does not return the seed 5381: the
bounds-check hint `strBytes[lenStr-1]` reads index `2^64 - 1` of an empty slice
and panics, whatever the fuel; the recurrence over no code units would give
5381. -/
theorem C2_hash_empty_panics :
    Hash [] = Outcome.panic ∧ (∀ fuel, HashFuel fuel [] = Outcome.panic) ∧
      foldUnits (codeUnits []) = 5381 := by
  refine ⟨by decide, ?_, by decide⟩
  intro fuel
  simp [HashFuel, hashCore]

/-- C3: `Hash` returns a `uint32` value exactly on the non-empty inputs: for a
non-empty byte sequence it returns `ok v` with `v < 2^32`, for every fuel at
least the input length; on the empty input it panics. -/
theorem C3_hash_total_iff_nonempty (str : List Byte) :
    (∃ v, v < 2 ^ 32 ∧ Hash str = Outcome.ok v ∧
        ∀ fuel, str.length ≤ fuel → HashFuel fuel str = Outcome.ok v) ↔ str ≠ [] := by
  constructor
  · rintro ⟨v, _, hv, _⟩ hs
    rw [hs, Hash_nil] at hv
    cases hv
  · intro hs
    refine ⟨foldUnits (codeUnits str), foldUnits_lt _ (codeUnits_lt str), Hash_eq str hs, ?_⟩
    intro fuel hf
    exact hashCore_eq str hs (scratch str.length) fuel (scratch_length _) hf

/-- C4: at a scan position `i` (loop guard `i < lenStr`, `j <= i`, buffer at
least as long as the input) where the unread bytes do not begin with the UTF-8
encoding of a scalar value, the loop body writes the single code unit
`strBytes[i]` at `j` and continues at `i + 1`, `j + 1`. -/
theorem C4_invalid_byte_emitted (str : List Byte) (buf : List Nat) (i j : Nat)
    (hi : i < str.length) (hj : j ≤ i) (hb : str.length ≤ buf.length)
    (hinv : ¬ BeginsValid (str.drop i)) :
    ∃ b, str[i]? = some b ∧ stepUnits (str.drop i) = [b.val] ∧
      convertBody str ⟨buf, i, j⟩ = Outcome.ok ⟨buf.set j b.val, i + 1, j + 1⟩ ∧
      ∀ fuel, convertLoop str str.length (fuel + 1) ⟨buf, i, j⟩ =
        convertLoop str str.length fuel ⟨buf.set j b.val, i + 1, j + 1⟩ := by
  obtain ⟨b, tl, hdrop, hget, _⟩ := drop_eq_cons str i hi
  have hp : str.drop i ≠ [] := by rw [hdrop]; simp
  have hd := DecodeRune_of_not_beginsValid _ hp hinv
  have hl : utf16.RuneLen RuneError = 1 := by decide
  have hm : b.val % 2 ^ 32 = b.val := Nat.mod_eq_of_lt (by omega)
  have hb0 : byteAt (str.drop i) 0 = b.val := by rw [hdrop]; rfl
  have hbody : convertBody str ⟨buf, i, j⟩ = Outcome.ok ⟨buf.set j b.val, i + 1, j + 1⟩ := by
    simp only [convertBody, hd, hl, hget, store, hm]
    rw [if_pos trivial, if_pos trivial, if_pos (by omega)]
  refine ⟨b, hget, ?_, hbody, fun fuel => convertLoop_step str fuel _ _ hi hj hbody⟩
  simp only [stepUnits, hd, hl, hb0, hm]
  rw [if_pos trivial, if_pos trivial]

/-- Witness of C4 on the test string `"\xed\x80\x01"`: position 0 does not
begin a valid encoding, the byte 0xED is written as a code unit, the units of
the whole string are `[0xED, 0x80, 0x01]` and the hash is 193380297. -/
theorem C4_invalid_byte_emitted_witness :
    (0 < invalidBytes.length ∧ 0 ≤ 0 ∧ invalidBytes.length ≤ (scratch 3).length ∧
        ¬ BeginsValid (invalidBytes.drop 0)) ∧
      (∃ b, invalidBytes[0]? = some b ∧ stepUnits (invalidBytes.drop 0) = [b.val] ∧
        convertBody invalidBytes ⟨scratch 3, 0, 0⟩ =
          Outcome.ok ⟨(scratch 3).set 0 b.val, 0 + 1, 0 + 1⟩ ∧
        ∀ fuel, convertLoop invalidBytes invalidBytes.length (fuel + 1) ⟨scratch 3, 0, 0⟩ =
          convertLoop invalidBytes invalidBytes.length fuel
            ⟨(scratch 3).set 0 b.val, 0 + 1, 0 + 1⟩) ∧
      codeUnits invalidBytes = [0xED, 0x80, 0x01] ∧
      Hash invalidBytes = Outcome.ok 193380297 :=
  ⟨⟨by decide, Nat.le_refl 0, scratch_length 3,
      not_beginsValid_of_DecodeRune _ (by decide)⟩,
    C4_invalid_byte_emitted invalidBytes (scratch 3) 0 0 (by decide) (Nat.le_refl 0)
      (scratch_length 3) (not_beginsValid_of_DecodeRune _ (by decide)),
    by decide, by set_option maxRecDepth 100000 in decide⟩


/-- C5: at a scan position that begins with the valid (1 to 3 byte) encoding
of a scalar value `r < U+10000`, the loop body writes exactly one code unit and
advances by the width of the encoding; the unit is `r` for every `r` other than
U+FFFD, and for `r = U+FFFD` it is the lead byte `0xEF` of the encoding, not
the scalar value. -/
theorem C5_bmp_scalar_step (str : List Byte) (buf : List Nat) (i j r : Nat)
    (hi : i < str.length) (hj : j ≤ i) (hb : str.length ≤ buf.length)
    (hr : IsScalar r) (hlt : r < 0x10000) (hp : utf8Encode r <+: str.drop i) :
    (utf8Encode r).length ≤ 3 ∧
      convertBody str ⟨buf, i, j⟩ =
        Outcome.ok ⟨buf.set j (if r = 0xFFFD then 0xEF else r),
          i + (utf8Encode r).length, j + 1⟩ := by
  obtain ⟨b, tl, hdrop, hget, _⟩ := drop_eq_cons str i hi
  have hd := DecodeRune_of_prefix _ r hr hp
  have hlen := utf8Encode_length r
  have hl : utf16.RuneLen r = 1 := by
    unfold IsScalar at hr
    unfold utf16.RuneLen utf16.surr1 utf16.surr3 utf16.surrSelf
    rw [if_pos (by omega)]
  refine ⟨by rw [hlen]; split_ifs <;> omega, ?_⟩
  by_cases h : r = 0xFFFD
  · have hb0 : b = 0xEF := by
      obtain ⟨rest, he⟩ := hp
      rw [hdrop, h] at he
      have : utf8Encode 0xFFFD = [0xEF, 0xBF, 0xBD] := by decide
      rw [this] at he
      exact (List.cons.inj he).1.symm
    have hm : b.val % 2 ^ 32 = 0xEF := by rw [hb0]; rfl
    have h' : r = RuneError := h
    have hj' : j < buf.length := by omega
    simp only [convertBody, hd, hl, hget, store, hm]
    rw [if_pos trivial, if_pos h', if_pos hj', if_pos h]
  · have hm : r % 2 ^ 32 = r := Nat.mod_eq_of_lt (by omega)
    have h' : ¬ r = RuneError := h
    have hj' : j < buf.length := by omega
    simp only [convertBody, hd, hl, store, hm]
    rw [if_pos trivial, if_neg h', if_pos hj', if_neg h]

/-- Witness of C5 at the failing input U+FFFD (bytes `EF BF BD`): the loop
body stores the code unit `0xEF`, where the claim asks for `0xFFFD`. -/
theorem C5_bmp_scalar_step_witness :
    (0 < (utf8Encode 0xFFFD).length ∧ 0 ≤ 0 ∧ (utf8Encode 0xFFFD).length ≤ (scratch 3).length ∧
        IsScalar 0xFFFD ∧ 0xFFFD < 0x10000 ∧
        utf8Encode 0xFFFD <+: (utf8Encode 0xFFFD).drop 0) ∧
      ((utf8Encode 0xFFFD).length ≤ 3 ∧
        convertBody (utf8Encode 0xFFFD) ⟨scratch 3, 0, 0⟩ =
          Outcome.ok ⟨(scratch 3).set 0 (if 0xFFFD = 0xFFFD then 0xEF else 0xFFFD),
            0 + (utf8Encode 0xFFFD).length, 0 + 1⟩) ∧
      utf8Encode 0xFFFD = [0xEF, 0xBF, 0xBD] ∧
      stepUnits (utf8Encode 0xFFFD) = [0xEF] ∧ utf16Encode 0xFFFD = [0xFFFD] :=
  ⟨⟨by decide, Nat.le_refl 0, scratch_length 3, by decide, by decide, List.prefix_refl _⟩,
    C5_bmp_scalar_step (utf8Encode 0xFFFD) (scratch 3) 0 0 0xFFFD (by decide) (Nat.le_refl 0)
      (scratch_length 3) (by decide) (by decide) (List.prefix_refl _),
    by decide, by decide, by decide⟩

theorem EncodeRune_eq (r : Nat) (h1 : 0x10000 ≤ r) (h2 : r ≤ 0x10FFFF) :
    utf16.EncodeRune r =
      (0xD800 + ((r - 0x10000) >>> 10), 0xDC00 + ((r - 0x10000) &&& 0x3FF)) := by
  have e : ((r - 0x10000) >>> 10) &&& 0x3ff = (r - 0x10000) >>> 10 := by
    rw [and_1023, Nat.shiftRight_eq_div_pow]
    apply Nat.mod_eq_of_lt
    have : (r - 0x10000) / 2 ^ 10 < 1024 := by
      apply Nat.div_lt_of_lt_mul; omega
    exact this
  unfold utf16.EncodeRune utf16.surrSelf utf16.maxRune utf16.surr1 utf16.surr2
  rw [if_neg (by omega)]
  simp only [e]

/-- C6: at a scan position that begins with the valid 4-byte encoding of a
scalar value `r >= U+10000`, the loop body writes the high surrogate
`0xD800 + ((r - 0x10000) >> 10)` at `j` and the low surrogate
`0xDC00 + ((r - 0x10000) & 0x3FF)` at `j + 1` and advances `i` by 4; the
recurrence loop, which runs from the last index to the first, folds the low
surrogate into the accumulator before the high one. -/
theorem C6_surrogate_pair_step (str : List Byte) (buf : List Nat) (i j r : Nat)
    (hi : i < str.length) (hj : j ≤ i) (hb : str.length ≤ buf.length)
    (hr : IsScalar r) (hge : 0x10000 ≤ r) (hp : utf8Encode r <+: str.drop i) :
    (utf8Encode r).length = 4 ∧
      stepUnits (str.drop i) =
        [0xD800 + ((r - 0x10000) >>> 10), 0xDC00 + ((r - 0x10000) &&& 0x3FF)] ∧
      convertBody str ⟨buf, i, j⟩ =
        Outcome.ok ⟨(buf.set j (0xD800 + ((r - 0x10000) >>> 10))).set (j + 1)
          (0xDC00 + ((r - 0x10000) &&& 0x3FF)), i + 4, j + 2⟩ ∧
      ∀ (cp : List Nat) (k hash : Nat),
        cp[k]? = some (0xD800 + ((r - 0x10000) >>> 10)) →
        cp[k + 1]? = some (0xDC00 + ((r - 0x10000) &&& 0x3FF)) →
        hashLoop cp (k + 2) hash =
          hashLoop cp k
            ((((((hash * 33) % 2 ^ 32) ^^^ (0xDC00 + ((r - 0x10000) &&& 0x3FF))) * 33) % 2 ^ 32)
              ^^^ (0xD800 + ((r - 0x10000) >>> 10))) := by
  have hd := DecodeRune_of_prefix _ r hr hp
  have hmax : r ≤ 0x10FFFF := by unfold IsScalar at hr; omega
  have hlen : (utf8Encode r).length = 4 := by
    rw [utf8Encode_length]; split_ifs <;> omega
  have hpl : 4 ≤ str.length - i := by
    obtain ⟨rest, he⟩ := hp
    have := congrArg List.length he
    simp only [List.length_append, List.length_drop] at this
    omega
  have hl : utf16.RuneLen r = 2 := by
    unfold utf16.RuneLen utf16.surr1 utf16.surr3 utf16.surrSelf utf16.maxRune
    rw [if_neg (by omega), if_pos (by omega)]
  have he := EncodeRune_eq r hge hmax
  have hhi : (r - 0x10000) >>> 10 < 1024 := by
    rw [Nat.shiftRight_eq_div_pow]; apply Nat.div_lt_of_lt_mul; omega
  have hlo : (r - 0x10000) &&& 0x3FF < 1024 := by
    rw [and_1023]; exact Nat.mod_lt _ (by decide)
  have m1 : (0xD800 + ((r - 0x10000) >>> 10)) % 2 ^ 32 = 0xD800 + ((r - 0x10000) >>> 10) :=
    Nat.mod_eq_of_lt (by omega)
  have m2 : (0xDC00 + ((r - 0x10000) &&& 0x3FF)) % 2 ^ 32 = 0xDC00 + ((r - 0x10000) &&& 0x3FF) :=
    Nat.mod_eq_of_lt (by omega)
  refine ⟨hlen, ?_, ?_, ?_⟩
  · simp only [stepUnits, hd, hl, he, m1, m2]
    rw [if_neg (by decide), if_pos trivial]
  · simp only [convertBody, hd, hl, he, m1, m2, store, hlen]
    rw [if_neg (by decide), if_pos trivial, if_pos (by omega)]
    simp only [List.length_set]
    rw [if_pos (by omega)]
  · intro cp k hash h1 h2
    simp only [hashLoop, h1, h2, m1, m2]

/-- Witness of C6 on the test string `"A"`, U+754C, U+10437: the 4-byte
sequence at position 4 is written as the pair `0xD801`, `0xDC37`. -/
theorem C6_surrogate_pair_step_witness :
    (4 < supplementaryBytes.length ∧ 2 ≤ 4 ∧ supplementaryBytes.length ≤ (scratch 8).length ∧
        IsScalar 0x10437 ∧ 0x10000 ≤ 0x10437 ∧
        utf8Encode 0x10437 <+: supplementaryBytes.drop 4) ∧
      ((utf8Encode 0x10437).length = 4 ∧
        stepUnits (supplementaryBytes.drop 4) =
          [0xD800 + ((0x10437 - 0x10000) >>> 10), 0xDC00 + ((0x10437 - 0x10000) &&& 0x3FF)] ∧
        convertBody supplementaryBytes ⟨scratch 8, 4, 2⟩ =
          Outcome.ok ⟨((scratch 8).set 2 (0xD800 + ((0x10437 - 0x10000) >>> 10))).set (2 + 1)
            (0xDC00 + ((0x10437 - 0x10000) &&& 0x3FF)), 4 + 4, 2 + 2⟩ ∧
        ∀ (cp : List Nat) (k hash : Nat),
          cp[k]? = some (0xD800 + ((0x10437 - 0x10000) >>> 10)) →
          cp[k + 1]? = some (0xDC00 + ((0x10437 - 0x10000) &&& 0x3FF)) →
          hashLoop cp (k + 2) hash =
            hashLoop cp k
              ((((((hash * 33) % 2 ^ 32) ^^^ (0xDC00 + ((0x10437 - 0x10000) &&& 0x3FF))) * 33)
                % 2 ^ 32) ^^^ (0xD800 + ((0x10437 - 0x10000) >>> 10)))) ∧
      codeUnits supplementaryBytes = [0x41, 0x754C, 0xD801, 0xDC37] ∧
      Hash supplementaryBytes = Outcome.ok 1362180894 :=
  ⟨⟨by decide, by decide, scratch_length 8, by decide, by decide, ⟨[], by decide⟩⟩,
    C6_surrogate_pair_step supplementaryBytes (scratch 8) 4 2 0x10437 (by decide) (by decide)
      (scratch_length 8) (by decide) (by decide) ⟨[], by decide⟩,
    by decide, by set_option maxRecDepth 100000 in decide⟩


theorem Hash_ascii (s : List Byte) (hs : s ≠ []) (hascii : ∀ b ∈ s, b.val < 0x80) :
    Hash s = Outcome.ok (asciiFold s) := by
  rw [Hash_eq s hs, codeUnits_ascii s hascii, foldUnits_map_val]

/-- C7: for a non-empty string of ASCII bytes, `Hash` returns the fold `f` of
the bytes from the last to the first, `f [] = 5381` and
`f (b :: rest) = ((f rest * 33) mod 2^32) xor b`. -/
theorem C7_hash_ascii (s : List Byte) (hs : s ≠ []) (hascii : ∀ b ∈ s, b.val < 0x80) :
    Hash s = Outcome.ok (asciiFold s) := by
  rw [Hash_eq s hs, codeUnits_ascii s hascii, foldUnits_map_val]

set_option maxRecDepth 100000 in
/-- Witness of C7 on the test string `"Hello, world!"`. -/
theorem C7_hash_ascii_witness :
    (helloWorldBytes ≠ [] ∧ ∀ b ∈ helloWorldBytes, b.val < 0x80) ∧
      Hash helloWorldBytes = Outcome.ok (asciiFold helloWorldBytes) ∧
      asciiFold helloWorldBytes = 343662184 :=
  ⟨⟨by decide, by decide⟩,
    C7_hash_ascii helloWorldBytes (by decide) (by decide), by decide⟩

/-- C8: the three ASCII reference vectors: `Hash("Mary had a little lamb.")` is
1766333550, `Hash("Hello, world!")` is 343662184 and `Hash("Hello")` is
181379975. -/
theorem C8_ascii_reference_vectors :
    Hash maryBytes = Outcome.ok 1766333550 ∧ Hash helloWorldBytes = Outcome.ok 343662184 ∧
      Hash helloBytes = Outcome.ok 181379975 := by
  set_option maxRecDepth 100000 in decide

/-- C9: for a non-empty input, `Hash` with its scratch buffer returns the fold
of the list of extracted code units, and the body of `Hash` run with any other
scratch buffer at least as long as the input (whatever its contents) and any
fuel at least the input length returns the same value. -/
theorem C9_buffer_refinement (str : List Byte) (hs : str ≠ []) :
    Hash str = Outcome.ok (foldUnits (codeUnits str)) ∧
      ∀ (buf : List Nat) (fuel : Nat), str.length ≤ buf.length → str.length ≤ fuel →
        hashCore buf fuel str = Hash str := by
  refine ⟨Hash_eq str hs, ?_⟩
  intro buf fuel hb hf
  rw [Hash_eq str hs]
  exact hashCore_eq str hs buf fuel hb hf

set_option maxRecDepth 1000000 in
/-- Witness of C9 on the large test string: it has more than 256 bytes, so the
scratch buffer is the allocated slice of the input length, and the hash is
1610438000. -/
theorem C9_buffer_refinement_witness :
    largeBytes ≠ [] ∧
      (Hash largeBytes = Outcome.ok (foldUnits (codeUnits largeBytes)) ∧
        ∀ (buf : List Nat) (fuel : Nat), largeBytes.length ≤ buf.length →
          largeBytes.length ≤ fuel → hashCore buf fuel largeBytes = Hash largeBytes) ∧
      stackAllocateSizeLimit < largeBytes.length ∧
      scratch largeBytes.length = List.replicate largeBytes.length 0 ∧
      Hash largeBytes = Outcome.ok 1610438000 :=
  ⟨by decide, C9_buffer_refinement largeBytes (by decide), by decide, by decide,
    (Hash_ascii largeBytes (by decide) (by decide)).trans (congrArg Outcome.ok (by decide))⟩

theorem reaches_inv (str : List Byte) (buf0 : List Nat) (hb : str.length ≤ buf0.length)
    (st : ConvState) (h : Reaches str ⟨buf0, 0, 0⟩ st) :
    st.j ≤ st.i ∧ st.i ≤ str.length ∧ st.utf16Slice.length = buf0.length := by
  induction h with
  | start => exact ⟨Nat.le_refl _, Nat.zero_le _, rfl⟩
  | step st st' _ hg hbody ih =>
    obtain ⟨buf, i, j⟩ := st
    obtain ⟨h1, h2, h3⟩ := ih
    simp only at h1 h2 h3 hg
    obtain ⟨buf', hok, hlen, _⟩ := convertBody_ok str buf i j hg.1 hg.2 (by omega)
    have hp : str.drop i ≠ [] := by
      intro h
      have := congrArg List.length h
      simp at this; omega
    have hbd := DecodeRune_bounds _ hp
    have hsl := stepUnits_length_le _ hp
    have hdl : (str.drop i).length = str.length - i := by simp
    rw [hok] at hbody
    cases hbody
    refine ⟨?_, ?_, ?_⟩ <;> simp only <;> omega

/-- C10: in the conversion loop of `Hash` started on its scratch buffer, every
state reached satisfies `j <= i <= n`; from every such state with `i < n` the
loop body runs without a panic, consumes `w >= 1` bytes and writes `k <= w` code
units; the loop ends with all bytes scanned (`i = n`), never cut short by the
guard `j <= i`, and the final code-unit count is at most the byte length. -/
theorem C10_units_never_exceed_bytes (str : List Byte) :
    (∀ st, Reaches str ⟨scratch str.length, 0, 0⟩ st → st.j ≤ st.i ∧ st.i ≤ str.length) ∧
      (∀ st, Reaches str ⟨scratch str.length, 0, 0⟩ st → st.i < str.length →
        ∃ st' w k, convertBody str st = Outcome.ok st' ∧ st'.i = st.i + w ∧ st'.j = st.j + k ∧
          1 ≤ w ∧ k ≤ w) ∧
      ∃ st, convertLoop str str.length str.length ⟨scratch str.length, 0, 0⟩ = Outcome.ok st ∧
        st.i = str.length ∧ st.j ≤ str.length ∧
        Reaches str ⟨scratch str.length, 0, 0⟩ st := by
  refine ⟨?_, ?_, ?_⟩
  · intro st h
    have := reaches_inv str _ (scratch_length _) st h
    exact ⟨this.1, this.2.1⟩
  · intro st h hi
    obtain ⟨h1, h2, h3⟩ := reaches_inv str _ (scratch_length _) st h
    obtain ⟨buf, i, j⟩ := st
    simp only at h1 h2 h3 hi
    have hb := scratch_length str.length
    obtain ⟨buf', hok, _, _⟩ := convertBody_ok str buf i j hi h1 (by omega)
    have hp : str.drop i ≠ [] := by
      intro h
      have := congrArg List.length h
      simp at this; omega
    exact ⟨_, _, _, hok, rfl, rfl, (DecodeRune_bounds _ hp).1, stepUnits_length_le _ hp⟩
  · have key : ∀ (fuel : Nat) (st : ConvState), Reaches str ⟨scratch str.length, 0, 0⟩ st →
        str.length - st.i ≤ fuel →
        ∃ st', convertLoop str str.length fuel st = Outcome.ok st' ∧ st'.i = str.length ∧
          st'.j ≤ str.length ∧ Reaches str ⟨scratch str.length, 0, 0⟩ st' := by
      intro fuel
      induction fuel with
      | zero =>
        intro st h hf
        obtain ⟨h1, h2, _⟩ := reaches_inv str _ (scratch_length _) st h
        refine ⟨st, ?_, by omega, by omega, h⟩
        simp only [convertLoop]
        rw [if_neg (by omega)]
      | succ f ih =>
        intro st h hf
        obtain ⟨h1, h2, h3⟩ := reaches_inv str _ (scratch_length _) st h
        by_cases hi : st.i < str.length
        · have hb := scratch_length str.length
          obtain ⟨buf', hok, _, _⟩ :=
            convertBody_ok str st.utf16Slice st.i st.j hi h1 (by omega)
          have hp : str.drop st.i ≠ [] := by
            intro h
            have := congrArg List.length h
            simp at this; omega
          have hw := (DecodeRune_bounds _ hp).1
          have hr := Reaches.step st _ h ⟨hi, h1⟩ hok
          obtain ⟨st', hl, e1, e2, e3⟩ := ih _ hr (by simp only; omega)
          refine ⟨st', ?_, e1, e2, e3⟩
          rw [convertLoop_step str f st _ hi h1 hok]; exact hl
        · refine ⟨st, ?_, by omega, by omega, h⟩
          simp only [convertLoop]
          rw [if_neg (by omega)]
    exact key str.length _ Reaches.start (by simp)

theorem toUint32_toInt32 (x : Int) : toUint32 (toInt32 x) = toUint32 x := by
  unfold toUint32 toInt32
  simp only
  split_ifs <;> omega

theorem toUint32_lt (x : Int) : toUint32 x < 2 ^ 32 := by
  unfold toUint32
  omega

theorem toUint32_natCast (n : Nat) (h : n < 2 ^ 32) : toUint32 (n : Int) = n := by
  unfold toUint32
  omega

theorem toUint32_mul33 (x : Int) : toUint32 (x * 33) = (toUint32 x * 33) % 2 ^ 32 := by
  unfold toUint32
  omega

/-- The signed JavaScript loop and the unsigned fold agree modulo `2^32`. -/
theorem jsHashLoop_eq (units : List Nat) (h : ∀ c ∈ units, c < 2 ^ 32) :
    toUint32 (jsHashLoop units) = foldUnits units := by
  induction units with
  | nil => rfl
  | cons c rest ih =>
    have hc := h c (List.mem_cons_self _ _)
    have ih' := ih (fun u hu => h u (List.mem_cons_of_mem _ hu))
    have hx : toUint32 (jsHashLoop rest * 33) ^^^ c < 2 ^ 32 :=
      Nat.xor_lt_two_pow (toUint32_lt _) hc
    simp only [jsHashLoop, jsXor, foldUnits]
    rw [toUint32_toInt32, toUint32_toInt32, toUint32_toInt32, toUint32_natCast c hc,
      toUint32_natCast _ hx, toUint32_mul33, ih']

/-- Claim C11: for every sequence of 16-bit code units, the recurrence loop of
`Hash` (unsigned 32-bit arithmetic with wraparound) returns the number that the
JavaScript computation on signed 32-bit integers gives after `>>> 0`. -/
theorem C11_signed_equals_unsigned (units : List Nat) (h : ∀ c ∈ units, c < 2 ^ 16) :
    hashLoop units units.length 5381 = Outcome.ok (jsHash units) := by
  have h32 : ∀ c ∈ units, c < 2 ^ 32 := fun c hc =>
    Nat.lt_of_lt_of_le (h c hc) (by decide)
  rw [hashLoop_eq units units.length 5381 (Nat.le_refl _), List.take_length,
    foldUnits_eq_foldr units h32]
  unfold jsHash
  rw [jsHashLoop_eq units h32]

theorem C11_signed_equals_unsigned_witness :
    (∀ c ∈ [0x4E16, 0x754C, 0x48, 0x65, 0x6C, 0x6C, 0x6F], c < 2 ^ 16) ∧
      hashLoop [0x4E16, 0x754C, 0x48, 0x65, 0x6C, 0x6C, 0x6F] 7 5381
        = Outcome.ok (jsHash [0x4E16, 0x754C, 0x48, 0x65, 0x6C, 0x6C, 0x6F]) ∧
      jsHashLoop [0x4E16, 0x754C, 0x48, 0x65, 0x6C, 0x6C, 0x6F] = -45037411 ∧
      jsHash [0x4E16, 0x754C, 0x48, 0x65, 0x6C, 0x6C, 0x6F] = 4249929885 :=
  ⟨by decide,
    C11_signed_equals_unsigned [0x4E16, 0x754C, 0x48, 0x65, 0x6C, 0x6C, 0x6F] (by decide),
    by decide, by decide⟩

/-- Claim C12: the result of `Hash` is a function of the input bytes alone. The
body of `Hash` run on any two scratch buffers that are at least as long as the
input, whatever they hold, and with any two iteration budgets that are at least
the input length, gives the same outcome, which is the outcome of `Hash`. -/
theorem C12_hash_deterministic (str : List Byte) (buf1 buf2 : List Nat) (fuel1 fuel2 : Nat)
    (hb1 : str.length ≤ buf1.length) (hb2 : str.length ≤ buf2.length)
    (hf1 : str.length ≤ fuel1) (hf2 : str.length ≤ fuel2) :
    hashCore buf1 fuel1 str = hashCore buf2 fuel2 str ∧ hashCore buf1 fuel1 str = Hash str := by
  by_cases hs : str = []
  · subst hs
    refine ⟨?_, ?_⟩ <;> simp [Hash, HashFuel, hashCore]
  · rw [hashCore_eq str hs buf1 fuel1 hb1 hf1, hashCore_eq str hs buf2 fuel2 hb2 hf2,
      Hash_eq str hs]
    exact ⟨rfl, rfl⟩

theorem C12_hash_deterministic_witness :
    hashCore [7, 4294967295, 0, 65536, 9] 5 helloBytes
        = hashCore [0, 0, 0, 0, 0, 1, 2, 3] 40 helloBytes ∧
      hashCore [7, 4294967295, 0, 65536, 9] 5 helloBytes = Hash helloBytes :=
  C12_hash_deterministic helloBytes [7, 4294967295, 0, 65536, 9] [0, 0, 0, 0, 0, 1, 2, 3] 5 40
    (by decide) (by decide) (by decide) (by decide)

/-! ### One changed code unit, and the size of the code units -/

/-- One step of the recurrence is injective in the hash. -/
theorem step_injective (h1 h2 c : Nat) (a : h1 < 2 ^ 32) (b : h2 < 2 ^ 32)
    (h : ((h1 * 33) % 2 ^ 32) ^^^ c = ((h2 * 33) % 2 ^ 32) ^^^ c) : h1 = h2 := by
  have hm : (h1 * 33) % 2 ^ 32 = (h2 * 33) % 2 ^ 32 := Nat.xor_left_inj.mp h
  have hc : Nat.gcd (2 ^ 32) 33 = 1 := by decide
  exact Nat.ModEq.eq_of_lt_of_lt (Nat.ModEq.cancel_right_of_coprime hc hm) a b

/-- The units in front of a position do not merge two different hashes. -/
theorem foldUnits_append_injective (a l1 l2 : List Nat) (ha : ∀ u ∈ a, u < 2 ^ 32)
    (h1 : ∀ u ∈ l1, u < 2 ^ 32) (h2 : ∀ u ∈ l2, u < 2 ^ 32)
    (h : foldUnits (a ++ l1) = foldUnits (a ++ l2)) : foldUnits l1 = foldUnits l2 := by
  induction a with
  | nil => exact h
  | cons c a ih =>
    have ha' : ∀ u ∈ a, u < 2 ^ 32 := fun u hu => ha u (List.mem_cons_of_mem _ hu)
    have b1 : foldUnits (a ++ l1) < 2 ^ 32 := foldUnits_lt _ (fun u hu => by
      rcases List.mem_append.mp hu with hu | hu
      · exact ha' u hu
      · exact h1 u hu)
    have b2 : foldUnits (a ++ l2) < 2 ^ 32 := foldUnits_lt _ (fun u hu => by
      rcases List.mem_append.mp hu with hu | hu
      · exact ha' u hu
      · exact h2 u hu)
    simp only [List.cons_append, foldUnits] at h
    exact ih ha' (step_injective _ _ c b1 b2 h)

/-- Two unit sequences that differ in one position have different hashes. -/
theorem foldUnits_one_change (a b : List Nat) (x y : Nat) (ha : ∀ u ∈ a, u < 2 ^ 32)
    (hb : ∀ u ∈ b, u < 2 ^ 32) (hx : x < 2 ^ 32) (hy : y < 2 ^ 32) (hxy : x ≠ y) :
    foldUnits (a ++ x :: b) ≠ foldUnits (a ++ y :: b) := by
  intro h
  have h1 : ∀ u ∈ x :: b, u < 2 ^ 32 := fun u hu => by
    rcases List.mem_cons.mp hu with hu | hu
    · rw [hu]; exact hx
    · exact hb u hu
  have h2 : ∀ u ∈ y :: b, u < 2 ^ 32 := fun u hu => by
    rcases List.mem_cons.mp hu with hu | hu
    · rw [hu]; exact hy
    · exact hb u hu
  have h3 := foldUnits_append_injective a _ _ ha h1 h2 h
  simp only [foldUnits] at h3
  exact hxy (Nat.xor_right_inj.mp h3)

/-- Xor with a 16-bit unit leaves the bits above the low 16 unchanged. -/
theorem xor_high_bits (p c : Nat) (hc : c < 2 ^ 16) : (p ^^^ c) / 2 ^ 16 = p / 2 ^ 16 := by
  rw [← Nat.shiftRight_eq_div_pow, ← Nat.shiftRight_eq_div_pow]
  apply Nat.eq_of_testBit_eq
  intro i
  rw [Nat.testBit_shiftRight, Nat.testBit_shiftRight, Nat.testBit_xor,
    Nat.testBit_lt_two_pow (Nat.lt_of_lt_of_le hc (Nat.pow_le_pow_right (by decide) (by omega)))]
  simp

/-- Every code unit of one step is below `2^16`. -/
theorem stepUnits_lt16 (p : List Byte) : ∀ u ∈ stepUnits p, u < 2 ^ 16 := by
  intro u hu
  rcases hd : DecodeRune p with ⟨r, w⟩
  simp only [stepUnits, hd] at hu
  split_ifs at hu with h1 h2 h3
  · simp only [List.mem_singleton] at hu
    have hb : byteAt p 0 < 256 := (p.getD 0 0).isLt
    rw [hu]
    exact Nat.lt_of_le_of_lt (Nat.mod_le _ _) (by omega)
  · simp only [List.mem_singleton] at hu
    have hr : r < 0x10000 := by
      unfold utf16.RuneLen utf16.surr1 utf16.surr3 utf16.surrSelf utf16.maxRune at h1
      split_ifs at h1 <;> omega
    rw [hu]
    exact Nat.lt_of_le_of_lt (Nat.mod_le _ _) (by omega)
  · obtain ⟨g1, g2⟩ := RuneLen_two r h3
    rw [EncodeRune_eq r g1 g2] at hu
    have hhi : (r - 0x10000) >>> 10 < 1024 := by
      rw [Nat.shiftRight_eq_div_pow]; apply Nat.div_lt_of_lt_mul; omega
    have hlo : (r - 0x10000) &&& 0x3FF < 1024 := by
      rw [and_1023]; exact Nat.mod_lt _ (by decide)
    simp only [List.mem_cons, List.mem_singleton, List.not_mem_nil, or_false] at hu
    rcases hu with hu | hu <;> rw [hu] <;>
      exact Nat.lt_of_le_of_lt (Nat.mod_le _ _) (by omega)
  · simp at hu

/-- Every extracted code unit is below `2^16`. -/
theorem codeUnits_lt16 (p : List Byte) : ∀ u ∈ codeUnits p, u < 2 ^ 16 := by
  unfold codeUnits
  generalize p.length = fuel
  induction fuel generalizing p with
  | zero => intro u hu; simp [codeUnitsFuel] at hu
  | succ f ih =>
    intro u hu
    by_cases hp : p = []
    · subst hp
      rw [codeUnitsFuel_nil] at hu
      exact absurd hu (List.not_mem_nil u)
    · rw [codeUnitsFuel_cons f p hp] at hu
      rcases List.mem_append.mp hu with hu | hu
      · exact stepUnits_lt16 p u hu
      · exact ih _ u hu

/-- The recurrence loop of `Hash` over a whole list of units is the fold. -/
theorem hashLoop_foldUnits (cp : List Nat) (h : ∀ u ∈ cp, u < 2 ^ 32) :
    hashLoop cp cp.length 5381 = .ok (foldUnits cp) := by
  rw [hashLoop_eq cp cp.length 5381 (Nat.le_refl _), List.take_length, foldUnits_eq_foldr cp h]

/-- Claim C29: two sequences of 16-bit code units that differ in exactly one
position (`a ++ x :: b` and `a ++ y :: b` with `x ≠ y`) give different values
in the recurrence loop of `Hash`; and two ASCII strings that differ in exactly
one byte have different `Hash` values. -/
theorem C29_one_unit_changes_hash (a b : List Nat) (x y : Nat) (ha : ∀ u ∈ a, u < 2 ^ 16)
    (hb : ∀ u ∈ b, u < 2 ^ 16) (hx : x < 2 ^ 16) (hy : y < 2 ^ 16) (hxy : x ≠ y) :
    (∃ v w, hashLoop (a ++ x :: b) (a ++ x :: b).length 5381 = Outcome.ok v ∧
      hashLoop (a ++ y :: b) (a ++ y :: b).length 5381 = Outcome.ok w ∧ v ≠ w) ∧
    (∀ (s t : List Byte) (c d : Byte), (∀ e ∈ s, e.val < 0x80) → (∀ e ∈ t, e.val < 0x80) →
      c.val < 0x80 → d.val < 0x80 → c ≠ d →
      ∃ v w, Hash (s ++ c :: t) = Outcome.ok v ∧ Hash (s ++ d :: t) = Outcome.ok w ∧ v ≠ w) := by
  have up : ∀ n : Nat, n < 2 ^ 16 → n < 2 ^ 32 := fun n hn =>
    Nat.lt_of_lt_of_le hn (by decide)
  have ha' : ∀ u ∈ a, u < 2 ^ 32 := fun u hu => up u (ha u hu)
  have hb' : ∀ u ∈ b, u < 2 ^ 32 := fun u hu => up u (hb u hu)
  have all : ∀ z : Nat, z < 2 ^ 32 → ∀ u ∈ a ++ z :: b, u < 2 ^ 32 := fun z hz u hu => by
    rcases List.mem_append.mp hu with hu | hu
    · exact ha' u hu
    · rcases List.mem_cons.mp hu with hu | hu
      · rw [hu]; exact hz
      · exact hb' u hu
  refine ⟨⟨_, _, hashLoop_foldUnits _ (all x (up x hx)), hashLoop_foldUnits _ (all y (up y hy)),
    foldUnits_one_change a b x y ha' hb' (up x hx) (up y hy) hxy⟩, ?_⟩
  intro s t c d hs ht hc hd hcd
  have asc : ∀ z : Byte, z.val < 0x80 → ∀ e ∈ s ++ z :: t, e.val < 0x80 := fun z hz e he => by
    rcases List.mem_append.mp he with he | he
    · exact hs e he
    · rcases List.mem_cons.mp he with he | he
      · rw [he]; exact hz
      · exact ht e he
  have ne : ∀ z : Byte, s ++ z :: t ≠ [] := fun z h => by
    have := congrArg List.length h
    simp at this
  have hm : ∀ l : List Byte, (∀ e ∈ l, e.val < 0x80) → ∀ u ∈ l.map Fin.val, u < 2 ^ 32 :=
    fun l hl u hu => by
      obtain ⟨e, he, rfl⟩ := List.mem_map.mp hu
      have := hl e he
      omega
  refine ⟨_, _, Hash_ascii _ (ne c) (asc c hc), Hash_ascii _ (ne d) (asc d hd), ?_⟩
  rw [← foldUnits_map_val, ← foldUnits_map_val, List.map_append, List.map_append,
    List.map_cons, List.map_cons]
  exact foldUnits_one_change _ _ _ _ (hm s hs) (hm t ht) (by omega) (by omega)
    (fun h => hcd (Fin.ext h))

set_option maxRecDepth 100000 in
theorem C29_one_unit_changes_hash_witness :
    (∃ v w, hashLoop ([0x48, 0xD83D] ++ 0xDE00 :: [0x6F]) ([0x48, 0xD83D] ++ 0xDE00 :: [0x6F]).length
        5381 = Outcome.ok v ∧
      hashLoop ([0x48, 0xD83D] ++ 0xDE01 :: [0x6F]) ([0x48, 0xD83D] ++ 0xDE01 :: [0x6F]).length
        5381 = Outcome.ok w ∧ v ≠ w) ∧
    Hash [72, 101, 108, 108, 111] = Outcome.ok 181379975 ∧
    Hash [72, 101, 108, 112, 111] ≠ Outcome.ok 181379975 :=
  ⟨(C29_one_unit_changes_hash [0x48, 0xD83D] [0x6F] 0xDE00 0xDE01 (by decide) (by decide)
    (by decide) (by decide) (by decide)).1, by decide, by decide⟩

/-- Claim C30: for a non-empty input, the units that the conversion loop leaves
in `utf16Slice[:j]`, which are the units that the recurrence reads, are the
extracted code units and are all below `2^16`; every iteration of the loop
writes only such units; and the xor with such a unit leaves the bits above the
low 16 of the wrapped product unchanged. -/
theorem C30_units_below_two_pow_16 (str : List Byte) (hs : str ≠ []) :
    (∃ st, convertLoop str str.length str.length ⟨scratch str.length, 0, 0⟩ = Outcome.ok st ∧
      st.utf16Slice.take st.j = codeUnits str ∧
      (∀ u ∈ st.utf16Slice.take st.j, u < 2 ^ 16) ∧
      hashLoop (st.utf16Slice.take st.j) (st.utf16Slice.take st.j).length 5381 = Hash str) ∧
    (∀ st, Reaches str ⟨scratch str.length, 0, 0⟩ st → st.i < str.length →
      ∃ st', convertBody str st = Outcome.ok st' ∧
        st'.utf16Slice.take st'.j = st.utf16Slice.take st.j ++ stepUnits (str.drop st.i) ∧
        ∀ u ∈ stepUnits (str.drop st.i), u < 2 ^ 16) ∧
    (∀ hash c : Nat, c < 2 ^ 16 →
      (((hash * 33) % 2 ^ 32) ^^^ c) / 2 ^ 16 = ((hash * 33) % 2 ^ 32) / 2 ^ 16) := by
  refine ⟨?_, ?_, fun hash c hc => xor_high_bits _ c hc⟩
  · obtain ⟨buf, h1, _, h3, _⟩ := convertLoop_spec str str.length (scratch str.length) 0 0
      (Nat.le_refl _) (Nat.zero_le _) (scratch_length _) (by omega)
    simp only [List.drop_zero, Nat.zero_add, List.take_zero, List.nil_append] at h1 h3
    refine ⟨_, h1, h3, ?_, ?_⟩
    · simp only
      rw [h3]
      exact codeUnits_lt16 str
    · simp only
      rw [h3, Hash_eq str hs]
      exact hashLoop_foldUnits _ (codeUnits_lt str)
  · intro st hr hi
    obtain ⟨hj, _, hl⟩ := reaches_inv str (scratch str.length) (scratch_length _) st hr
    obtain ⟨buf, e1, _, e3⟩ := convertBody_ok str st.utf16Slice st.i st.j hi hj
      (by rw [hl]; exact scratch_length _)
    exact ⟨_, e1, e3, stepUnits_lt16 _⟩

set_option maxRecDepth 100000 in
theorem C30_units_below_two_pow_16_witness :
    supplementaryBytes ≠ [] ∧ codeUnits supplementaryBytes = [0x41, 0x754C, 0xD801, 0xDC37] ∧
      ∃ st, convertLoop supplementaryBytes supplementaryBytes.length supplementaryBytes.length
          ⟨scratch supplementaryBytes.length, 0, 0⟩ = Outcome.ok st ∧
        st.utf16Slice.take st.j = codeUnits supplementaryBytes ∧
        (∀ u ∈ st.utf16Slice.take st.j, u < 2 ^ 16) ∧
        hashLoop (st.utf16Slice.take st.j) (st.utf16Slice.take st.j).length 5381
          = Hash supplementaryBytes :=
  ⟨by decide, by decide, (C30_units_below_two_pow_16 supplementaryBytes (by decide)).1⟩

/-! ### Safety of the indices, and well-formed text without U+FFFD -/

/-- Claim C27: for a non-empty input every slice index that `Hash` evaluates is
in range: the two hints at `lenStr - 1`; at every iteration of the conversion
loop the read index `i` and the write index `j`, and `j + 1` when the rune
needs a surrogate pair, so that the body does not panic; and the bound `j` of
the final reslice. So `Hash` returns a value. -/
theorem C27_hash_indices_in_range (str : List Byte) (hs : str ≠ []) :
    ((str.length + 2 ^ 64 - 1) % 2 ^ 64 < str.length ∧
      (str.length + 2 ^ 64 - 1) % 2 ^ 64 < (scratch str.length).length) ∧
    (∀ st, Reaches str ⟨scratch str.length, 0, 0⟩ st → st.i < str.length → st.j ≤ st.i →
      st.i ≤ str.length ∧ st.j < st.utf16Slice.length ∧
      (utf16.RuneLen (DecodeRune (str.drop st.i)).1 = 2 → st.j + 1 < st.utf16Slice.length) ∧
      ∃ st', convertBody str st = Outcome.ok st') ∧
    (∃ st, convertLoop str str.length str.length ⟨scratch str.length, 0, 0⟩ = Outcome.ok st ∧
      st.j ≤ st.utf16Slice.length) ∧
    ∃ v, Hash str = Outcome.ok v := by
  have hpos : 0 < str.length := List.length_pos.mpr hs
  have hsl := scratch_length str.length
  refine ⟨⟨hint_lt _ hpos, Nat.lt_of_lt_of_le (hint_lt _ hpos) hsl⟩, ?_, ?_,
    ⟨_, Hash_eq str hs⟩⟩
  · intro st hr hi hj
    obtain ⟨_, h2, hl⟩ := reaches_inv str (scratch str.length) hsl st hr
    obtain ⟨buf, e1, _, _⟩ := convertBody_ok str st.utf16Slice st.i st.j hi hj
      (by rw [hl]; exact hsl)
    refine ⟨h2, by omega, fun h => ?_, _, e1⟩
    have hp : str.drop st.i ≠ [] := by
      intro h0
      have := List.drop_eq_nil_iff.mp h0
      omega
    obtain ⟨_, b2, _, b4, _⟩ := DecodeRune_bounds _ hp
    have hw := b4 (RuneLen_two _ h).1
    rw [List.length_drop] at b2
    omega
  · obtain ⟨buf, h1, h2, _, h4⟩ := convertLoop_spec str str.length (scratch str.length) 0 0
      (Nat.le_refl _) (Nat.zero_le _) hsl (by omega)
    refine ⟨_, h1, ?_⟩
    simp only
    omega

set_option maxRecDepth 100000 in
theorem C27_hash_indices_in_range_witness :
    supplementaryBytes ≠ [] ∧ Hash supplementaryBytes = Outcome.ok 1362180894 ∧
      ∃ v, Hash supplementaryBytes = Outcome.ok v :=
  ⟨by decide, by decide, (C27_hash_indices_in_range supplementaryBytes (by decide)).2.2.2⟩

/-- One step on the encoding of a scalar value other than U+FFFD gives its
UTF-16 encoding. -/
theorem stepUnits_scalar (r : Nat) (hr : IsScalar r) (hne : r ≠ 0xFFFD) (rest : List Byte) :
    stepUnits (utf8Encode r ++ rest) = utf16Encode r := by
  have hd := DecodeRune_encode r hr rest
  have hmax : r ≤ 0x10FFFF := by unfold IsScalar at hr; omega
  by_cases hlt : r < 0x10000
  · have hl : utf16.RuneLen r = 1 := by
      unfold IsScalar at hr
      unfold utf16.RuneLen utf16.surr1 utf16.surr3 utf16.surrSelf
      rw [if_pos (by omega)]
    have hm : r % 2 ^ 32 = r := Nat.mod_eq_of_lt (by omega)
    have h' : ¬ r = RuneError := hne
    simp only [stepUnits, hd, hl, hm, utf16Encode]
    rw [if_pos trivial, if_neg h', if_pos hlt]
  · have hge : 0x10000 ≤ r := by omega
    have hl : utf16.RuneLen r = 2 := by
      unfold utf16.RuneLen utf16.surr1 utf16.surr3 utf16.surrSelf utf16.maxRune
      rw [if_neg (by omega), if_pos (by omega)]
    have he := EncodeRune_eq r hge hmax
    have e1 : (r - 0x10000) >>> 10 = (r - 0x10000) / 1024 := Nat.shiftRight_eq_div_pow _ 10
    have e2 : (r - 0x10000) &&& 0x3FF = (r - 0x10000) % 1024 := and_1023 _
    rw [e1, e2] at he
    have m1 : (0xD800 + (r - 0x10000) / 1024) % 2 ^ 32 = 0xD800 + (r - 0x10000) / 1024 :=
      Nat.mod_eq_of_lt (by omega)
    have m2 : (0xDC00 + (r - 0x10000) % 1024) % 2 ^ 32 = 0xDC00 + (r - 0x10000) % 1024 :=
      Nat.mod_eq_of_lt (by omega)
    simp only [stepUnits, hd, hl, he, m1, m2, utf16Encode]
    rw [if_neg (by decide), if_pos trivial, if_neg hlt]

/-- The extraction on well-formed UTF-8 without U+FFFD gives the UTF-16
encoding of the text. -/
theorem codeUnits_utf8String (text : List Nat) (hsc : ∀ r ∈ text, IsScalar r)
    (hne : ∀ r ∈ text, r ≠ 0xFFFD) : codeUnits (utf8String text) = utf16String text := by
  induction text with
  | nil => rfl
  | cons r t ih =>
    have hr := hsc r (List.mem_cons_self _ _)
    have ih' := ih (fun x hx => hsc x (List.mem_cons_of_mem _ hx))
      (fun x hx => hne x (List.mem_cons_of_mem _ hx))
    have e1 : utf8String (r :: t) = utf8Encode r ++ utf8String t := by
      unfold utf8String
      rw [List.flatMap_cons]
    have e2 : utf16String (r :: t) = utf16Encode r ++ utf16String t := by
      unfold utf16String
      rw [List.flatMap_cons]
    have hlen : 1 ≤ (utf8Encode r).length := by
      rw [utf8Encode_length]
      split_ifs <;> omega
    have hp : utf8Encode r ++ utf8String t ≠ [] := by
      intro h
      have := congrArg List.length h
      rw [List.length_append, List.length_nil] at this
      omega
    obtain ⟨k, hk⟩ : ∃ k, (utf8Encode r ++ utf8String t).length = k + 1 :=
      ⟨(utf8Encode r ++ utf8String t).length - 1, by rw [List.length_append]; omega⟩
    rw [e1, e2]
    unfold codeUnits
    rw [hk, codeUnitsFuel_cons k _ hp, DecodeRune_encode r hr, List.drop_left,
      stepUnits_scalar r hr (hne r (List.mem_cons_self _ _)),
      codeUnitsFuel_eq k _ (by rw [List.length_append] at hk; omega), ih']

/-- Claim C28: for every non-empty text of scalar values without U+FFFD, `Hash`
of its UTF-8 encoding is the reference recurrence over its UTF-16 encoding. -/
theorem C28_hash_well_formed_utf8 (text : List Nat) (ht : text ≠ [])
    (hsc : ∀ r ∈ text, IsScalar r) (hne : ∀ r ∈ text, r ≠ 0xFFFD) :
    Hash (utf8String text) = Outcome.ok (foldUnits (utf16String text)) := by
  have hs : utf8String text ≠ [] := by
    cases text with
    | nil => exact absurd rfl ht
    | cons r t =>
      intro h
      have hl := utf8Encode_length r
      unfold utf8String at h
      rw [List.flatMap_cons] at h
      have := congrArg List.length h
      rw [List.length_append, List.length_nil, hl] at this
      split_ifs at this <;> omega
  rw [Hash_eq _ hs, codeUnits_utf8String text hsc hne]

set_option maxRecDepth 100000 in
theorem C28_hash_well_formed_utf8_witness :
    utf8String [0x41, 0x754C, 0x10437] = supplementaryBytes ∧
      utf16String [0x41, 0x754C, 0x10437] = [0x41, 0x754C, 0xD801, 0xDC37] ∧
      Hash (utf8String [0x41, 0x754C, 0x10437])
        = Outcome.ok (foldUnits (utf16String [0x41, 0x754C, 0x10437])) :=
  ⟨by decide, by decide,
    C28_hash_well_formed_utf8 [0x41, 0x754C, 0x10437] (by decide) (by decide) (by decide)⟩

end Stringhash

namespace Datetime

theorem subClockTime_eq (t u : Int) (ht : InInt64 t) (hu : InInt64 u) :
    subClockTime t u =
      if t - u > MaxInt64 then MaxInt64 else if t - u < MinInt64 then MinInt64 else t - u := by
  unfold InInt64 MinInt64 MaxInt64 at *
  unfold subClockTime wrapInt64 MaxInt64 MinInt64
  simp only
  split_ifs <;> omega

theorem addClockTime_eq (t d : Int) (ht : InInt64 t) (hd : InInt64 d) :
    addClockTime t d =
      if t + d > MaxInt64 then MaxInt64 else if t + d < MinInt64 then MinInt64 else t + d := by
  unfold InInt64 MinInt64 MaxInt64 at *
  unfold addClockTime wrapInt64 MaxInt64 MinInt64
  simp only
  split_ifs <;> omega

theorem tdiv_tmod_second (t : Int) :
    ((t.tdiv Second) < 0 ↔ t ≤ -Second) ∧ (t.tdiv Second).natAbs = t.natAbs / 1000000000 ∧
      (0 ≤ t → t.tmod Second = ((t.natAbs % 1000000000 : Nat) : Int)) ∧
      (t < 0 → t.tmod Second = -((t.natAbs % 1000000000 : Nat) : Int)) := by
  unfold Second
  rcases Int.lt_or_le t 0 with h | h
  · obtain ⟨n, rfl⟩ : ∃ n : Nat, t = -(n : Int) := ⟨t.natAbs, by omega⟩
    have hd : (-(n : Int)).tdiv 1000000000 = -((n / 1000000000 : Nat) : Int) := by
      rw [Int.neg_tdiv, Int.tdiv_eq_ediv (by omega) (by omega)]; rfl
    have hm : (-(n : Int)).tmod 1000000000 = -((n % 1000000000 : Nat) : Int) := by
      rw [Int.tmod_def, hd]; omega
    have hn : (-(n : Int)).natAbs = n := by omega
    refine ⟨?_, ?_, ?_, ?_⟩
    · rw [hd]; omega
    · rw [hd, hn]; omega
    · intro h'; omega
    · intro _; rw [hm, hn]
  · obtain ⟨n, rfl⟩ : ∃ n : Nat, t = (n : Int) := ⟨t.natAbs, by omega⟩
    have hd : (n : Int).tdiv 1000000000 = ((n / 1000000000 : Nat) : Int) := by
      rw [Int.tdiv_eq_ediv (by omega) (by omega)]; rfl
    have hm : (n : Int).tmod 1000000000 = ((n % 1000000000 : Nat) : Int) := by
      rw [Int.tmod_eq_emod (by omega) (by omega)]; rfl
    have hn : (n : Int).natAbs = n := by omega
    refine ⟨?_, ?_, ?_, ?_⟩
    · rw [hd]; omega
    · rw [hd, hn]; omega
    · intro _; rw [hm, hn]
    · intro h'; omega

theorem clockString_eq (t : Int) :
    ClockTime.String t =
      String.mk ('m' :: (if t ≤ -Second then '-' else '+') ::
        (decimal (t.natAbs / 1000000000) ++
          '.' :: zeroPad 9 (decimal (t.natAbs % 1000000000)))) := by
  obtain ⟨h1, h2, h3, h4⟩ := tdiv_tmod_second t
  have hns : (if t.tmod Second < 0 then wrapInt64 (-(t.tmod Second)) else t.tmod Second) =
      ((t.natAbs % 1000000000 : Nat) : Int) := by
    rcases Int.lt_or_le t 0 with h | h
    · rw [h4 h]; unfold wrapInt64; split_ifs <;> omega
    · rw [h3 h]; rw [if_neg (by omega)]
  have e1 : fmtPlusD (t.tdiv Second) =
      (if t ≤ -Second then '-' else '+') :: decimal (t.natAbs / 1000000000) := by
    unfold fmtPlusD
    rw [h2]
    by_cases c : t ≤ -Second
    · rw [if_pos (h1.mpr c), if_pos c]
    · rw [if_neg (fun h => c (h1.mp h)), if_neg c]
  have e2 : fmtZero9 ((t.natAbs % 1000000000 : Nat) : Int) =
      zeroPad 9 (decimal (t.natAbs % 1000000000)) := by
    unfold fmtZero9
    rw [if_neg (by omega), Int.natAbs_ofNat]
  simp only [ClockTime.String, hns, e1, e2, List.cons_append, List.nil_append, List.append_assoc]

/-- Claim C13: for all `int64` clock times `t` and `u`, `t.Sub(u)` is `t - u`
when that fits in `int64`, `MaxInt64` when `t - u > MaxInt64` and `MinInt64`
when `t - u < MinInt64`. -/
theorem C13_sub_saturates (t u : Int) (ht : InInt64 t) (hu : InInt64 u) :
    ClockTime.Sub t u =
      if t - u > MaxInt64 then MaxInt64 else if t - u < MinInt64 then MinInt64 else t - u :=
  subClockTime_eq t u ht hu

theorem C13_sub_saturates_witness :
    (ClockTime.Sub (MaxInt64 - 678) (-700) =
      if MaxInt64 - 678 - -700 > MaxInt64 then MaxInt64
      else if MaxInt64 - 678 - -700 < MinInt64 then MinInt64 else MaxInt64 - 678 - -700) ∧
    ClockTime.Sub (MaxInt64 - 678) (-700) = MaxInt64 ∧
    ClockTime.Sub (MinInt64 + 200) 205 = MinInt64 ∧ ClockTime.Sub 1000 500 = 500 :=
  ⟨C13_sub_saturates (MaxInt64 - 678) (-700) (by decide) (by decide), by decide, by decide,
    by decide⟩

/-- Claim C14: for every `int64` clock time `t` and duration `d`, `t.Add(d)` is
`t + d` when that fits in `int64`, `MaxInt64` when `t + d > MaxInt64` and
`MinInt64` when `t + d < MinInt64`. -/
theorem C14_add_saturates (t d : Int) (ht : InInt64 t) (hd : InInt64 d) :
    ClockTime.Add t d =
      if t + d > MaxInt64 then MaxInt64 else if t + d < MinInt64 then MinInt64 else t + d :=
  addClockTime_eq t d ht hd

theorem C14_add_saturates_witness :
    (ClockTime.Add MaxInt64 1 =
      if MaxInt64 + 1 > MaxInt64 then MaxInt64
      else if MaxInt64 + 1 < MinInt64 then MinInt64 else MaxInt64 + 1) ∧
    ClockTime.Add MaxInt64 1 = MaxInt64 ∧ ClockTime.Add MinInt64 (-1) = MinInt64 ∧
    ClockTime.Add 1000 500 = 1500 :=
  ⟨C14_add_saturates MaxInt64 1 (by decide) (by decide), by decide, by decide, by decide⟩

/-- Claim C20: what `String` prints. For every `t` the text is `m`, a sign, the
decimal digits of `|t| div 10^9`, a dot and the digits of `|t| mod 10^9` padded
with zeros to nine; but the sign is `-` only when `t ≤ -10^9`: a negative `t`
above `-10^9` is printed with `+`, like `-t`. The two vectors of the test hold. -/
theorem C20_clock_string_sign_lost :
    (∀ t : Int, ClockTime.String t =
      String.mk ('m' :: (if t ≤ -Second then '-' else '+') ::
        (decimal (t.natAbs / 1000000000) ++
          '.' :: zeroPad 9 (decimal (t.natAbs % 1000000000))))) ∧
    ClockTime.String 24242424191000 = "m+24242.424191000" ∧
    ClockTime.String (-15242444181000) = "m-15242.444181000" ∧
    ClockTime.String (-1) = "m+0.000000001" ∧
    ClockTime.String 1 = "m+0.000000001" ∧
    ClockTime.String (-500000000) = "m+0.500000000" :=
  ⟨clockString_eq, by decide, by decide, by decide, by decide, by decide⟩

/-! ### `GoString` and `Duration` -/

/-- Truncated division by a positive number: quotient and remainder have the
sign of the dividend, and the remainder is smaller than the divisor. -/
theorem tdiv_tmod_pos (d a : Int) (ha : 0 < a) :
    a * d.tdiv a + d.tmod a = d ∧
      (0 ≤ d → 0 ≤ d.tmod a ∧ d.tmod a < a ∧ 0 ≤ d.tdiv a ∧ 0 ≤ a * d.tdiv a) ∧
      (d ≤ 0 → -a < d.tmod a ∧ d.tmod a ≤ 0 ∧ d.tdiv a ≤ 0 ∧ a * d.tdiv a ≤ 0) := by
  refine ⟨Int.tdiv_add_tmod d a, fun h => ?_, fun h => ?_⟩
  · have hq := Int.tdiv_nonneg h (Int.le_of_lt ha)
    exact ⟨Int.tmod_nonneg a h, Int.tmod_lt_of_pos d ha, hq,
      Int.mul_nonneg (Int.le_of_lt ha) hq⟩
  · obtain ⟨n, rfl⟩ : ∃ n : Int, d = -n := ⟨-d, by omega⟩
    have hn : 0 ≤ n := by omega
    have hd : (-n).tdiv a = -(n.tdiv a) := Int.neg_tdiv n a
    have hm : (-n).tmod a = -(n.tmod a) := by
      rw [Int.tmod_def, hd, Int.tmod_def]
      ring
    have h1 := Int.tmod_nonneg a hn
    have h2 := Int.tmod_lt_of_pos n ha
    have h3 := Int.tdiv_nonneg hn (Int.le_of_lt ha)
    have h4 : 0 ≤ a * n.tdiv a := Int.mul_nonneg (Int.le_of_lt ha) h3
    have h5 : a * -(n.tdiv a) = -(a * n.tdiv a) := by ring
    rw [hd, hm, h5]
    omega

/-- Truncated division by a positive literal, in terms of the absolute value. -/
theorem tdiv_sign_natAbs (d : Int) (k : Nat) (hk : 0 < k) :
    d.tdiv (k : Int) = d.sign * ((d.natAbs / k : Nat) : Int) := by
  rcases Int.lt_or_le d 0 with h | h
  · obtain ⟨n, rfl⟩ : ∃ n : Nat, d = -(n : Int) := ⟨d.natAbs, by omega⟩
    have hn : (-(n : Int)).natAbs = n := by omega
    rw [Int.neg_tdiv, Int.tdiv_eq_ediv (by omega) (by omega), hn,
      Int.sign_eq_neg_one_of_neg h]
    simp
  · obtain ⟨n, rfl⟩ : ∃ n : Nat, d = (n : Int) := ⟨d.natAbs, by omega⟩
    rw [Int.tdiv_eq_ediv (by omega) (by omega), Int.natAbs_ofNat]
    rcases Nat.eq_zero_or_pos n with h0 | h0
    · subst h0
      simp
    · rw [Int.sign_eq_one_of_pos (by omega)]
      simp

/-- Claim C21: for every clock time `t`, `GoString` prints, with the verb `%+d`,
two integers `s` and `nsec` with `s * 10^9 + nsec = t` and `|nsec| < 10^9`,
neither of them with the sign opposite to `t`; the vector of the test holds. -/
theorem C21_clock_gostring :
    (∀ t : Int, ∃ s nsec : Int,
      ClockTime.GoString t = String.mk ("\x7bs: ".data ++ fmtPlusD s ++ ", nsec: ".data ++
        fmtPlusD nsec ++ "\x7d".data) ∧
      s * 1000000000 + nsec = t ∧ nsec.natAbs < 1000000000 ∧
      (0 ≤ t → 0 ≤ s ∧ 0 ≤ nsec) ∧ (t ≤ 0 → s ≤ 0 ∧ nsec ≤ 0)) ∧
    ClockTime.GoString (-1545434181023) = "\x7bs: -1545, nsec: -434181023\x7d" := by
  refine ⟨fun t => ⟨t.tdiv Second, t.tmod Second, rfl, ?_⟩, by decide⟩
  obtain ⟨h1, h2, h3⟩ := tdiv_tmod_pos t Second (by decide)
  unfold Second at h1 h2 h3 ⊢
  refine ⟨by omega, ?_, fun h => ?_, fun h => ?_⟩
  · rcases Int.lt_or_le t 0 with h | h
    · have := h3 (by omega)
      omega
    · have := h2 h
      omega
  · have := h2 h
    omega
  · have := h3 h
    omega

/-- Claim C22: for every duration `d`, `Nanoseconds` returns `d` and the other
accessors return `d` divided by `10^3`, `10^6`, `10^9`, `6 * 10^10` and
`3.6 * 10^12`, truncated toward zero: the sign of `d` times the quotient of
`|d|`, rounded down. -/
theorem C22_duration_accessors (d : Int) :
    Duration.Nanoseconds d = d ∧
    Duration.Microseconds d = d.sign * ((d.natAbs / 1000 : Nat) : Int) ∧
    Duration.Milliseconds d = d.sign * ((d.natAbs / 1000000 : Nat) : Int) ∧
    Duration.Seconds d = d.sign * ((d.natAbs / 1000000000 : Nat) : Int) ∧
    Duration.Minutes d = d.sign * ((d.natAbs / 60000000000 : Nat) : Int) ∧
    Duration.Hours d = d.sign * ((d.natAbs / 3600000000000 : Nat) : Int) :=
  ⟨rfl, tdiv_sign_natAbs d 1000 (by decide), tdiv_sign_natAbs d 1000000 (by decide),
    tdiv_sign_natAbs d 1000000000 (by decide), tdiv_sign_natAbs d 60000000000 (by decide),
    tdiv_sign_natAbs d 3600000000000 (by decide)⟩

theorem wrapInt64_of_inInt64 (x : Int) (h : InInt64 x) : wrapInt64 x = x := by
  unfold InInt64 MinInt64 MaxInt64 at h
  unfold wrapInt64
  omega

/-- Claim C23: for every `int64` `n` and every unit whose product with `n` fits
in `int64`, the constructor returns exactly the product and the matching
accessor returns `n`. -/
theorem C23_unit_round_trip (n : Int) (hn : InInt64 n) :
    (Nanoseconds n = n * 1 ∧ InInt64 (Nanoseconds n) ∧
      Duration.Nanoseconds (Nanoseconds n) = n) ∧
    (InInt64 (n * 1000) →
      Microseconds n = n * 1000 ∧ Duration.Microseconds (Microseconds n) = n) ∧
    (InInt64 (n * 1000000) →
      Milliseconds n = n * 1000000 ∧ Duration.Milliseconds (Milliseconds n) = n) ∧
    (InInt64 (n * 1000000000) →
      Seconds n = n * 1000000000 ∧ Duration.Seconds (Seconds n) = n) ∧
    (InInt64 (n * 60000000000) →
      Minutes n = n * 60000000000 ∧ Duration.Minutes (Minutes n) = n) ∧
    (InInt64 (n * 3600000000000) →
      Hours n = n * 3600000000000 ∧ Duration.Hours (Hours n) = n) := by
  refine ⟨⟨by unfold Nanoseconds; omega, hn, rfl⟩, fun h => ?_, fun h => ?_, fun h => ?_,
    fun h => ?_, fun h => ?_⟩
  · have e : Microseconds n = n * 1000 := wrapInt64_of_inInt64 _ h
    exact ⟨e, by rw [e]; exact Int.mul_tdiv_cancel n (by decide)⟩
  · have e : Milliseconds n = n * 1000000 := wrapInt64_of_inInt64 _ h
    exact ⟨e, by rw [e]; exact Int.mul_tdiv_cancel n (by decide)⟩
  · have e : Seconds n = n * 1000000000 := wrapInt64_of_inInt64 _ h
    exact ⟨e, by rw [e]; exact Int.mul_tdiv_cancel n (by decide)⟩
  · have e : Minutes n = n * 60000000000 := wrapInt64_of_inInt64 _ h
    exact ⟨e, by rw [e]; exact Int.mul_tdiv_cancel n (by decide)⟩
  · have e : Hours n = n * 3600000000000 := wrapInt64_of_inInt64 _ h
    exact ⟨e, by rw [e]; exact Int.mul_tdiv_cancel n (by decide)⟩

theorem C23_unit_round_trip_witness :
    InInt64 (-7) ∧ InInt64 (-7 * 3600000000000) ∧
      Hours (-7) = -7 * 3600000000000 ∧ Duration.Hours (Hours (-7)) = -7 ∧
      Microseconds (-7) = -7 * 1000 ∧ Duration.Microseconds (Microseconds (-7)) = -7 :=
  ⟨by decide, by decide,
    ((C23_unit_round_trip (-7) (by decide)).2.2.2.2.2 (by decide)).1,
    ((C23_unit_round_trip (-7) (by decide)).2.2.2.2.2 (by decide)).2,
    ((C23_unit_round_trip (-7) (by decide)).2.1 (by decide)).1,
    ((C23_unit_round_trip (-7) (by decide)).2.1 (by decide)).2⟩

/-- The method `time.Duration.Abs` away from `math.MinInt64`: the absolute
value. -/
theorem abs_eq_natAbs (m : Int) (hm : InInt64 m) (hmin : m ≠ MinInt64) :
    time.Duration.Abs m = (m.natAbs : Int) := by
  unfold InInt64 MinInt64 MaxInt64 at hm
  unfold MinInt64 at hmin
  unfold time.Duration.Abs wrapInt64 MinInt64 MaxInt64
  split_ifs <;> omega

/-- The method `time.Duration.Truncate` for a positive `m`. -/
theorem truncate_pos (d a : Int) (hd : InInt64 d) (ha : 0 < a) :
    time.Duration.Truncate d a = a * d.tdiv a := by
  obtain ⟨h1, h2, h3⟩ := tdiv_tmod_pos d a ha
  unfold InInt64 MinInt64 MaxInt64 at hd
  unfold time.Duration.Truncate wrapInt64
  rw [if_neg (by omega)]
  rcases Int.lt_or_le d 0 with h | h
  · have := h3 (by omega)
    omega
  · have := h2 h
    omega

/-- The method `time.Duration.Abs` at `math.MinInt64`: `math.MaxInt64`. -/
theorem abs_minInt64 : time.Duration.Abs MinInt64 = MaxInt64 := by
  decide

/-- The method `time.Duration.Truncate` for a positive `m`: `d` minus the
remainder of `d` by `m`, which is the multiple `(d quo m) * m` of `m` between
`0` and `d`. -/
theorem truncate_toward_zero (d a : Int) (hd : InInt64 d) (ha : 0 < a) :
    time.Duration.Truncate d a = d - d.tmod a ∧
      time.Duration.Truncate d a = d.tdiv a * a ∧
      (time.Duration.Truncate d a).natAbs ≤ d.natAbs ∧
      (d - time.Duration.Truncate d a).natAbs < a.natAbs := by
  obtain ⟨h1, h2, h3⟩ := tdiv_tmod_pos d a ha
  rw [truncate_pos d a hd ha]
  refine ⟨by omega, Int.mul_comm _ _, ?_, ?_⟩
  · rcases Int.lt_or_le d 0 with h | h
    · have := h3 (by omega)
      omega
    · have := h2 h
      omega
  · rcases Int.lt_or_le d 0 with h | h
    · have := h3 (by omega)
      omega
    · have := h2 h
      omega

/-- Claim C24, amended: for every `int64` duration `d` and every `int64`
`m` other than `0` and `math.MinInt64`, `d.Truncate(m)` is `d` minus the
remainder of `d` by `|m|`, which is the multiple `(d quo |m|) * |m|` of `|m|`
between `0` and `d`, and `d.Truncate(m) = d.Truncate(-m)`. For
`m = math.MinInt64`, `Abs` returns `math.MaxInt64` and `d.Truncate(m)` is `d`
minus the remainder of `d` by `math.MaxInt64`, the multiple
`(d quo MaxInt64) * MaxInt64` of `math.MaxInt64` between `0` and `d`. -/
theorem C24_truncate_uses_abs (d m : Int) (hd : InInt64 d) (hm : InInt64 m) (hm0 : m ≠ 0) :
    (m ≠ MinInt64 →
      Duration.Truncate d m = d - d.tmod (m.natAbs : Int) ∧
      Duration.Truncate d m = d.tdiv (m.natAbs : Int) * (m.natAbs : Int) ∧
      (Duration.Truncate d m).natAbs ≤ d.natAbs ∧
      (d - Duration.Truncate d m).natAbs < m.natAbs ∧
      Duration.Truncate d m = Duration.Truncate d (-m)) ∧
    (m = MinInt64 →
      Duration.Abs m = MaxInt64 ∧
      Duration.Truncate d m = d - d.tmod MaxInt64 ∧
      Duration.Truncate d m = d.tdiv MaxInt64 * MaxInt64 ∧
      (Duration.Truncate d m).natAbs ≤ d.natAbs ∧
      (d - Duration.Truncate d m).natAbs < MaxInt64.natAbs) := by
  constructor
  · intro hmin
    have ha : (0 : Int) < (m.natAbs : Int) := by omega
    have hm' : InInt64 (-m) := by
      unfold InInt64 MinInt64 MaxInt64 at hm ⊢
      unfold MinInt64 at hmin
      omega
    have hmin' : -m ≠ MinInt64 := by
      unfold InInt64 MinInt64 MaxInt64 at hm
      unfold MinInt64
      omega
    have e1 : Duration.Truncate d m = time.Duration.Truncate d (m.natAbs : Int) := by
      unfold Duration.Truncate
      rw [abs_eq_natAbs m hm hmin]
    have e2 : Duration.Truncate d (-m) = time.Duration.Truncate d (m.natAbs : Int) := by
      unfold Duration.Truncate
      rw [abs_eq_natAbs (-m) hm' hmin', Int.natAbs_neg]
    obtain ⟨t1, t2, t3, t4⟩ := truncate_toward_zero d (m.natAbs : Int) hd ha
    rw [Int.natAbs_ofNat] at t4
    rw [e2, e1]
    exact ⟨t1, t2, t3, t4, rfl⟩
  · intro hmin
    subst hmin
    have e1 : Duration.Truncate d MinInt64 = time.Duration.Truncate d MaxInt64 := by
      unfold Duration.Truncate
      rw [abs_minInt64]
    rw [e1]
    exact ⟨abs_minInt64, truncate_toward_zero d MaxInt64 hd (by decide)⟩

theorem C24_truncate_uses_abs_witness :
    (Duration.Truncate (Hours 2 + Minutes 2 + Seconds 32) (Seconds (-100))
        = Hours 2 + Minutes 1 + Seconds 40 ∧
      Duration.Truncate (Hours 2 + Minutes 2 + Seconds 32) (Seconds (-100))
        = Duration.Truncate (Hours 2 + Minutes 2 + Seconds 32) (-Seconds (-100))) ∧
    (Duration.Truncate 5 MinInt64 = 5 - (5 : Int).tmod MaxInt64 ∧
      Duration.Truncate 5 MinInt64 = 0 ∧ Duration.Truncate (-5) MinInt64 = 0 ∧
      Duration.Truncate MinInt64 MinInt64 = -MaxInt64) :=
  ⟨⟨by decide,
    ((C24_truncate_uses_abs (Hours 2 + Minutes 2 + Seconds 32) (Seconds (-100)) (by decide)
      (by decide) (by decide)).1 (by decide)).2.2.2.2⟩,
    ((C24_truncate_uses_abs 5 MinInt64 (by decide) (by decide) (by decide)).2 rfl).2.1,
    by decide, by decide, by decide⟩

/-- Claim C24 as stated fails at `m = math.MinInt64`: `Abs` gives
`math.MaxInt64`, so `MaxInt64.Truncate(MinInt64)` is `MaxInt64`, while `MaxInt64`
minus its remainder by `|MinInt64| = 2^63` is `0`, the only multiple of `2^63`
between `0` and `MaxInt64`. -/
theorem C24_truncate_min_counterexample :
    InInt64 MaxInt64 ∧ InInt64 MinInt64 ∧ MinInt64 ≠ 0 ∧
      Duration.Truncate MaxInt64 MinInt64 = MaxInt64 ∧
      MaxInt64 - MaxInt64.tmod (MinInt64.natAbs : Int) = 0 ∧
      Duration.Truncate MaxInt64 MinInt64 ≠ MaxInt64 - MaxInt64.tmod (MinInt64.natAbs : Int) := by
  decide

/-- The method `time.Duration.Round` for a positive `m`, when the two multiples
of `m` around `d` that it may return fit in `int64`: the multiple toward zero
when the remainder is less than half of `m`, the next multiple away from zero
otherwise. -/
theorem round_pos (d a : Int) (hd : InInt64 d) (ha : 0 < a) (ha' : InInt64 a)
    (hfit : ∀ k : Int, (d - k * a).natAbs * 2 ≤ a.natAbs → InInt64 (k * a)) :
    (0 ≤ d → time.Duration.Round d a =
      if d.tmod a * 2 < a then d.tdiv a * a else (d.tdiv a + 1) * a) ∧
    (d < 0 → time.Duration.Round d a =
      if -d.tmod a * 2 < a then d.tdiv a * a else (d.tdiv a - 1) * a) := by
  obtain ⟨h1, h2, h3⟩ := tdiv_tmod_pos d a ha
  have e0 : d.tdiv a * a = a * d.tdiv a := Int.mul_comm _ _
  have e1 : (d.tdiv a + 1) * a = a * d.tdiv a + a := by ring
  have e2 : (d.tdiv a - 1) * a = a * d.tdiv a - a := by ring
  have f1 := hfit (d.tdiv a + 1)
  have f2 := hfit (d.tdiv a - 1)
  rw [e1] at f1
  rw [e2] at f2
  rw [e0, e1, e2]
  unfold InInt64 MinInt64 MaxInt64 at hd ha' f1 f2
  refine ⟨fun h => ?_, fun h => ?_⟩
  · obtain ⟨r0, r1, _, c0⟩ := h2 h
    have hl : time.lessThanHalf (d.tmod a) a ↔ d.tmod a * 2 < a := by
      unfold time.lessThanHalf toUint64
      omega
    unfold time.Duration.Round
    rw [if_neg (by omega), if_neg (by omega)]
    simp only
    by_cases hh : d.tmod a * 2 < a
    · rw [if_pos (hl.mpr hh), if_pos hh]
      unfold wrapInt64
      omega
    · rw [if_neg (fun c => hh (hl.mp c)), if_neg hh]
      have g := f1 (by omega)
      have hd1 : wrapInt64 (wrapInt64 (d + a) - d.tmod a) = a * d.tdiv a + a := by
        unfold wrapInt64
        omega
      rw [hd1, if_pos (by omega)]
  · obtain ⟨r0, r1, _, c0⟩ := h3 (by omega)
    have hr : wrapInt64 (-d.tmod a) = -d.tmod a := by
      unfold wrapInt64
      omega
    have hl : time.lessThanHalf (-d.tmod a) a ↔ -d.tmod a * 2 < a := by
      unfold time.lessThanHalf toUint64
      omega
    unfold time.Duration.Round
    rw [if_neg (by omega), if_pos h]
    simp only
    rw [hr]
    by_cases hh : -d.tmod a * 2 < a
    · rw [if_pos (hl.mpr hh), if_pos hh]
      unfold wrapInt64
      omega
    · rw [if_neg (fun c => hh (hl.mp c)), if_neg hh]
      have g := f2 (by omega)
      have hd1 : wrapInt64 (wrapInt64 (d - a) + -d.tmod a) = a * d.tdiv a - a := by
        unfold wrapInt64
        omega
      rw [hd1, if_pos (by omega)]

/-- A multiple of `a` at distance at most `a / 2` from `d` is a nearest one. -/
theorem nearest_of_half (d a k : Int) (ha : 0 < a) (h : (d - k * a).natAbs * 2 ≤ a.natAbs) :
    ∀ j : Int, (d - k * a).natAbs ≤ (d - j * a).natAbs := by
  intro j
  rcases lt_trichotomy j k with hj | hj | hj
  · have h1 : (k - j) * a ≥ 1 * a := Int.mul_le_mul_of_nonneg_right (by omega) (by omega)
    have h2 : (k - j) * a = k * a - j * a := by ring
    omega
  · rw [hj]
  · have h1 : (j - k) * a ≥ 1 * a := Int.mul_le_mul_of_nonneg_right (by omega) (by omega)
    have h2 : (j - k) * a = j * a - k * a := by ring
    omega

/-- The method `time.Duration.Round` for a positive `m`, when the multiples of
`m` nearest to `d` fit in `int64`: the result is a multiple of `m` nearest to
`d`, and for `d ≥ 0` exactly halfway between two multiples it is the greater
of the two. -/
theorem round_nearest_pos (d a : Int) (hd : InInt64 d) (ha : 0 < a) (ha' : InInt64 a)
    (hfit : ∀ k : Int, (d - k * a).natAbs * 2 ≤ a.natAbs → InInt64 (k * a)) :
    ∃ k : Int, time.Duration.Round d a = k * a ∧
      (d - time.Duration.Round d a).natAbs * 2 ≤ a.natAbs ∧
      (∀ j : Int, (d - time.Duration.Round d a).natAbs ≤ (d - j * a).natAbs) ∧
      (0 ≤ d → (d - time.Duration.Round d a).natAbs * 2 = a.natAbs →
        d < time.Duration.Round d a) := by
  obtain ⟨r1, r2⟩ := round_pos d a hd ha ha' hfit
  obtain ⟨h1, h2, h3⟩ := tdiv_tmod_pos d a ha
  have e0 : d.tdiv a * a = a * d.tdiv a := Int.mul_comm _ _
  have e1 : (d.tdiv a + 1) * a = a * d.tdiv a + a := by ring
  have e2 : (d.tdiv a - 1) * a = a * d.tdiv a - a := by ring
  have key : ∃ k : Int, time.Duration.Round d a = k * a ∧
      (d - k * a).natAbs * 2 ≤ a.natAbs ∧
      (0 ≤ d → (d - k * a).natAbs * 2 = a.natAbs → d < k * a) := by
    rcases Int.lt_or_le d 0 with h | h
    · obtain ⟨b0, b1, _, _⟩ := h3 (by omega)
      rw [r2 h]
      by_cases hh : -d.tmod a * 2 < a
      · rw [if_pos hh]
        exact ⟨_, rfl, by rw [e0]; omega, fun c => by omega⟩
      · rw [if_neg hh]
        exact ⟨_, rfl, by rw [e2]; omega, fun c => by omega⟩
    · obtain ⟨b0, b1, _, _⟩ := h2 h
      rw [r1 h]
      by_cases hh : d.tmod a * 2 < a
      · rw [if_pos hh]
        exact ⟨_, rfl, by rw [e0]; omega, fun _ => by rw [e0]; omega⟩
      · rw [if_neg hh]
        exact ⟨_, rfl, by rw [e1]; omega, fun _ => by rw [e1]; omega⟩
  obtain ⟨k, k1, k2, k3⟩ := key
  rw [k1]
  exact ⟨k, rfl, k2, nearest_of_half d _ k ha k2, k3⟩

/-- The multiples of `math.MaxInt64` nearest to an `int64` value fit in
`int64`. -/
theorem fit_maxInt64 (d : Int) (hd : InInt64 d) (k : Int)
    (hk : (d - k * MaxInt64).natAbs * 2 ≤ MaxInt64.natAbs) : InInt64 (k * MaxInt64) := by
  have e : MaxInt64.natAbs = 9223372036854775807 := by decide
  rw [e] at hk
  unfold InInt64 MinInt64 MaxInt64 at hd ⊢
  unfold MaxInt64 at hk
  omega

/-- Claim C25, amended: for every `int64` duration `d` and every `int64` `m`
other than `0` and `math.MinInt64`, when the multiples of `|m|` nearest to `d`
fit in `int64`, `d.Round(m)` is a multiple of `|m|` nearest to `d`, and for
`d ≥ 0` exactly halfway between two multiples it is the greater of the two. For
`m = math.MinInt64`, `Abs` returns `math.MaxInt64` and that value is the
modulus: `d.Round(m)` is a multiple of `math.MaxInt64` nearest to `d`, and for
`d ≥ 0` exactly halfway it is the greater of the two. -/
theorem C25_round_nearest (d m : Int) (hd : InInt64 d) (hm : InInt64 m) (hm0 : m ≠ 0) :
    (m ≠ MinInt64 →
      (∀ k : Int, (d - k * (m.natAbs : Int)).natAbs * 2 ≤ m.natAbs →
        InInt64 (k * (m.natAbs : Int))) →
      ∃ k : Int, Duration.Round d m = k * (m.natAbs : Int) ∧
        (d - Duration.Round d m).natAbs * 2 ≤ m.natAbs ∧
        (∀ j : Int, (d - Duration.Round d m).natAbs ≤ (d - j * (m.natAbs : Int)).natAbs) ∧
        (0 ≤ d → (d - Duration.Round d m).natAbs * 2 = m.natAbs → d < Duration.Round d m)) ∧
    (m = MinInt64 →
      Duration.Abs m = MaxInt64 ∧
      ∃ k : Int, Duration.Round d m = k * MaxInt64 ∧
        (d - Duration.Round d m).natAbs * 2 ≤ MaxInt64.natAbs ∧
        (∀ j : Int, (d - Duration.Round d m).natAbs ≤ (d - j * MaxInt64).natAbs) ∧
        (0 ≤ d → (d - Duration.Round d m).natAbs * 2 = MaxInt64.natAbs →
          d < Duration.Round d m)) := by
  constructor
  · intro hmin hfit
    have ha : (0 : Int) < (m.natAbs : Int) := by omega
    have ha' : InInt64 (m.natAbs : Int) := by
      unfold InInt64 MinInt64 MaxInt64 at hm ⊢
      unfold MinInt64 at hmin
      omega
    have hn : ((m.natAbs : Int)).natAbs = m.natAbs := Int.natAbs_ofNat _
    have e : Duration.Round d m = time.Duration.Round d (m.natAbs : Int) := by
      unfold Duration.Round
      rw [abs_eq_natAbs m hm hmin]
    have g := round_nearest_pos d (m.natAbs : Int) hd ha ha' (by rw [hn]; exact hfit)
    rw [hn] at g
    rw [e]
    exact g
  · intro hmin
    subst hmin
    have e : Duration.Round d MinInt64 = time.Duration.Round d MaxInt64 := by
      unfold Duration.Round
      rw [abs_minInt64]
    rw [e]
    exact ⟨abs_minInt64, round_nearest_pos d MaxInt64 hd (by decide) (by decide)
      (fit_maxInt64 d hd)⟩

theorem C25_round_nearest_witness :
    Hours 2 + Minutes 2 + Seconds 30 = 7350000000000 ∧ Seconds (-100) = -100000000000 ∧
      Duration.Round 7350000000000 (-100000000000) = Hours 2 + Minutes 3 + Seconds 20 ∧
      (∃ k : Int, Duration.Round 7350000000000 (-100000000000)
          = k * (((-100000000000 : Int).natAbs : Nat) : Int) ∧
        (7350000000000 - Duration.Round 7350000000000 (-100000000000)).natAbs * 2
          ≤ (-100000000000 : Int).natAbs ∧
        (∀ j : Int, (7350000000000 - Duration.Round 7350000000000 (-100000000000)).natAbs
          ≤ (7350000000000 - j * (((-100000000000 : Int).natAbs : Nat) : Int)).natAbs) ∧
        (0 ≤ (7350000000000 : Int) →
          (7350000000000 - Duration.Round 7350000000000 (-100000000000)).natAbs * 2
            = (-100000000000 : Int).natAbs →
          7350000000000 < Duration.Round 7350000000000 (-100000000000))) ∧
      (Duration.Abs MinInt64 = MaxInt64 ∧
        ∃ k : Int, Duration.Round (-4611686018427387905) MinInt64 = k * MaxInt64 ∧
          (-4611686018427387905 - Duration.Round (-4611686018427387905) MinInt64).natAbs * 2
            ≤ MaxInt64.natAbs ∧
          (∀ j : Int,
            (-4611686018427387905 - Duration.Round (-4611686018427387905) MinInt64).natAbs
              ≤ (-4611686018427387905 - j * MaxInt64).natAbs) ∧
          (0 ≤ (-4611686018427387905 : Int) →
            (-4611686018427387905 - Duration.Round (-4611686018427387905) MinInt64).natAbs * 2
              = MaxInt64.natAbs →
            -4611686018427387905 < Duration.Round (-4611686018427387905) MinInt64)) ∧
      Duration.Round (-4611686018427387905) MinInt64 = -MaxInt64 ∧
      Duration.Round 4611686018427387904 MinInt64 = MaxInt64 ∧
      Duration.Round 4611686018427387903 MinInt64 = 0 :=
  ⟨by decide, by decide, by decide,
    (C25_round_nearest 7350000000000 (-100000000000) (by decide) (by decide)
      (by decide)).1 (by decide) (by
        intro k hk
        have e2 : (((-100000000000 : Int).natAbs : Nat) : Int) = 100000000000 := by decide
        have e3 : (-100000000000 : Int).natAbs = 100000000000 := by decide
        rw [e2, e3] at hk
        rw [e2]
        unfold InInt64 MinInt64 MaxInt64
        omega),
    (C25_round_nearest (-4611686018427387905) MinInt64 (by decide) (by decide)
      (by decide)).2 rfl,
    by decide, by decide, by decide⟩

/-- Claim C25 as stated fails at `m = math.MinInt64`, where `Abs` gives
`math.MaxInt64`: the multiple of `|m| = 2^63` nearest to `d = -(2^62) - 1` is
`math.MinInt64`, which fits in `int64`, and `d.Round(m)` is `MinInt64 + 1`. It
also fails for a negative `d` halfway between two multiples, which is rounded
away from zero: `(-150s).Round(100s)` is `-200s`, the lesser of the two. -/
theorem C25_round_counterexample :
    (MinInt64 ≠ 0 ∧ Duration.Round (-4611686018427387905) MinInt64 = MinInt64 + 1 ∧
      (-4611686018427387905 - MinInt64).natAbs * 2 < MinInt64.natAbs ∧
      Duration.Round (-4611686018427387905) MinInt64 ≠ MinInt64) ∧
    (Duration.Round (Seconds (-150)) (Seconds 100) = Seconds (-200) ∧
      (Seconds (-150) - Seconds (-200)).natAbs * 2 = (Seconds 100).natAbs ∧
      (Seconds (-150) - Seconds (-100)).natAbs * 2 = (Seconds 100).natAbs ∧
      Seconds (-200) < Seconds (-100)) := by
  decide

/-! ### `Time` and the location UTC -/

open Stringhash (Outcome)

theorem setLoc_utc (ar : Instants) (t : time.Time) :
    (t.setLoc ar (some .utcLoc)).loc = none := by
  simp only [time.Time.setLoc, if_true]

theorem isUTC_iff (t : Time) : t.IsUTC ↔ t.loc = none ∨ t.loc = some .utcLoc := by
  unfold Time.IsUTC time.Time.Location
  rcases h : t.loc with _ | l
  · simp
  · simp

theorem isUTC_of_loc (t : Time) (h : t.loc = none) : t.IsUTC :=
  (isUTC_iff t).mpr (Or.inl h)

/-- The zone offset of a time in UTC is `0`. -/
theorem offset_of_isUTC (ar : Instants) (t : Time) (h : t.IsUTC) : time.Time.offset ar t = 0 := by
  rcases (isUTC_iff t).mp h with h | h
  · simp [time.Time.offset, h, time.Location.get]
  · simp [time.Time.offset, h, time.Location.get]

/-- The function `time.Date` with the location `time.UTC` returns a time whose
`loc` is nil. -/
theorem date_utc (ar : Instants) (year month day hour min sec nsec : Int) :
    ∃ t, time.Date ar year month day hour min sec nsec (some .utcLoc) = .ok t ∧
      t.loc = none := by
  refine ⟨_, rfl, ?_⟩
  exact setLoc_utc ar _

/-- Claim C26: every time that `Date`, `Now`, `Unix` and `UnixMilli` return is in
UTC; `Add`, `AddDate`, `Truncate` and `Round` of a time in UTC return a time in
UTC; and `ISOString` of a time in UTC ends with `Z`. -/
theorem C26_times_are_utc (ar : Instants) :
    (∀ year month day hour minute second nsec : Int,
      ∃ t, Date ar year month day hour minute second nsec = Outcome.ok t ∧ t.IsUTC) ∧
    (Now ar).IsUTC ∧ (∀ sec nsec : Int, (Unix ar sec nsec).IsUTC) ∧
    (∀ msec : Int, (UnixMilli ar msec).IsUTC) ∧
    (∀ t : Time, t.IsUTC →
      (∀ d : Int, (t.Add ar d).IsUTC ∧ (t.Truncate ar d).IsUTC ∧ (t.Round ar d).IsUTC) ∧
      (∀ years months days : Int,
        ∃ u, t.AddDate ar years months days = Outcome.ok u ∧ u.IsUTC) ∧
      ∃ body, t.ISOString ar = String.mk (body ++ ['Z'])) := by
  refine ⟨fun year month day hour minute second nsec => ?_, ?_, fun sec nsec => ?_,
    fun msec => ?_, fun t ht => ⟨fun d => ⟨?_, ?_, ?_⟩, fun years months days => ?_, ?_⟩⟩
  · obtain ⟨t, h1, h2⟩ := date_utc ar year month day hour minute second nsec
    exact ⟨t, h1, isUTC_of_loc t h2⟩
  · exact isUTC_of_loc _ (setLoc_utc ar _)
  · exact isUTC_of_loc _ (setLoc_utc ar _)
  · exact isUTC_of_loc _ (setLoc_utc ar _)
  · exact (isUTC_iff _).mpr ((isUTC_iff t).mp ht)
  · have hl : (t.Truncate ar d).loc = t.loc := by
      unfold Time.Truncate time.Time.Truncate time.Time.Add
      simp only
      split_ifs <;> rfl
    exact (isUTC_iff _).mpr (by rw [hl]; exact (isUTC_iff t).mp ht)
  · have hl : (t.Round ar d).loc = t.loc := by
      unfold Time.Round time.Time.Round time.Time.Add
      simp only
      split_ifs <;> rfl
    exact (isUTC_iff _).mpr (by rw [hl]; exact (isUTC_iff t).mp ht)
  · have hloc : time.Time.Location t = .utcLoc := ht
    unfold Time.AddDate time.Time.AddDate
    simp only
    rw [hloc]
    obtain ⟨u, h1, h2⟩ := date_utc ar ((ar.civil (t.wall, t.ext) (t.offset ar)).1 + years)
      ((ar.civil (t.wall, t.ext) (t.offset ar)).2.1 + months)
      ((ar.civil (t.wall, t.ext) (t.offset ar)).2.2.1 + days)
      (ar.civil (t.wall, t.ext) (t.offset ar)).2.2.2.1
      (ar.civil (t.wall, t.ext) (t.offset ar)).2.2.2.2.1
      (ar.civil (t.wall, t.ext) (t.offset ar)).2.2.2.2.2.1
      (ar.civil (t.wall, t.ext) (t.offset ar)).2.2.2.2.2.2
    exact ⟨u, h1, isUTC_of_loc u h2⟩
  · refine ⟨ar.dateTimeText (t.wall, t.ext) 0, ?_⟩
    unfold Time.ISOString time.Time.formatRFC3339
    rw [offset_of_isUTC ar t ht]
    rfl

/-! ### `Add` after `Sub`, and `Sub` after `Add` -/

/-- Claim C31: for all `int64` clock times `t` and `u` whose difference `t - u`
fits in `int64`, `t.Sub(u)` is `t - u` and `u.Add(t.Sub(u))` is `t`; and for
every `int64` clock time `t` and duration `d` whose sum `t + d` fits in
`int64`, `t.Add(d)` is `t + d` and `t.Add(d).Sub(t)` is `d`. -/
theorem C31_add_undoes_sub (t u d : Int) (ht : InInt64 t) (hu : InInt64 u) (hd : InInt64 d) :
    (InInt64 (t - u) → ClockTime.Sub t u = t - u ∧ ClockTime.Add u (ClockTime.Sub t u) = t) ∧
    (InInt64 (t + d) → ClockTime.Add t d = t + d ∧ ClockTime.Sub (ClockTime.Add t d) t = d) := by
  constructor
  · intro h
    have hs : ClockTime.Sub t u = t - u := by
      unfold ClockTime.Sub
      rw [subClockTime_eq t u ht hu]
      unfold InInt64 at h
      rw [if_neg (by omega), if_neg (by omega)]
    refine ⟨hs, ?_⟩
    rw [hs]
    unfold ClockTime.Add
    rw [addClockTime_eq u (t - u) hu h]
    have e : u + (t - u) = t := by omega
    rw [e]
    unfold InInt64 at ht
    rw [if_neg (by omega), if_neg (by omega)]
  · intro h
    have ha : ClockTime.Add t d = t + d := by
      unfold ClockTime.Add
      rw [addClockTime_eq t d ht hd]
      unfold InInt64 at h
      rw [if_neg (by omega), if_neg (by omega)]
    refine ⟨ha, ?_⟩
    rw [ha]
    unfold ClockTime.Sub
    rw [subClockTime_eq (t + d) t h ht]
    have e : t + d - t = d := by omega
    rw [e]
    unfold InInt64 at hd
    rw [if_neg (by omega), if_neg (by omega)]

theorem C31_add_undoes_sub_witness :
    InInt64 MaxInt64 ∧ InInt64 1 ∧ InInt64 (-5000000000) ∧
    InInt64 (MaxInt64 - 1) ∧ InInt64 (MaxInt64 + -5000000000) ∧
    (ClockTime.Sub MaxInt64 1 = MaxInt64 - 1 ∧
      ClockTime.Add 1 (ClockTime.Sub MaxInt64 1) = MaxInt64) ∧
    (ClockTime.Add MaxInt64 (-5000000000) = MaxInt64 + -5000000000 ∧
      ClockTime.Sub (ClockTime.Add MaxInt64 (-5000000000)) MaxInt64 = -5000000000) ∧
    ClockTime.Sub MaxInt64 1 = 9223372036854775806 ∧
    ClockTime.Add MaxInt64 (-5000000000) = 9223372031854775807 :=
  ⟨by decide, by decide, by decide, by decide, by decide,
    (C31_add_undoes_sub MaxInt64 1 (-5000000000) (by decide) (by decide) (by decide)).1
      (by decide),
    (C31_add_undoes_sub MaxInt64 1 (-5000000000) (by decide) (by decide) (by decide)).2
      (by decide),
    by decide, by decide⟩

end Datetime

namespace Base64

open Stringhash (Byte Outcome byteOf)

/-! ### Soundness of the two encodings -/

set_option maxRecDepth 100000 in
theorem StdEncoding_sound : StdEncoding.Sound :=
  ⟨by decide, by decide, by decide, by decide⟩

set_option maxRecDepth 100000 in
theorem RawURLEncoding_sound : RawURLEncoding.Sound :=
  ⟨by decide, by decide, by decide, by decide⟩

/-! ### Newlines and padding -/

theorem strip_cons_newline (c : Byte) (s : List Byte) (h : isNewline c) :
    strip (c :: s) = strip s := by
  simp [strip, h]

theorem strip_cons_of_not (c : Byte) (s : List Byte) (h : ¬ isNewline c) :
    strip (c :: s) = c :: strip s := by
  simp [strip, h]

theorem strip_append (a b : List Byte) : strip (a ++ b) = strip a ++ strip b := by
  simp [strip]

theorem strip_nil : strip [] = [] := rfl

theorem Encoding.Sound.not_newline {enc : Encoding} (h : enc.Sound) {c : Byte}
    (hc : enc.Alpha c) : ¬ isNewline c := fun hn => hc (h.newline c hn)

theorem padByte_eq {enc : Encoding} {c : Byte} (h : (c.val : Int) = enc.padChar) :
    enc.padByte = c := by
  unfold Encoding.padByte
  rw [← h]
  apply Fin.ext
  have := c.isLt
  simp only [byteOf]
  omega

theorem padChar_ne_of_eq {enc : Encoding} {c : Byte} (h : (c.val : Int) = enc.padChar) :
    enc.padChar ≠ NoPadding := by
  unfold NoPadding; omega

theorem skipNewlines_spec (rest : List Byte) (si : Nat) :
    ∃ skipped, rest = skipped ++ (skipNewlines rest si).1 ∧
      (skipNewlines rest si).2 = si + skipped.length ∧ strip skipped = [] := by
  induction rest generalizing si with
  | nil => exact ⟨[], rfl, rfl, rfl⟩
  | cons c rest ih =>
    by_cases h : c.val = 10 ∨ c.val = 13
    · obtain ⟨sk, h1, h2, h3⟩ := ih (si + 1)
      refine ⟨c :: sk, ?_, ?_, ?_⟩
      · simp only [skipNewlines, if_pos h, List.cons_append]; rw [← h1]
      · simp only [skipNewlines, if_pos h, h2, List.length_cons]; omega
      · rw [strip_cons_newline c sk h]; exact h3
    · exact ⟨[], by simp only [skipNewlines, if_neg h, List.nil_append], by
        simp only [skipNewlines, if_neg h, List.length_nil, Nat.add_zero], rfl⟩

/-! ### Bit arithmetic of a group -/

/-- The four 6-bit values that `Encode` takes from three source bytes. -/
theorem sextets3 (a b c : Byte) :
    ((((a.val <<< 16) ||| (b.val <<< 8) ||| c.val) >>> 18) &&& 0x3F = a.val / 4) ∧
    ((((a.val <<< 16) ||| (b.val <<< 8) ||| c.val) >>> 12) &&& 0x3F
      = a.val % 4 * 16 + b.val / 16) ∧
    ((((a.val <<< 16) ||| (b.val <<< 8) ||| c.val) >>> 6) &&& 0x3F
      = b.val % 16 * 4 + c.val / 64) ∧
    (((a.val <<< 16) ||| (b.val <<< 8) ||| c.val) &&& 0x3F = c.val % 64) := by
  have ha := a.isLt
  have hb := b.isLt
  have hc := c.isLt
  have h1 : (a.val <<< 16) ||| (b.val <<< 8) = (a.val * 256 + b.val) <<< 8 := by
    rw [Nat.shiftLeft_eq b.val, Stringhash.shl_or a.val (b.val * 2 ^ 8) 16 (by omega),
      Nat.shiftLeft_eq]
    omega
  rw [h1, Stringhash.shl_or _ _ 8 hc]
  simp only [Stringhash.and_63, Nat.shiftRight_eq_div_pow]
  refine ⟨?_, ?_, ?_, ?_⟩ <;> omega

/-- The 6-bit values that `Encode` takes from two remaining source bytes. -/
theorem sextets2 (a b : Byte) :
    ((((a.val <<< 16) ||| (b.val <<< 8)) >>> 18) &&& 0x3F = a.val / 4) ∧
    ((((a.val <<< 16) ||| (b.val <<< 8)) >>> 12) &&& 0x3F = a.val % 4 * 16 + b.val / 16) ∧
    ((((a.val <<< 16) ||| (b.val <<< 8)) >>> 6) &&& 0x3F = b.val % 16 * 4) := by
  have ha := a.isLt
  have hb := b.isLt
  have h1 : (a.val <<< 16) ||| (b.val <<< 8) = (a.val * 256 + b.val) * 256 := by
    rw [Nat.shiftLeft_eq b.val, Stringhash.shl_or a.val (b.val * 2 ^ 8) 16 (by omega)]
    omega
  rw [h1]
  simp only [Stringhash.and_63, Nat.shiftRight_eq_div_pow]
  refine ⟨?_, ?_, ?_⟩ <;> omega

/-- The 6-bit values that `Encode` takes from one remaining source byte. -/
theorem sextets1 (a : Byte) :
    (((a.val <<< 16) >>> 18) &&& 0x3F = a.val / 4) ∧
    (((a.val <<< 16) >>> 12) &&& 0x3F = a.val % 4 * 16) := by
  have ha := a.isLt
  simp only [Stringhash.and_63, Nat.shiftRight_eq_div_pow, Nat.shiftLeft_eq]
  refine ⟨?_, ?_⟩ <;> omega

/-- The three bytes that `decodeQuantum` rebuilds from four 6-bit values. -/
theorem unsextets (a b c : Byte) (val : Nat)
    (hval : val = ((a.val / 4) <<< 18) ||| ((a.val % 4 * 16 + b.val / 16) <<< 12) |||
      ((b.val % 16 * 4 + c.val / 64) <<< 6) ||| (c.val % 64)) :
    byteOf (val >>> 16) = a ∧ byteOf (val >>> 8) = b ∧ byteOf (val >>> 0) = c := by
  have ha := a.isLt
  have hb := b.isLt
  have hc := c.isLt
  have hv : val = a.val * 65536 + b.val * 256 + c.val := by
    rw [hval, Stringhash.or4 _ _ _ _ (by omega) (by omega) (by omega)]
    omega
  subst hv
  refine ⟨?_, ?_, ?_⟩ <;> apply Fin.ext <;>
    simp only [Stringhash.byteOf_val, Nat.shiftRight_zero, Nat.shiftRight_eq_div_pow] <;> omega

/-! ### The character loop of `decodeQuantum` -/

theorem readLoop_full (enc : Encoding) (srcLen : Nat) (rest : List Byte) (si : Nat)
    (dbuf : List Nat) : enc.readLoop srcLen rest si 4 dbuf = .done si dbuf 4 none := by
  cases rest <;> simp [Encoding.readLoop]

theorem readLoop_alpha (enc : Encoding) (srcLen : Nat) (c : Byte) (rest : List Byte)
    (si j : Nat) (dbuf : List Nat) (hj : j < 4) (hc : enc.decodeAt c ≠ 0xFF) :
    enc.readLoop srcLen (c :: rest) si j dbuf
      = enc.readLoop srcLen rest (si + 1) (j + 1) (dbuf.set j (enc.decodeAt c)) := by
  have h1 : ¬ ¬ j < 4 := not_not.mpr hj
  simp only [Encoding.readLoop, if_neg h1, if_pos hc]

theorem readLoop_newline (enc : Encoding) (srcLen : Nat) (c : Byte) (rest : List Byte)
    (si j : Nat) (dbuf : List Nat) (hj : j < 4) (hc : enc.decodeAt c = 0xFF)
    (hn : isNewline c) :
    enc.readLoop srcLen (c :: rest) si j dbuf = enc.readLoop srcLen rest (si + 1) j dbuf := by
  have h1 : ¬ ¬ j < 4 := not_not.mpr hj
  have h2 : ¬ enc.decodeAt c ≠ 0xFF := not_not.mpr hc
  have h3 : c.val = 10 ∨ c.val = 13 := hn
  simp only [Encoding.readLoop, if_neg h1, if_neg h2, if_pos h3]

/-- Four alphabet characters fill the buffer of `decodeQuantum`. -/
theorem readLoop_four (enc : Encoding) (srcLen : Nat) (c0 c1 c2 c3 : Byte) (rest : List Byte)
    (si : Nat) (h0 : enc.decodeAt c0 ≠ 0xFF) (h1 : enc.decodeAt c1 ≠ 0xFF)
    (h2 : enc.decodeAt c2 ≠ 0xFF) (h3 : enc.decodeAt c3 ≠ 0xFF) :
    enc.readLoop srcLen (c0 :: c1 :: c2 :: c3 :: rest) si 0 [0, 0, 0, 0]
      = .done (si + 4) [enc.decodeAt c0, enc.decodeAt c1, enc.decodeAt c2, enc.decodeAt c3]
          4 none := by
  rw [readLoop_alpha _ _ _ _ _ _ _ (by omega) h0, readLoop_alpha _ _ _ _ _ _ _ (by omega) h1,
    readLoop_alpha _ _ _ _ _ _ _ (by omega) h2, readLoop_alpha _ _ _ _ _ _ _ (by omega) h3,
    readLoop_full]
  rfl

/-- A final group of two characters without padding. -/
theorem readLoop_raw2 (enc : Encoding) (srcLen : Nat) (c0 c1 : Byte) (si : Nat)
    (hp : enc.padChar = NoPadding)
    (h0 : enc.decodeAt c0 ≠ 0xFF) (h1 : enc.decodeAt c1 ≠ 0xFF) :
    enc.readLoop srcLen [c0, c1] si 0 [0, 0, 0, 0]
      = .done (si + 2) [enc.decodeAt c0, enc.decodeAt c1, 0, 0] 2 none := by
  rw [readLoop_alpha _ _ _ _ _ _ _ (by omega) h0, readLoop_alpha _ _ _ _ _ _ _ (by omega) h1]
  simp [Encoding.readLoop, hp]

/-- A final group of three characters without padding. -/
theorem readLoop_raw3 (enc : Encoding) (srcLen : Nat) (c0 c1 c2 : Byte) (si : Nat)
    (hp : enc.padChar = NoPadding)
    (h0 : enc.decodeAt c0 ≠ 0xFF) (h1 : enc.decodeAt c1 ≠ 0xFF) (h2 : enc.decodeAt c2 ≠ 0xFF) :
    enc.readLoop srcLen [c0, c1, c2] si 0 [0, 0, 0, 0]
      = .done (si + 3) [enc.decodeAt c0, enc.decodeAt c1, enc.decodeAt c2, 0] 3 none := by
  rw [readLoop_alpha _ _ _ _ _ _ _ (by omega) h0, readLoop_alpha _ _ _ _ _ _ _ (by omega) h1,
    readLoop_alpha _ _ _ _ _ _ _ (by omega) h2]
  simp [Encoding.readLoop, hp]

/-- A final group of two characters and two padding characters. -/
theorem readLoop_pad2 (enc : Encoding) (srcLen : Nat) (c0 c1 p : Byte) (si : Nat)
    (hp : (p.val : Int) = enc.padChar) (hpa : enc.decodeAt p = 0xFF) (hpn : ¬ isNewline p)
    (h0 : enc.decodeAt c0 ≠ 0xFF) (h1 : enc.decodeAt c1 ≠ 0xFF) :
    enc.readLoop srcLen [c0, c1, p, p] si 0 [0, 0, 0, 0]
      = .done (si + 4) [enc.decodeAt c0, enc.decodeAt c1, 0, 0] 2 none := by
  rw [readLoop_alpha _ _ _ _ _ _ _ (by omega) h0, readLoop_alpha _ _ _ _ _ _ _ (by omega) h1]
  have hn : ¬ (p.val = 10 ∨ p.val = 13) := hpn
  simp [Encoding.readLoop, hp, hpa, hn, skipNewlines]

/-- A final group of three characters and one padding character. -/
theorem readLoop_pad3 (enc : Encoding) (srcLen : Nat) (c0 c1 c2 p : Byte) (si : Nat)
    (hp : (p.val : Int) = enc.padChar) (hpa : enc.decodeAt p = 0xFF) (hpn : ¬ isNewline p)
    (h0 : enc.decodeAt c0 ≠ 0xFF) (h1 : enc.decodeAt c1 ≠ 0xFF) (h2 : enc.decodeAt c2 ≠ 0xFF) :
    enc.readLoop srcLen [c0, c1, c2, p] si 0 [0, 0, 0, 0]
      = .done (si + 4) [enc.decodeAt c0, enc.decodeAt c1, enc.decodeAt c2, 0] 3 none := by
  rw [readLoop_alpha _ _ _ _ _ _ _ (by omega) h0, readLoop_alpha _ _ _ _ _ _ _ (by omega) h1,
    readLoop_alpha _ _ _ _ _ _ _ (by omega) h2]
  have hn : ¬ (p.val = 10 ∨ p.val = 13) := hpn
  simp [Encoding.readLoop, hp, hpa, hn, skipNewlines]

theorem readSpec_cons_alpha (enc : Encoding) (hs : enc.Sound) (c : Byte) (rest : List Byte)
    (si j : Nat) (r : ReadResult) (hc : enc.Alpha c)
    (h : ReadSpec enc rest (si + 1) (j + 1) r) : ReadSpec enc (c :: rest) si j r := by
  have hn : ¬ isNewline c := hs.not_newline hc
  cases r with
  | ret nsi err =>
    obtain ⟨⟨consumed, rest', h1, h2, _⟩, h4⟩ := h
    refine ⟨⟨c :: consumed, rest', by rw [h1]; rfl, by rw [h2, List.length_cons]; omega,
      fun _ => List.cons_ne_nil _ _⟩, fun he => ?_⟩
    have := (h4 he).1
    omega
  | done nsi dbuf dlen err =>
    obtain ⟨consumed, rest', h1, h2, h3⟩ := h
    refine ⟨c :: consumed, rest', by rw [h1]; rfl, by rw [h2, List.length_cons]; omega, ?_⟩
    rw [strip_cons_of_not c consumed hn]
    rcases h3 with ⟨a1, a2, a3, a4⟩ | ⟨a1, a2, a3, a4, a5, a6, a7⟩ |
      ⟨a1, a2, a3, a4, body, a5, a6, a7⟩
    · refine Or.inl ⟨a1, a2, ?_, by rw [List.length_cons]; omega⟩
      intro x hx
      rcases List.mem_cons.mp hx with hx | hx
      · rw [hx]; exact hc
      · exact a3 x hx
    · refine Or.inr (Or.inl ⟨a1, a2, a3, a4, a5, ?_, by rw [List.length_cons]; omega⟩)
      intro x hx
      rcases List.mem_cons.mp hx with hx | hx
      · rw [hx]; exact hc
      · exact a6 x hx
    · refine Or.inr (Or.inr ⟨a1, a2, a3, a4, c :: body, by rw [a5]; rfl, ?_,
        by rw [List.length_cons]; omega⟩)
      intro x hx
      rcases List.mem_cons.mp hx with hx | hx
      · rw [hx]; exact hc
      · exact a6 x hx

theorem readSpec_cons_newline (enc : Encoding) (c : Byte) (rest : List Byte)
    (si j : Nat) (r : ReadResult) (hn : isNewline c)
    (h : ReadSpec enc rest (si + 1) j r) : ReadSpec enc (c :: rest) si j r := by
  cases r with
  | ret nsi err =>
    obtain ⟨⟨consumed, rest', h1, h2, _⟩, h4⟩ := h
    refine ⟨⟨c :: consumed, rest', by rw [h1]; rfl, by rw [h2, List.length_cons]; omega,
      fun _ => List.cons_ne_nil _ _⟩, fun he => ?_⟩
    obtain ⟨b1, b2, b3⟩ := h4 he
    refine ⟨b1, by rw [b2, List.length_cons]; omega, ?_⟩
    rw [strip_cons_newline c rest hn]; exact b3
  | done nsi dbuf dlen err =>
    obtain ⟨consumed, rest', h1, h2, h3⟩ := h
    refine ⟨c :: consumed, rest', by rw [h1]; rfl, by rw [h2, List.length_cons]; omega, ?_⟩
    rw [strip_cons_newline c consumed hn]
    exact h3

theorem pad_facts (enc : Encoding) (hs : enc.Sound) (c : Byte)
    (h : (c.val : Int) = enc.padChar) :
    ¬ isNewline c ∧ enc.padByte = c ∧ enc.padChar ≠ NoPadding := by
  refine ⟨?_, padByte_eq h, padChar_ne_of_eq h⟩
  rcases hs.pad with hp | ⟨hp, _⟩
  · exact absurd hp (padChar_ne_of_eq h)
  · rw [hp] at h
    unfold StdPadding at h
    unfold isNewline
    omega

/-- The character loop of `decodeQuantum` meets `ReadSpec`. -/
theorem readLoop_spec (enc : Encoding) (hs : enc.Sound) (srcLen : Nat) :
    ∀ (rest : List Byte) (si j : Nat) (dbuf : List Nat), j ≤ 4 →
      ReadSpec enc rest si j (enc.readLoop srcLen rest si j dbuf) := by
  intro rest
  induction rest with
  | nil =>
    intro si j dbuf hj
    unfold Encoding.readLoop
    by_cases h1 : ¬ j < 4
    · rw [if_pos h1]
      exact ⟨[], [], rfl, rfl, Or.inl ⟨rfl, rfl, fun x hx => absurd hx (List.not_mem_nil x),
        by rw [strip_nil, List.length_nil]; omega⟩⟩
    rw [if_neg h1]
    by_cases h2 : j = 0
    · rw [if_pos h2]
      exact ⟨⟨[], [], rfl, rfl, fun h => absurd rfl h⟩, fun _ => ⟨h2, rfl, rfl⟩⟩
    rw [if_neg h2]
    by_cases h3 : j = 1 ∨ enc.padChar ≠ NoPadding
    · rw [if_pos h3]
      exact ⟨⟨[], [], rfl, rfl, fun h => absurd rfl h⟩, fun h => by cases h⟩
    rw [if_neg h3]
    have hp : enc.padChar = NoPadding := by
      by_contra hp
      exact h3 (Or.inr hp)
    exact ⟨[], [], rfl, rfl, Or.inr (Or.inl ⟨by omega, by omega, hp, rfl, rfl,
      fun x hx => absurd hx (List.not_mem_nil x), by rw [strip_nil, List.length_nil]; omega⟩)⟩
  | cons c rest ih =>
    intro si j dbuf hj
    unfold Encoding.readLoop
    by_cases h1 : ¬ j < 4
    · rw [if_pos h1]
      exact ⟨[], c :: rest, rfl, rfl, Or.inl ⟨rfl, rfl,
        fun x hx => absurd hx (List.not_mem_nil x), by rw [strip_nil, List.length_nil]; omega⟩⟩
    rw [if_neg h1]
    simp only
    by_cases h2 : enc.decodeAt c ≠ 0xFF
    · rw [if_pos h2]
      exact readSpec_cons_alpha enc hs c rest si j _ h2 (ih (si + 1) (j + 1) _ (by omega))
    rw [if_neg h2]
    by_cases h3 : c.val = 10 ∨ c.val = 13
    · rw [if_pos h3]
      exact readSpec_cons_newline enc c rest si j _ h3 (ih (si + 1) j _ hj)
    rw [if_neg h3]
    by_cases h4 : (c.val : Int) ≠ enc.padChar
    · rw [if_pos h4]
      exact ⟨⟨[c], rest, rfl, rfl, fun _ => List.cons_ne_nil _ _⟩, fun h => by cases h⟩
    rw [if_neg h4]
    have h4' : (c.val : Int) = enc.padChar := not_not.mp h4
    obtain ⟨hcn, hcp, hpn⟩ := pad_facts enc hs c h4'
    by_cases h5 : j = 0 ∨ j = 1
    · rw [if_pos h5]
      exact ⟨⟨[c], rest, rfl, rfl, fun _ => List.cons_ne_nil _ _⟩, fun h => by cases h⟩
    rw [if_neg h5]
    obtain ⟨sk, k1, k2, k3⟩ := skipNewlines_spec rest (si + 1)
    by_cases h6 : j = 2
    · rw [if_pos h6]
      rcases hsk : skipNewlines rest (si + 1) with ⟨r1, si1⟩
      rw [hsk] at k1 k2
      simp only at k1 k2
      cases r1 with
      | nil =>
        simp only
        exact ⟨⟨c :: sk, [], by rw [k1]; rfl, by rw [k2, List.length_cons]; omega,
          fun _ => List.cons_ne_nil _ _⟩, fun h => by cases h⟩
      | cons c1 rest1 =>
        simp only
        by_cases h7 : (c1.val : Int) ≠ enc.padChar
        · rw [if_pos h7]
          exact ⟨⟨c :: sk, c1 :: rest1, by rw [k1]; rfl, by rw [k2, List.length_cons]; omega,
            fun _ => List.cons_ne_nil _ _⟩, fun h => by cases h⟩
        rw [if_neg h7]
        have h7' : (c1.val : Int) = enc.padChar := not_not.mp h7
        obtain ⟨hc1n, hc1p, _⟩ := pad_facts enc hs c1 h7'
        obtain ⟨sk2, m1, m2, m3⟩ := skipNewlines_spec rest1 (si1 + 1)
        have hshape : strip (c :: (sk ++ c1 :: sk2)) = List.replicate (4 - j) enc.padByte := by
          rw [strip_cons_of_not c _ hcn, strip_append, k3, List.nil_append,
            strip_cons_of_not c1 _ hc1n, m3, h6, hcp, ← hc1p, hcp]
          rfl
        rcases hsk2 : skipNewlines rest1 (si1 + 1) with ⟨r2, si2⟩
        rw [hsk2] at m1 m2
        simp only at m1 m2
        have hcons : c :: rest = c :: (sk ++ c1 :: sk2) ++ r2 := by
          rw [k1, m1]
          simp
        have hlen : si2 = si + (c :: (sk ++ c1 :: sk2)).length := by
          rw [m2, k2]
          simp only [List.length_cons, List.length_append]
          omega
        cases r2 with
        | nil =>
          simp only
          exact ⟨c :: (sk ++ c1 :: sk2), [], hcons, hlen, Or.inr (Or.inr ⟨by omega, by omega,
            hpn, fun _ => rfl, [], hshape,
            fun x hx => absurd hx (List.not_mem_nil x), by rw [List.length_nil]; omega⟩)⟩
        | cons c2 rest2 =>
          simp only
          exact ⟨c :: (sk ++ c1 :: sk2), c2 :: rest2, hcons, hlen, Or.inr (Or.inr ⟨by omega,
            by omega, hpn, (fun h => by cases h), [], hshape,
            fun x hx => absurd hx (List.not_mem_nil x), by rw [List.length_nil]; omega⟩)⟩
    · rw [if_neg h6]
      have hj3 : j = 3 := by omega
      have hshape : strip (c :: sk) = List.replicate (4 - j) enc.padByte := by
        rw [strip_cons_of_not c _ hcn, k3, hj3, hcp]
        rfl
      rcases hsk : skipNewlines rest (si + 1) with ⟨r1, si1⟩
      rw [hsk] at k1 k2
      simp only at k1 k2
      have hcons : c :: rest = c :: sk ++ r1 := by rw [k1]; rfl
      have hlen : si1 = si + (c :: sk).length := by rw [k2, List.length_cons]; omega
      cases r1 with
      | nil =>
        simp only
        exact ⟨c :: sk, [], hcons, hlen, Or.inr (Or.inr ⟨by omega, by omega,
          hpn, fun _ => rfl, [], hshape,
          fun x hx => absurd hx (List.not_mem_nil x), by rw [List.length_nil]; omega⟩)⟩
      | cons c2 rest2 =>
        simp only
        exact ⟨c :: sk, c2 :: rest2, hcons, hlen, Or.inr (Or.inr ⟨by omega,
          by omega, hpn, (fun h => by cases h), [], hshape,
          fun x hx => absurd hx (List.not_mem_nil x), by rw [List.length_nil]; omega⟩)⟩

/-! ### The fast paths of `Decode` -/

set_option maxRecDepth 100000 in
theorem or_255 : ∀ a : Fin 256, a.val ||| 255 = 255 ∧ 255 ||| a.val = 255 := by decide

/-- The bitwise or of two table values is `0xFF` exactly when one of them is. -/
theorem or_ff (a b : Nat) (ha : a < 64 ∨ a = 255) (hb : b < 64 ∨ b = 255) :
    (a ||| b < 64 ∧ a < 64 ∧ b < 64) ∨ a ||| b = 255 := by
  rcases ha with ha | ha
  · rcases hb with hb | hb
    · exact Or.inl ⟨@Nat.or_lt_two_pow a b 6 ha hb, ha, hb⟩
    · exact Or.inr (by rw [hb]; exact (or_255 ⟨a, by omega⟩).1)
  · rcases hb with hb | hb
    · exact Or.inr (by rw [ha]; exact (or_255 ⟨b, by omega⟩).2)
    · exact Or.inr (by rw [ha, hb]; rfl)

theorem or_step (x n k k' : Nat) (hk : k' = k + 6) (hn : n < 64) :
    (x <<< k') ||| (n <<< k) = (x * 64 + n) <<< k := by
  subst hk
  have hb : n * 2 ^ k < 2 ^ (k + 6) := by
    rw [Nat.pow_add]
    have : 0 < 2 ^ k := Nat.pow_pos (by decide)
    nlinarith
  rw [Nat.shiftLeft_eq n k, Stringhash.shl_or x (n * 2 ^ k) (k + 6) hb, Nat.shiftLeft_eq,
    Nat.pow_add]
  ring

theorem assemble32_some (n1 n2 n3 n4 dn : Nat) (h1 : n1 < 64 ∨ n1 = 255)
    (h2 : n2 < 64 ∨ n2 = 255) (h3 : n3 < 64 ∨ n3 = 255) (h4 : n4 < 64 ∨ n4 = 255)
    (h : assemble32 n1 n2 n3 n4 = some dn) :
    n1 < 64 ∧ n2 < 64 ∧ n3 < 64 ∧ n4 < 64 ∧
      dn = (n1 * 262144 + n2 * 4096 + n3 * 64 + n4) * 256 := by
  unfold assemble32 at h
  split_ifs at h with hff
  rcases or_ff n1 n2 h1 h2 with ⟨a1, b1, b2⟩ | a1
  swap
  · rcases or_ff _ n3 (Or.inr a1) h3 with ⟨c1, c2, _⟩ | c1
    · omega
    · rcases or_ff _ n4 (Or.inr c1) h4 with ⟨d1, d2, _⟩ | d1
      · omega
      · exact absurd d1 hff
  rcases or_ff _ n3 (Or.inl a1) h3 with ⟨a2, _, b3⟩ | a2
  swap
  · rcases or_ff _ n4 (Or.inr a2) h4 with ⟨d1, d2, _⟩ | d1
    · omega
    · exact absurd d1 hff
  rcases or_ff _ n4 (Or.inl a2) h4 with ⟨a3, _, b4⟩ | a3
  swap
  · exact absurd a3 hff
  refine ⟨b1, b2, b3, b4, ?_⟩
  have hd := (Option.some.inj h).symm
  rw [or_step n1 n2 20 26 rfl b2, or_step _ n3 14 20 rfl b3, or_step _ n4 8 14 rfl b4,
    Nat.shiftLeft_eq] at hd
  rw [hd]
  omega

theorem or_cl (a b : Nat) (ha : a < 64 ∨ a = 255) (hb : b < 64 ∨ b = 255) :
    a ||| b < 64 ∨ a ||| b = 255 := by
  rcases or_ff a b ha hb with ⟨h, _, _⟩ | h
  · exact Or.inl h
  · exact Or.inr h

theorem or_lt (a b : Nat) (ha : a < 64 ∨ a = 255) (hb : b < 64 ∨ b = 255)
    (h : a ||| b < 64) : a < 64 ∧ b < 64 := by
  rcases or_ff a b ha hb with ⟨_, h1, h2⟩ | h'
  · exact ⟨h1, h2⟩
  · omega

theorem assemble64_some (n1 n2 n3 n4 n5 n6 n7 n8 dn : Nat) (h1 : n1 < 64 ∨ n1 = 255)
    (h2 : n2 < 64 ∨ n2 = 255) (h3 : n3 < 64 ∨ n3 = 255) (h4 : n4 < 64 ∨ n4 = 255)
    (h5 : n5 < 64 ∨ n5 = 255) (h6 : n6 < 64 ∨ n6 = 255) (h7 : n7 < 64 ∨ n7 = 255)
    (h8 : n8 < 64 ∨ n8 = 255) (h : assemble64 n1 n2 n3 n4 n5 n6 n7 n8 = some dn) :
    n1 < 64 ∧ n2 < 64 ∧ n3 < 64 ∧ n4 < 64 ∧ n5 < 64 ∧ n6 < 64 ∧ n7 < 64 ∧ n8 < 64 ∧
      dn = ((n1 * 262144 + n2 * 4096 + n3 * 64 + n4) * 16777216 +
        (n5 * 262144 + n6 * 4096 + n7 * 64 + n8)) * 65536 := by
  unfold assemble64 at h
  split_ifs at h with hff
  have c1 := or_cl n1 n2 h1 h2
  have c2 := or_cl _ n3 c1 h3
  have c3 := or_cl _ n4 c2 h4
  have c4 := or_cl _ n5 c3 h5
  have c5 := or_cl _ n6 c4 h6
  have c6 := or_cl _ n7 c5 h7
  have c7 := or_cl _ n8 c6 h8
  have l7 := or_lt _ n8 c6 h8 (by omega)
  have l6 := or_lt _ n7 c5 h7 l7.1
  have l5 := or_lt _ n6 c4 h6 l6.1
  have l4 := or_lt _ n5 c3 h5 l5.1
  have l3 := or_lt _ n4 c2 h4 l4.1
  have l2 := or_lt _ n3 c1 h3 l3.1
  have l1 := or_lt n1 n2 h1 h2 l2.1
  refine ⟨l1.1, l1.2, l2.2, l3.2, l4.2, l5.2, l6.2, l7.2, ?_⟩
  have hd := (Option.some.inj h).symm
  rw [or_step n1 n2 52 58 rfl l1.2, or_step _ n3 46 52 rfl l2.2, or_step _ n4 40 46 rfl l3.2,
    or_step _ n5 34 40 rfl l4.2, or_step _ n6 28 34 rfl l5.2, or_step _ n7 22 28 rfl l6.2,
    or_step _ n8 16 22 rfl l7.2, Nat.shiftLeft_eq] at hd
  rw [hd]
  omega

theorem byteOf_congr (a b : Nat) (h : a % 256 = b % 256) : byteOf a = byteOf b :=
  Fin.ext h

theorem Encoding.Sound.range {enc : Encoding} (hs : enc.Sound) (c : Byte) :
    enc.decodeAt c < 64 ∨ enc.decodeAt c = 255 := by
  by_cases h : enc.decodeAt c = 0xFF
  · exact Or.inr h
  · exact Or.inl (hs.lt c h)

/-- On four alphabet characters `decodeQuantum` writes three bytes and returns
no error. -/
theorem quantumStep_four (enc : Encoding) (cap : Nat) (src : List Byte) (st : DecState)
    (c0 c1 c2 c3 : Byte) (rest : List Byte)
    (hd : src.drop st.si = c0 :: c1 :: c2 :: c3 :: rest)
    (h0 : enc.decodeAt c0 ≠ 0xFF) (h1 : enc.decodeAt c1 ≠ 0xFF)
    (h2 : enc.decodeAt c2 ≠ 0xFF) (h3 : enc.decodeAt c3 ≠ 0xFF)
    (hcap : 2 < cap - st.dst.length) :
    enc.quantumStep cap src st = .ok (.next ⟨st.si + 4, st.dst ++
      [byteOf (((enc.decodeAt c0 <<< 18) ||| (enc.decodeAt c1 <<< 12) |||
          (enc.decodeAt c2 <<< 6) ||| enc.decodeAt c3) >>> 16),
        byteOf (((enc.decodeAt c0 <<< 18) ||| (enc.decodeAt c1 <<< 12) |||
          (enc.decodeAt c2 <<< 6) ||| enc.decodeAt c3) >>> 8),
        byteOf (((enc.decodeAt c0 <<< 18) ||| (enc.decodeAt c1 <<< 12) |||
          (enc.decodeAt c2 <<< 6) ||| enc.decodeAt c3) >>> 0)]⟩) := by
  unfold Encoding.quantumStep Encoding.decodeQuantum
  rw [hd, readLoop_four enc _ c0 c1 c2 c3 rest st.si h0 h1 h2 h3]
  simp only [if_true, if_pos hcap, List.getD_cons_zero, List.getD_cons_succ]

theorem shift_bytes32 (v : Nat) :
    byteOf (v >>> 16) = byteOf ((v * 256) >>> 24) ∧ byteOf (v >>> 8) = byteOf ((v * 256) >>> 16) ∧
      byteOf (v >>> 0) = byteOf ((v * 256) >>> 8) := by
  refine ⟨?_, ?_, ?_⟩ <;> apply byteOf_congr <;>
    simp only [Nat.shiftRight_zero, Nat.shiftRight_eq_div_pow] <;> omega

/-- The 32-bit fast path of `Decode` does what `decodeQuantum` does. -/
theorem fast32 (enc : Encoding) (hs : enc.Sound) (cap : Nat) (src : List Byte) (st : DecState)
    (dn : Nat) (hlen : src.length - st.si ≥ 4) (hcap : cap - st.dst.length ≥ 4)
    (h : assemble32 (enc.decodeAt (((src.drop st.si).take 4).getD 0 0))
      (enc.decodeAt (((src.drop st.si).take 4).getD 1 0))
      (enc.decodeAt (((src.drop st.si).take 4).getD 2 0))
      (enc.decodeAt (((src.drop st.si).take 4).getD 3 0)) = some dn) :
    enc.quantumStep cap src st = .ok (.next ⟨st.si + 4, st.dst ++
      [byteOf (dn >>> 24), byteOf (dn >>> 16), byteOf (dn >>> 8)]⟩) := by
  have hl : (src.drop st.si).length = src.length - st.si := List.length_drop _ _
  rcases hdr : src.drop st.si with _ | ⟨c0, _ | ⟨c1, _ | ⟨c2, _ | ⟨c3, rest⟩⟩⟩⟩
  all_goals rw [hdr] at hl h
  all_goals simp only [List.length_nil, List.length_cons] at hl
  all_goals try omega
  simp only [List.take_succ_cons, List.take_zero, List.getD_cons_zero, List.getD_cons_succ] at h
  obtain ⟨a0, a1, a2, a3, hdn⟩ := assemble32_some _ _ _ _ dn (hs.range c0) (hs.range c1)
    (hs.range c2) (hs.range c3) h
  rw [quantumStep_four enc cap src st c0 c1 c2 c3 rest hdr (by omega) (by omega) (by omega)
    (by omega) (by omega), Stringhash.or4 _ _ _ _ a1 a2 a3, hdn]
  obtain ⟨e1, e2, e3⟩ := shift_bytes32 (enc.decodeAt c0 * 262144 + enc.decodeAt c1 * 4096 +
    enc.decodeAt c2 * 64 + enc.decodeAt c3)
  rw [e1, e2, e3]

theorem shift_bytes64 (v w : Nat) (hw : w < 16777216) :
    byteOf (v >>> 16) = byteOf (((v * 16777216 + w) * 65536) >>> 56) ∧
    byteOf (v >>> 8) = byteOf (((v * 16777216 + w) * 65536) >>> 48) ∧
    byteOf (v >>> 0) = byteOf (((v * 16777216 + w) * 65536) >>> 40) ∧
    byteOf (w >>> 16) = byteOf (((v * 16777216 + w) * 65536) >>> 32) ∧
    byteOf (w >>> 8) = byteOf (((v * 16777216 + w) * 65536) >>> 24) ∧
    byteOf (w >>> 0) = byteOf (((v * 16777216 + w) * 65536) >>> 16) := by
  refine ⟨?_, ?_, ?_, ?_, ?_, ?_⟩ <;> apply byteOf_congr <;>
    simp only [Nat.shiftRight_zero, Nat.shiftRight_eq_div_pow] <;> omega

/-- The 64-bit fast path of `Decode` does what two calls of `decodeQuantum` do. -/
theorem fast64 (enc : Encoding) (hs : enc.Sound) (cap : Nat) (src : List Byte) (st : DecState)
    (dn : Nat) (hlen : src.length - st.si ≥ 8) (hcap : cap - st.dst.length ≥ 8)
    (h : assemble64 (enc.decodeAt (((src.drop st.si).take 8).getD 0 0))
      (enc.decodeAt (((src.drop st.si).take 8).getD 1 0))
      (enc.decodeAt (((src.drop st.si).take 8).getD 2 0))
      (enc.decodeAt (((src.drop st.si).take 8).getD 3 0))
      (enc.decodeAt (((src.drop st.si).take 8).getD 4 0))
      (enc.decodeAt (((src.drop st.si).take 8).getD 5 0))
      (enc.decodeAt (((src.drop st.si).take 8).getD 6 0))
      (enc.decodeAt (((src.drop st.si).take 8).getD 7 0)) = some dn) :
    ∃ mid : DecState, enc.quantumStep cap src st = .ok (.next mid) ∧ mid.si = st.si + 4 ∧
      enc.quantumStep cap src mid = .ok (.next ⟨st.si + 8, st.dst ++
        [byteOf (dn >>> 56), byteOf (dn >>> 48), byteOf (dn >>> 40), byteOf (dn >>> 32),
          byteOf (dn >>> 24), byteOf (dn >>> 16)]⟩) := by
  have hl : (src.drop st.si).length = src.length - st.si := List.length_drop _ _
  rcases hdr : src.drop st.si with
    _ | ⟨c0, _ | ⟨c1, _ | ⟨c2, _ | ⟨c3, _ | ⟨c4, _ | ⟨c5, _ | ⟨c6, _ | ⟨c7, rest⟩⟩⟩⟩⟩⟩⟩⟩
  all_goals rw [hdr] at hl h
  all_goals simp only [List.length_nil, List.length_cons] at hl
  all_goals try omega
  simp only [List.take_succ_cons, List.take_zero, List.getD_cons_zero, List.getD_cons_succ] at h
  obtain ⟨a0, a1, a2, a3, a4, a5, a6, a7, hdn⟩ := assemble64_some _ _ _ _ _ _ _ _ dn
    (hs.range c0) (hs.range c1) (hs.range c2) (hs.range c3) (hs.range c4) (hs.range c5)
    (hs.range c6) (hs.range c7) h
  have hdr2 : src.drop (st.si + 4) = c4 :: c5 :: c6 :: c7 :: rest := by
    rw [← List.drop_drop, hdr]
    rfl
  obtain ⟨e1, e2, e3, e4, e5, e6⟩ := shift_bytes64
    (enc.decodeAt c0 * 262144 + enc.decodeAt c1 * 4096 + enc.decodeAt c2 * 64 + enc.decodeAt c3)
    (enc.decodeAt c4 * 262144 + enc.decodeAt c5 * 4096 + enc.decodeAt c6 * 64 + enc.decodeAt c7)
    (by omega)
  refine ⟨_, quantumStep_four enc cap src st c0 c1 c2 c3 _ hdr (by omega) (by omega) (by omega)
    (by omega) (by omega), rfl, ?_⟩
  rw [quantumStep_four enc cap src _ c4 c5 c6 c7 rest hdr2 (by omega) (by omega) (by omega)
    (by omega) (by simp only [List.length_append, List.length_cons, List.length_nil]; omega),
    Stringhash.or4 _ _ _ _ a1 a2 a3, Stringhash.or4 _ _ _ _ a5 a6 a7, hdn,
    e1, e2, e3, e4, e5, e6, List.append_assoc]
  rfl

/-! ### The loops of `Decode` -/

/-- The first loop of `Decode` keeps an invariant `P` that every call of
`decodeQuantum` keeps, and returns only what `decodeQuantum` returns. -/
theorem loop64_spec (enc : Encoding) (hs : enc.Sound) (cap : Nat) (src : List Byte)
    (P : DecState → Prop) (R : List Byte → DecodeError → Prop)
    (hq : ∀ st, P st → st.si < src.length →
      (∃ st', enc.quantumStep cap src st = .ok (.next st') ∧ P st' ∧ st.si < st'.si) ∨
      (∃ d e, enc.quantumStep cap src st = .ok (.ret d e) ∧ R d e)) :
    ∀ (fuel : Nat) (st : DecState), P st → src.length - st.si ≤ fuel →
      (∃ st', enc.loop64 cap src fuel st = .ok (.next st') ∧ P st' ∧ st.si ≤ st'.si) ∨
      (∃ d e, enc.loop64 cap src fuel st = .ok (.ret d e) ∧ R d e) := by
  intro fuel
  induction fuel with
  | zero =>
    intro st hP hf
    have hc : ¬ (src.length - st.si ≥ 8 ∧ cap - st.dst.length ≥ 8) := by omega
    exact Or.inl ⟨st, by simp only [Encoding.loop64, if_neg hc], hP, Nat.le_refl _⟩
  | succ fuel ih =>
    intro st hP hf
    by_cases hc : src.length - st.si ≥ 8 ∧ cap - st.dst.length ≥ 8
    swap
    · exact Or.inl ⟨st, by simp only [Encoding.loop64, if_neg hc], hP, Nat.le_refl _⟩
    simp only [Encoding.loop64, if_pos hc]
    split
    · rename_i dn hdn
      obtain ⟨mid, m1, m2, m3⟩ := fast64 enc hs cap src st dn hc.1 hc.2 hdn
      have hPmid : P mid := by
        rcases hq st hP (by omega) with ⟨st', q1, q2, _⟩ | ⟨d, e, q1, _⟩
        · rw [m1] at q1
          injection q1 with q1
          injection q1 with q1
          rw [q1]; exact q2
        · rw [m1] at q1
          injection q1 with q1
          cases q1
      have hP2 : P ⟨st.si + 8, st.dst ++ [byteOf (dn >>> 56), byteOf (dn >>> 48),
          byteOf (dn >>> 40), byteOf (dn >>> 32), byteOf (dn >>> 24), byteOf (dn >>> 16)]⟩ := by
        rcases hq mid hPmid (by omega) with ⟨st', q1, q2, _⟩ | ⟨d, e, q1, _⟩
        · rw [m3] at q1
          injection q1 with q1
          injection q1 with q1
          rw [q1]; exact q2
        · rw [m3] at q1
          injection q1 with q1
          cases q1
      rcases ih _ hP2 (by simp only; omega) with ⟨st', r1, r2, r3⟩ | ⟨d, e, r1, r2⟩
      · exact Or.inl ⟨st', r1, r2, by simp only at r3; omega⟩
      · exact Or.inr ⟨d, e, r1, r2⟩
    · rcases hq st hP (by omega) with ⟨st', q1, q2, q3⟩ | ⟨d, e, q1, q2⟩
      · rw [q1]
        simp only
        rcases ih st' q2 (by omega) with ⟨st'', r1, r2, r3⟩ | ⟨d, e, r1, r2⟩
        · exact Or.inl ⟨st'', r1, r2, by omega⟩
        · exact Or.inr ⟨d, e, r1, r2⟩
      · rw [q1]
        exact Or.inr ⟨d, e, rfl, q2⟩

/-- The second loop of `Decode` keeps the same invariant. -/
theorem loop32_spec (enc : Encoding) (hs : enc.Sound) (cap : Nat) (src : List Byte)
    (P : DecState → Prop) (R : List Byte → DecodeError → Prop)
    (hq : ∀ st, P st → st.si < src.length →
      (∃ st', enc.quantumStep cap src st = .ok (.next st') ∧ P st' ∧ st.si < st'.si) ∨
      (∃ d e, enc.quantumStep cap src st = .ok (.ret d e) ∧ R d e)) :
    ∀ (fuel : Nat) (st : DecState), P st → src.length - st.si ≤ fuel →
      (∃ st', enc.loop32 cap src fuel st = .ok (.next st') ∧ P st' ∧ st.si ≤ st'.si) ∨
      (∃ d e, enc.loop32 cap src fuel st = .ok (.ret d e) ∧ R d e) := by
  intro fuel
  induction fuel with
  | zero =>
    intro st hP hf
    have hc : ¬ (src.length - st.si ≥ 4 ∧ cap - st.dst.length ≥ 4) := by omega
    exact Or.inl ⟨st, by simp only [Encoding.loop32, if_neg hc], hP, Nat.le_refl _⟩
  | succ fuel ih =>
    intro st hP hf
    by_cases hc : src.length - st.si ≥ 4 ∧ cap - st.dst.length ≥ 4
    swap
    · exact Or.inl ⟨st, by simp only [Encoding.loop32, if_neg hc], hP, Nat.le_refl _⟩
    simp only [Encoding.loop32, if_pos hc]
    split
    · rename_i dn hdn
      have m1 := fast32 enc hs cap src st dn hc.1 hc.2 hdn
      have hP2 : P ⟨st.si + 4, st.dst ++ [byteOf (dn >>> 24), byteOf (dn >>> 16),
          byteOf (dn >>> 8)]⟩ := by
        rcases hq st hP (by omega) with ⟨st', q1, q2, _⟩ | ⟨d, e, q1, _⟩
        · rw [m1] at q1
          injection q1 with q1
          injection q1 with q1
          rw [q1]; exact q2
        · rw [m1] at q1
          injection q1 with q1
          cases q1
      rcases ih _ hP2 (by simp only; omega) with ⟨st', r1, r2, r3⟩ | ⟨d, e, r1, r2⟩
      · exact Or.inl ⟨st', r1, r2, by simp only at r3; omega⟩
      · exact Or.inr ⟨d, e, r1, r2⟩
    · rcases hq st hP (by omega) with ⟨st', q1, q2, q3⟩ | ⟨d, e, q1, q2⟩
      · rw [q1]
        simp only
        rcases ih st' q2 (by omega) with ⟨st'', r1, r2, r3⟩ | ⟨d, e, r1, r2⟩
        · exact Or.inl ⟨st'', r1, r2, by omega⟩
        · exact Or.inr ⟨d, e, r1, r2⟩
      · rw [q1]
        exact Or.inr ⟨d, e, rfl, q2⟩

/-- The last loop of `Decode` keeps the invariant and ends at the end of the
source. -/
theorem loopTail_spec (enc : Encoding) (cap : Nat) (src : List Byte)
    (P : DecState → Prop) (R : List Byte → DecodeError → Prop)
    (hq : ∀ st, P st → st.si < src.length →
      (∃ st', enc.quantumStep cap src st = .ok (.next st') ∧ P st' ∧ st.si < st'.si) ∨
      (∃ d e, enc.quantumStep cap src st = .ok (.ret d e) ∧ R d e)) :
    ∀ (fuel : Nat) (st : DecState), P st → src.length - st.si ≤ fuel →
      (∃ st', enc.loopTail cap src fuel st = .ok (.next st') ∧ P st' ∧ src.length ≤ st'.si) ∨
      (∃ d e, enc.loopTail cap src fuel st = .ok (.ret d e) ∧ R d e) := by
  intro fuel
  induction fuel with
  | zero =>
    intro st hP hf
    have hc : ¬ st.si < src.length := by omega
    exact Or.inl ⟨st, by simp only [Encoding.loopTail, if_neg hc], hP, by omega⟩
  | succ fuel ih =>
    intro st hP hf
    by_cases hc : st.si < src.length
    swap
    · exact Or.inl ⟨st, by simp only [Encoding.loopTail, if_neg hc], hP, by omega⟩
    simp only [Encoding.loopTail, if_pos hc]
    rcases hq st hP hc with ⟨st', q1, q2, q3⟩ | ⟨d, e, q1, q2⟩
    · rw [q1]
      simp only
      exact ih st' q2 (by omega)
    · rw [q1]
      exact Or.inr ⟨d, e, rfl, q2⟩

/-- The method `Decode` with enough fuel returns: either what a call of
`decodeQuantum` returned with an error, or the bytes of a state that satisfies
the invariant at the end of the source, with no error. -/
theorem DecodeFuel_spec (enc : Encoding) (hs : enc.Sound) (cap : Nat) (src : List Byte)
    (P : DecState → Prop) (R : List Byte → DecodeError → Prop)
    (hq : ∀ st, P st → st.si < src.length →
      (∃ st', enc.quantumStep cap src st = .ok (.next st') ∧ P st' ∧ st.si < st'.si) ∨
      (∃ d e, enc.quantumStep cap src st = .ok (.ret d e) ∧ R d e))
    (h0 : P ⟨0, []⟩) (hne : src ≠ []) (fuel : Nat) (hf : src.length ≤ fuel) :
    ∃ d e, enc.DecodeFuel fuel cap src = .ok (d, e) ∧
      (R d e ∨ (e = none ∧ ∃ st, P st ∧ src.length ≤ st.si ∧ d = st.dst)) := by
  have hlen : ¬ src.length = 0 := fun h => hne (List.length_eq_zero.mp h)
  unfold Encoding.DecodeFuel
  rw [if_neg hlen]
  rcases loop64_spec enc hs cap src P R hq fuel ⟨0, []⟩ h0 (by simp only; omega) with
    ⟨st1, a1, a2, _⟩ | ⟨d, e, a1, a2⟩
  swap
  · rw [a1]
    exact ⟨d, e, rfl, Or.inl a2⟩
  rw [a1]
  simp only
  rcases loop32_spec enc hs cap src P R hq fuel st1 a2 (by omega) with
    ⟨st2, b1, b2, _⟩ | ⟨d, e, b1, b2⟩
  swap
  · rw [b1]
    exact ⟨d, e, rfl, Or.inl b2⟩
  rw [b1]
  simp only
  rcases loopTail_spec enc cap src P R hq fuel st2 b2 (by omega) with
    ⟨st3, c1, c2, c3⟩ | ⟨d, e, c1, c2⟩
  · rw [c1]
    exact ⟨st3.dst, none, rfl, Or.inr ⟨rfl, st3, c2, c3, rfl⟩⟩
  · rw [c1]
    exact ⟨d, e, rfl, Or.inl c2⟩

/-! ### Encoding, and decoding what was encoded -/

theorem encodeBytes_nil (enc : Encoding) : enc.encodeBytes [] = [] := by
  rw [Encoding.encodeBytes]

theorem encodeBytes_one (enc : Encoding) (a : Byte) : enc.encodeBytes [a] =
    [enc.encodeAt (((a.val <<< 16) >>> 18) &&& 0x3F),
      enc.encodeAt (((a.val <<< 16) >>> 12) &&& 0x3F)] ++
      (if enc.padChar ≠ NoPadding then [enc.padByte, enc.padByte] else []) := by
  rw [Encoding.encodeBytes]

theorem encodeBytes_two (enc : Encoding) (a b : Byte) : enc.encodeBytes [a, b] =
    [enc.encodeAt ((((a.val <<< 16) ||| (b.val <<< 8)) >>> 18) &&& 0x3F),
      enc.encodeAt ((((a.val <<< 16) ||| (b.val <<< 8)) >>> 12) &&& 0x3F),
      enc.encodeAt ((((a.val <<< 16) ||| (b.val <<< 8)) >>> 6) &&& 0x3F)] ++
      (if enc.padChar ≠ NoPadding then [enc.padByte] else []) := by
  rw [Encoding.encodeBytes]

theorem encodeBytes_three (enc : Encoding) (a b c : Byte) (rest : List Byte) :
    enc.encodeBytes (a :: b :: c :: rest) =
    [enc.encodeAt ((((a.val <<< 16) ||| (b.val <<< 8) ||| c.val) >>> 18) &&& 0x3F),
      enc.encodeAt ((((a.val <<< 16) ||| (b.val <<< 8) ||| c.val) >>> 12) &&& 0x3F),
      enc.encodeAt ((((a.val <<< 16) ||| (b.val <<< 8) ||| c.val) >>> 6) &&& 0x3F),
      enc.encodeAt (((a.val <<< 16) ||| (b.val <<< 8) ||| c.val) &&& 0x3F)] ++
      enc.encodeBytes rest := by
  rw [Encoding.encodeBytes]

theorem encodeBytes_length_aux (enc : Encoding) : ∀ (n : Nat) (data : List Byte),
    data.length ≤ n → (enc.encodeBytes data).length = enc.EncodedLen data.length := by
  intro n
  induction n using Nat.strong_induction_on with
  | _ n ih =>
    intro data hn
    rcases data with _ | ⟨a, _ | ⟨b, _ | ⟨c, rest⟩⟩⟩
    · rw [encodeBytes_nil]
      unfold Encoding.EncodedLen
      simp only [List.length_nil]
      split_ifs <;> omega
    · rw [encodeBytes_one]
      unfold Encoding.EncodedLen
      by_cases hp : enc.padChar = NoPadding
      · rw [if_neg (not_not.mpr hp), if_pos hp]
        simp only [List.length_append, List.length_cons, List.length_nil]
      · rw [if_pos hp, if_neg hp]
        simp only [List.length_append, List.length_cons, List.length_nil]
    · rw [encodeBytes_two]
      unfold Encoding.EncodedLen
      by_cases hp : enc.padChar = NoPadding
      · rw [if_neg (not_not.mpr hp), if_pos hp]
        simp only [List.length_append, List.length_cons, List.length_nil]
      · rw [if_pos hp, if_neg hp]
        simp only [List.length_append, List.length_cons, List.length_nil]
    · simp only [List.length_cons] at hn
      have h := ih rest.length (by omega) rest (Nat.le_refl _)
      rw [encodeBytes_three]
      simp only [List.length_append, List.length_cons, List.length_nil, h]
      unfold Encoding.EncodedLen
      split_ifs <;> omega

/-- The method `Encode` writes exactly `EncodedLen(len(src))` bytes. -/
theorem encodeBytes_length (enc : Encoding) (data : List Byte) :
    (enc.encodeBytes data).length = enc.EncodedLen data.length :=
  encodeBytes_length_aux enc data.length data (Nat.le_refl _)

/-- The method `Encode` on a destination of `EncodedLen(len(src))` bytes fills it
without a panic. -/
theorem Encode_ok (enc : Encoding) (data : List Byte) :
    enc.Encode (List.replicate (enc.EncodedLen data.length) 0) data
      = .ok (enc.encodeBytes data) := by
  unfold Encoding.Encode
  have h := encodeBytes_length enc data
  simp only [List.length_replicate, h, Nat.le_refl, if_true]
  rw [List.drop_of_length_le (by rw [List.length_replicate]), List.append_nil]

/-- A buffer of `DecodedLen(EncodedLen(n))` bytes holds `n` bytes. -/
theorem decodedLen_encodedLen (enc : Encoding) (n : Nat) :
    n ≤ enc.DecodedLen (enc.EncodedLen n) := by
  unfold Encoding.DecodedLen Encoding.EncodedLen
  split_ifs <;> omega

theorem unsextets1 (a : Byte) :
    byteOf ((((a.val / 4) <<< 18) ||| ((a.val % 4 * 16) <<< 12) ||| (0 <<< 6) ||| 0) >>> 16)
      = a := by
  have ha := a.isLt
  rw [Stringhash.or4 _ _ _ _ (by omega) (by omega) (by omega)]
  apply Fin.ext
  simp only [Stringhash.byteOf_val, Nat.shiftRight_eq_div_pow]
  omega

theorem unsextets2 (a b : Byte) :
    byteOf ((((a.val / 4) <<< 18) ||| ((a.val % 4 * 16 + b.val / 16) <<< 12) |||
      ((b.val % 16 * 4) <<< 6) ||| 0) >>> 16) = a ∧
    byteOf ((((a.val / 4) <<< 18) ||| ((a.val % 4 * 16 + b.val / 16) <<< 12) |||
      ((b.val % 16 * 4) <<< 6) ||| 0) >>> 8) = b := by
  have ha := a.isLt
  have hb := b.isLt
  rw [Stringhash.or4 _ _ _ _ (by omega) (by omega) (by omega)]
  refine ⟨?_, ?_⟩ <;> apply Fin.ext <;>
    simp only [Stringhash.byteOf_val, Nat.shiftRight_eq_div_pow] <;> omega

/-- A final group that leaves two values in the buffer gives one byte. -/
theorem quantumStep_tail2 (enc : Encoding) (cap : Nat) (src : List Byte) (st : DecState)
    (d0 d1 nsi : Nat)
    (hr : enc.readLoop src.length (src.drop st.si) st.si 0 [0, 0, 0, 0]
      = .done nsi [d0, d1, 0, 0] 2 none)
    (hcap : 0 < cap - st.dst.length) :
    enc.quantumStep cap src st = .ok (.next ⟨nsi, st.dst ++
      [byteOf (((d0 <<< 18) ||| (d1 <<< 12) ||| (0 <<< 6) ||| 0) >>> 16)]⟩) := by
  unfold Encoding.quantumStep Encoding.decodeQuantum
  rw [hr]
  simp [hcap]

/-- A final group that leaves three values in the buffer gives two bytes. -/
theorem quantumStep_tail3 (enc : Encoding) (cap : Nat) (src : List Byte) (st : DecState)
    (d0 d1 d2 nsi : Nat)
    (hr : enc.readLoop src.length (src.drop st.si) st.si 0 [0, 0, 0, 0]
      = .done nsi [d0, d1, d2, 0] 3 none)
    (hcap : 1 < cap - st.dst.length) :
    enc.quantumStep cap src st = .ok (.next ⟨nsi, st.dst ++
      [byteOf (((d0 <<< 18) ||| (d1 <<< 12) ||| (d2 <<< 6) ||| 0) >>> 16),
        byteOf (((d0 <<< 18) ||| (d1 <<< 12) ||| (d2 <<< 6) ||| 0) >>> 8)]⟩) := by
  unfold Encoding.quantumStep Encoding.decodeQuantum
  rw [hr]
  simp [hcap]

theorem Encoding.Sound.alpha_encodeAt {enc : Encoding} (hs : enc.Sound) (v : Nat)
    (hv : v < 64) : enc.decodeAt (enc.encodeAt v) = v ∧ enc.decodeAt (enc.encodeAt v) ≠ 0xFF := by
  have h := hs.inv ⟨v, hv⟩
  simp only at h
  rw [h]
  exact ⟨rfl, by omega⟩

theorem drop_of_drop_append (src : List Byte) (si : Nat) (l r : List Byte)
    (h : src.drop si = l ++ r) : src.drop (si + l.length) = r := by
  rw [← List.drop_drop, h, List.drop_left]

/-- One call of `decodeQuantum` on the encoding of the bytes `post` that remain
decodes the next group. -/
theorem quantumStep_encoded (enc : Encoding) (hs : enc.Sound) (cap : Nat) (src : List Byte)
    (st : DecState) (post : List Byte) (hpost : post ≠ [])
    (hd : src.drop st.si = enc.encodeBytes post) (hcap : st.dst.length + post.length ≤ cap) :
    ∃ group rest, post = group ++ rest ∧ group ≠ [] ∧
      enc.quantumStep cap src st = .ok (.next ⟨st.si + (enc.encodeBytes group).length,
        st.dst ++ group⟩) ∧ enc.encodeBytes post = enc.encodeBytes group ++ enc.encodeBytes rest := by
  rcases post with _ | ⟨a, _ | ⟨b, _ | ⟨c, rest⟩⟩⟩
  · exact absurd rfl hpost
  · -- one byte remains
    refine ⟨[a], [], rfl, List.cons_ne_nil _ _, ?_, by rw [encodeBytes_nil, List.append_nil]⟩
    obtain ⟨s0, s1⟩ := sextets1 a
    have ha := a.isLt
    obtain ⟨v0, w0⟩ := hs.alpha_encodeAt (a.val / 4) (by omega)
    obtain ⟨v1, w1⟩ := hs.alpha_encodeAt (a.val % 4 * 16) (by omega)
    rw [encodeBytes_one, s0, s1] at hd ⊢
    simp only [List.length_cons, List.length_nil] at hcap
    rcases hs.pad with hp | ⟨hp, hp61⟩
    · rw [if_neg (not_not.mpr hp)] at hd ⊢
      rw [List.append_nil] at hd ⊢
      have hr := readLoop_raw2 enc src.length _ _ st.si hp w0 w1
      rw [← hd] at hr
      rw [quantumStep_tail2 enc cap src st _ _ _ hr (by omega), v0, v1, unsextets1]
      rfl
    · have hpne : enc.padChar ≠ NoPadding := by rw [hp]; decide
      have hpb : enc.padByte = (61 : Byte) := by unfold Encoding.padByte; rw [hp]; rfl
      rw [if_pos hpne, hpb] at hd ⊢
      have hr := readLoop_pad2 enc src.length _ _ (61 : Byte) st.si (by rw [hp]; rfl) hp61
        (by decide) w0 w1
      simp only [List.cons_append, List.nil_append] at hd
      rw [← hd] at hr
      rw [quantumStep_tail2 enc cap src st _ _ _ hr (by omega), v0, v1, unsextets1]
      rfl
  · -- two bytes remain
    refine ⟨[a, b], [], rfl, List.cons_ne_nil _ _, ?_, by rw [encodeBytes_nil, List.append_nil]⟩
    obtain ⟨s0, s1, s2⟩ := sextets2 a b
    have ha := a.isLt
    have hb := b.isLt
    obtain ⟨v0, w0⟩ := hs.alpha_encodeAt (a.val / 4) (by omega)
    obtain ⟨v1, w1⟩ := hs.alpha_encodeAt (a.val % 4 * 16 + b.val / 16) (by omega)
    obtain ⟨v2, w2⟩ := hs.alpha_encodeAt (b.val % 16 * 4) (by omega)
    obtain ⟨u0, u1⟩ := unsextets2 a b
    rw [encodeBytes_two, s0, s1, s2] at hd ⊢
    simp only [List.length_cons, List.length_nil] at hcap
    rcases hs.pad with hp | ⟨hp, hp61⟩
    · rw [if_neg (not_not.mpr hp)] at hd ⊢
      rw [List.append_nil] at hd ⊢
      have hr := readLoop_raw3 enc src.length _ _ _ st.si hp w0 w1 w2
      rw [← hd] at hr
      rw [quantumStep_tail3 enc cap src st _ _ _ _ hr (by omega), v0, v1, v2, u0, u1]
      rfl
    · have hpne : enc.padChar ≠ NoPadding := by rw [hp]; decide
      have hpb : enc.padByte = (61 : Byte) := by unfold Encoding.padByte; rw [hp]; rfl
      rw [if_pos hpne, hpb] at hd ⊢
      have hr := readLoop_pad3 enc src.length _ _ _ (61 : Byte) st.si (by rw [hp]; rfl) hp61
        (by decide) w0 w1 w2
      simp only [List.cons_append, List.nil_append] at hd
      rw [← hd] at hr
      rw [quantumStep_tail3 enc cap src st _ _ _ _ hr (by omega), v0, v1, v2, u0, u1]
      rfl
  · -- a full group of three bytes
    refine ⟨[a, b, c], rest, rfl, List.cons_ne_nil _ _, ?_, ?_⟩
    swap
    · rw [encodeBytes_three enc a b c rest, encodeBytes_three enc a b c [], encodeBytes_nil,
        List.append_nil]
    obtain ⟨s0, s1, s2, s3⟩ := sextets3 a b c
    have ha := a.isLt
    have hb := b.isLt
    have hc := c.isLt
    obtain ⟨v0, w0⟩ := hs.alpha_encodeAt (a.val / 4) (by omega)
    obtain ⟨v1, w1⟩ := hs.alpha_encodeAt (a.val % 4 * 16 + b.val / 16) (by omega)
    obtain ⟨v2, w2⟩ := hs.alpha_encodeAt (b.val % 16 * 4 + c.val / 64) (by omega)
    obtain ⟨v3, w3⟩ := hs.alpha_encodeAt (c.val % 64) (by omega)
    obtain ⟨u0, u1, u2⟩ := unsextets a b c _ rfl
    rw [encodeBytes_three, s0, s1, s2, s3] at hd
    rw [encodeBytes_three enc a b c [], encodeBytes_nil, s0, s1, s2, s3]
    simp only [List.length_cons] at hcap
    simp only [List.cons_append, List.nil_append] at hd
    rw [quantumStep_four enc cap src st _ _ _ _ _ hd w0 w1 w2 w3 (by omega), v0, v1, v2, v3,
      u0, u1, u2]
    rfl

theorem encodeBytes_eq_nil (enc : Encoding) (data : List Byte)
    (h : enc.encodeBytes data = []) : data = [] := by
  have hl := encodeBytes_length enc data
  rw [h, List.length_nil] at hl
  apply List.length_eq_zero.mp
  unfold Encoding.EncodedLen at hl
  split_ifs at hl <;> omega

/-- Decoding what `Encode` wrote, into a buffer of `DecodedLen` bytes, gives the
source bytes back with no error. -/
theorem decode_encodeBytes (enc : Encoding) (hs : enc.Sound) (data : List Byte) :
    enc.Decode (enc.DecodedLen (enc.encodeBytes data).length) (enc.encodeBytes data)
      = .ok (data, none) := by
  by_cases hne : enc.encodeBytes data = []
  · have hd := encodeBytes_eq_nil enc data hne
    rw [hne, hd]
    unfold Encoding.Decode Encoding.DecodeFuel
    rfl
  have hcap : data.length ≤ enc.DecodedLen (enc.encodeBytes data).length := by
    rw [encodeBytes_length]
    exact decodedLen_encodedLen enc data.length
  obtain ⟨d, e, h1, h2⟩ := DecodeFuel_spec enc hs (enc.DecodedLen (enc.encodeBytes data).length)
    (enc.encodeBytes data)
    (fun st => ∃ pre post, data = pre ++ post ∧ st.dst = pre ∧
      (enc.encodeBytes data).drop st.si = enc.encodeBytes post ∧
      st.si ≤ (enc.encodeBytes data).length)
    (fun _ _ => False)
    (by
      intro st hP hsi
      obtain ⟨pre, post, p1, p2, p3, p4⟩ := hP
      have hpost : post ≠ [] := by
        intro hp
        rw [hp, encodeBytes_nil] at p3
        have := List.drop_eq_nil_iff.mp p3
        omega
      have hc : st.dst.length + post.length ≤ enc.DecodedLen (enc.encodeBytes data).length := by
        have : data.length = pre.length + post.length := by rw [p1, List.length_append]
        rw [p2]
        omega
      obtain ⟨group, rest, g1, g2, g3, g4⟩ := quantumStep_encoded enc hs _ _ st post hpost p3 hc
      have hgl : 0 < (enc.encodeBytes group).length := by
        rcases hg : enc.encodeBytes group with _ | ⟨x, l⟩
        · exact absurd (encodeBytes_eq_nil enc group hg) g2
        · simp only [List.length_cons]; omega
      have hdrop : (enc.encodeBytes data).drop st.si
          = enc.encodeBytes group ++ enc.encodeBytes rest := by rw [p3, g4]
      have hlen : ((enc.encodeBytes data).drop st.si).length
          = (enc.encodeBytes group).length + (enc.encodeBytes rest).length := by
        rw [hdrop, List.length_append]
      rw [List.length_drop] at hlen
      refine Or.inl ⟨_, g3, ⟨pre ++ group, rest, by rw [p1, g1, List.append_assoc],
        by rw [p2], drop_of_drop_append _ _ _ _ hdrop, by simp only; omega⟩, by simp only; omega⟩)
    ⟨[], data, rfl, rfl, rfl, Nat.zero_le _⟩ hne _ (Nat.le_refl _)
  unfold Encoding.Decode
  rw [h1]
  rcases h2 with h2 | ⟨he, st, ⟨pre, post, p1, p2, p3, p4⟩, hsi, hd⟩
  · exact absurd h2 id
  · have hnil : enc.encodeBytes post = [] := by
      rw [← p3]
      exact List.drop_eq_nil_iff.mpr hsi
    have hp := encodeBytes_eq_nil enc post hnil
    rw [hp, List.append_nil] at p1
    rw [he, hd, p2, p1]

/-! ### Decoding any input -/

theorem quantumStep_ret (enc : Encoding) (cap : Nat) (src : List Byte) (st : DecState)
    (nsi : Nat) (err : DecodeError)
    (h : enc.readLoop src.length (src.drop st.si) st.si 0 [0, 0, 0, 0] = .ret nsi err) :
    (∀ e, err = some e → enc.quantumStep cap src st = .ok (.ret st.dst (some e))) ∧
    (err = none → enc.quantumStep cap src st = .ok (.next ⟨nsi, st.dst⟩)) := by
  unfold Encoding.quantumStep Encoding.decodeQuantum
  rw [h]
  refine ⟨fun e he => ?_, fun he => ?_⟩ <;> subst he <;> simp only [List.append_nil]

theorem quantumStep_done (enc : Encoding) (cap : Nat) (src : List Byte) (st : DecState)
    (nsi dlen : Nat) (dbuf : List Nat) (err : DecodeError)
    (h : enc.readLoop src.length (src.drop st.si) st.si 0 [0, 0, 0, 0]
      = .done nsi dbuf dlen err)
    (hd : 2 ≤ dlen ∧ dlen ≤ 4) (hcap : st.dst.length + (dlen - 1) ≤ cap) :
    ∃ written : List Byte, written.length = dlen - 1 ∧
      (∀ e, err = some e → enc.quantumStep cap src st = .ok (.ret (st.dst ++ written) (some e))) ∧
      (err = none → enc.quantumStep cap src st = .ok (.next ⟨nsi, st.dst ++ written⟩)) := by
  unfold Encoding.quantumStep Encoding.decodeQuantum
  rw [h]
  simp only
  by_cases h4 : dlen = 4
  · have hc : 2 < cap - st.dst.length := by omega
    rw [if_pos h4, if_pos hc]
    refine ⟨[byteOf (((dbuf.getD 0 0 <<< 18) ||| (dbuf.getD 1 0 <<< 12) ||| (dbuf.getD 2 0 <<< 6) |||
        dbuf.getD 3 0) >>> 16), byteOf (((dbuf.getD 0 0 <<< 18) ||| (dbuf.getD 1 0 <<< 12) ||| (dbuf.getD 2 0 <<< 6) |||
        dbuf.getD 3 0) >>> 8),
      byteOf (((dbuf.getD 0 0 <<< 18) ||| (dbuf.getD 1 0 <<< 12) ||| (dbuf.getD 2 0 <<< 6) |||
        dbuf.getD 3 0) >>> 0)], by rw [h4]; rfl, fun e he => ?_, fun he => ?_⟩ <;> subst he <;> rfl
  rw [if_neg h4]
  by_cases h3 : dlen = 3
  · have hc : 1 < cap - st.dst.length := by omega
    rw [if_pos h3, if_pos hc]
    refine ⟨[byteOf (((dbuf.getD 0 0 <<< 18) ||| (dbuf.getD 1 0 <<< 12) ||| (dbuf.getD 2 0 <<< 6) |||
        dbuf.getD 3 0) >>> 16), byteOf (((dbuf.getD 0 0 <<< 18) ||| (dbuf.getD 1 0 <<< 12) ||| (dbuf.getD 2 0 <<< 6) |||
        dbuf.getD 3 0) >>> 8)], by rw [h3]; rfl, fun e he => ?_, fun he => ?_⟩ <;> subst he <;> rfl
  rw [if_neg h3]
  have h2 : dlen = 2 := by omega
  have hc : 0 < cap - st.dst.length := by omega
  rw [if_pos h2, if_pos hc]
  refine ⟨[byteOf (((dbuf.getD 0 0 <<< 18) ||| (dbuf.getD 1 0 <<< 12) ||| (dbuf.getD 2 0 <<< 6) |||
        dbuf.getD 3 0) >>> 16)], by rw [h2]; rfl, fun e he => ?_, fun he => ?_⟩ <;> subst he <;> rfl

theorem strip_length_le (s : List Byte) : (strip s).length ≤ s.length :=
  List.length_filter_le _ _

theorem take_add_of_drop (src : List Byte) (si : Nat) (l r : List Byte)
    (h : src.drop si = l ++ r) : src.take (si + l.length) = src.take si ++ l := by
  rw [List.take_add, h, List.take_left]

theorem drop_length_eq (src : List Byte) (si : Nat) (l r : List Byte) (hsi : si ≤ src.length)
    (h : src.drop si = l ++ r) : src.length = si + l.length + r.length := by
  have := congrArg List.length h
  rw [List.length_drop, List.length_append] at this
  omega

theorem wf_raw (enc : Encoding) (s : List Byte) (hp : enc.padChar = NoPadding)
    (ha : ∀ c ∈ strip s, enc.Alpha c) (hl : (strip s).length % 4 ≠ 1) : enc.WellFormed s := by
  unfold Encoding.WellFormed
  rw [if_pos hp]
  exact ⟨ha, hl⟩

theorem wf_pad (enc : Encoding) (s body : List Byte) (p : Nat) (hp : enc.padChar ≠ NoPadding)
    (hs : strip s = body ++ List.replicate p enc.padByte) (ha : ∀ c ∈ body, enc.Alpha c)
    (hp2 : p ≤ 2) (hl : (strip s).length % 4 = 0) : enc.WellFormed s := by
  unfold Encoding.WellFormed
  rw [if_neg hp]
  exact ⟨body, p, hs, ha, hp2, hl⟩

theorem wf_of_alpha (enc : Encoding) (s : List Byte) (k : Nat)
    (ha : ∀ c ∈ strip s, enc.Alpha c) (hk : (strip s).length = 4 * k) : enc.WellFormed s := by
  by_cases hp : enc.padChar = NoPadding
  · exact wf_raw enc s hp ha (by omega)
  · exact wf_pad enc s (strip s) 0 hp (by rw [List.replicate_zero, List.append_nil]) ha
      (by omega) (by omega)

/-- One call of `decodeQuantum` from a state that has read whole groups of
alphabet characters: it does not panic, it makes progress, and it either
returns an error or reaches such a state again or the end of a well-formed
input. -/
theorem quantumStep_wf (enc : Encoding) (hs : enc.Sound) (str : List Byte) (st : DecState)
    (hle : st.si ≤ str.length) (hsi : st.si < str.length)
    (halpha : ∀ c ∈ strip (str.take st.si), enc.Alpha c) (k : Nat)
    (hk : (strip (str.take st.si)).length = 4 * k) (hdl : st.dst.length = 3 * k) :
    (∃ st', enc.quantumStep (enc.DecodedLen str.length) str st = .ok (.next st') ∧
      (st'.si ≤ str.length ∧ ((st'.si = str.length ∧ enc.WellFormed str) ∨
        ((∀ c ∈ strip (str.take st'.si), enc.Alpha c) ∧
          ∃ k', (strip (str.take st'.si)).length = 4 * k' ∧ st'.dst.length = 3 * k'))) ∧
      st.si < st'.si) ∨
    (∃ d e, enc.quantumStep (enc.DecodedLen str.length) str st = .ok (.ret d e) ∧ e ≠ none) := by
  have hspec := readLoop_spec enc hs str.length (str.drop st.si) st.si 0 [0, 0, 0, 0] (by omega)
  have hrest : str.drop st.si ≠ [] := by
    intro h
    have := List.drop_eq_nil_iff.mp h
    omega
  have htd : strip str = strip (str.take st.si) ++ strip (str.drop st.si) := by
    rw [← strip_append, List.take_append_drop]
  have hst := strip_length_le (str.take st.si)
  have htl : (str.take st.si).length = st.si := by rw [List.length_take]; omega
  rcases hr : enc.readLoop str.length (str.drop st.si) st.si 0 [0, 0, 0, 0] with
    ⟨nsi, err⟩ | ⟨nsi, dbuf, dlen, err⟩
  · rw [hr] at hspec
    obtain ⟨⟨consumed, rest', c1, c2, c3⟩, c4⟩ := hspec
    obtain ⟨q1, q2⟩ := quantumStep_ret enc (enc.DecodedLen str.length) str st nsi err hr
    have hcl : 0 < consumed.length := List.length_pos.mpr (c3 hrest)
    cases err with
    | some e => exact Or.inr ⟨st.dst, some e, q1 e rfl, fun h => by cases h⟩
    | none =>
      obtain ⟨_, d2, d3⟩ := c4 rfl
      rw [List.length_drop] at d2
      refine Or.inl ⟨_, q2 rfl, ⟨by simp only; omega, Or.inl ⟨by simp only; omega, ?_⟩⟩,
        by simp only; omega⟩
      rw [d3, List.append_nil] at htd
      exact wf_of_alpha enc str k (by rw [htd]; exact halpha) (by rw [htd]; exact hk)
  · rw [hr] at hspec
    obtain ⟨consumed, rest', c1, c2, c3⟩ := hspec
    have hlen := drop_length_eq str st.si consumed rest' hle c1
    have hsl := strip_length_le consumed
    have htake := take_add_of_drop str st.si consumed rest' c1
    rw [c1, strip_append] at htd
    rcases c3 with ⟨a1, a2, a3, a4⟩ | ⟨a1, a2, a3, a4, a5, a6, a7⟩ |
      ⟨a1, a2, a3, a4, body, a5, a6, a7⟩
    · have hcap : st.dst.length + (dlen - 1) ≤ enc.DecodedLen str.length := by
        unfold Encoding.DecodedLen
        split_ifs <;> omega
      obtain ⟨written, w1, _, w3⟩ := quantumStep_done enc _ str st nsi dlen dbuf err hr
        (by omega) hcap
      refine Or.inl ⟨_, w3 a2, ⟨by simp only; omega, Or.inr ⟨?_, k + 1, ?_, ?_⟩⟩,
        by simp only; omega⟩
      · simp only
        rw [c2, htake, strip_append]
        intro c hc
        rcases List.mem_append.mp hc with hc | hc
        · exact halpha c hc
        · exact a3 c hc
      · simp only
        rw [c2, htake, strip_append, List.length_append]
        omega
      · simp only [List.length_append]
        omega
    · have hcap : st.dst.length + (dlen - 1) ≤ enc.DecodedLen str.length := by
        unfold Encoding.DecodedLen
        rw [if_pos a3]
        omega
      obtain ⟨written, w1, _, w3⟩ := quantumStep_done enc _ str st nsi dlen dbuf err hr
        (by omega) hcap
      rw [a4, List.length_nil] at hlen
      rw [a4, strip_nil, List.append_nil] at htd
      refine Or.inl ⟨_, w3 a5, ⟨by simp only; omega, Or.inl ⟨by simp only; omega, ?_⟩⟩,
        by simp only; omega⟩
      refine wf_raw enc str a3 ?_ ?_
      · rw [htd]
        intro c hc
        rcases List.mem_append.mp hc with hc | hc
        · exact halpha c hc
        · exact a6 c hc
      · rw [htd, List.length_append]
        omega
    · have hsc : (strip consumed).length = 4 := by
        rw [a5, List.length_append, List.length_replicate]
        omega
      have hcap : st.dst.length + (dlen - 1) ≤ enc.DecodedLen str.length := by
        unfold Encoding.DecodedLen
        rw [if_neg a3]
        omega
      obtain ⟨written, w1, w2, w3⟩ := quantumStep_done enc _ str st nsi dlen dbuf err hr
        (by omega) hcap
      cases err with
      | some e => exact Or.inr ⟨_, some e, w2 e rfl, fun h => by cases h⟩
      | none =>
        have hr' := a4 rfl
        rw [hr', List.length_nil] at hlen
        rw [hr', strip_nil, List.append_nil] at htd
        refine Or.inl ⟨_, w3 rfl, ⟨by simp only; omega, Or.inl ⟨by simp only; omega, ?_⟩⟩,
          by simp only; omega⟩
        refine wf_pad enc str (strip (str.take st.si) ++ body) (4 - dlen) a3 ?_ ?_ (by omega) ?_
        · rw [htd, a5, List.append_assoc]
        · intro c hc
          rcases List.mem_append.mp hc with hc | hc
          · exact halpha c hc
          · exact a6 c hc
        · rw [htd, List.length_append]
          omega

/-- The method `Decode` on a buffer of `DecodedLen(len(src))` bytes returns, and
it returns no error only for a well-formed input. -/
theorem Decode_wellFormed (enc : Encoding) (hs : enc.Sound) (str : List Byte) :
    ∃ d e, enc.Decode (enc.DecodedLen str.length) str = .ok (d, e) ∧
      (e = none → enc.WellFormed str) := by
  by_cases hne : str = []
  · subst hne
    exact ⟨[], none, rfl, fun _ => wf_of_alpha enc [] 0
      (fun c hc => absurd hc (List.not_mem_nil c)) rfl⟩
  obtain ⟨d, e, h1, h2⟩ := DecodeFuel_spec enc hs (enc.DecodedLen str.length) str
    (fun st => st.si ≤ str.length ∧ ((st.si = str.length ∧ enc.WellFormed str) ∨
      ((∀ c ∈ strip (str.take st.si), enc.Alpha c) ∧
        ∃ k, (strip (str.take st.si)).length = 4 * k ∧ st.dst.length = 3 * k)))
    (fun _ e => e ≠ none)
    (by
      intro st hJ hsi
      obtain ⟨hle, hJ⟩ := hJ
      rcases hJ with ⟨heq, _⟩ | ⟨halpha, k, hk, hdl⟩
      · omega
      · exact quantumStep_wf enc hs str st hle hsi halpha k hk hdl)
    ⟨Nat.zero_le _, Or.inr ⟨fun c hc => absurd hc (List.not_mem_nil c), 0, rfl, rfl⟩⟩
    hne _ (Nat.le_refl _)
  refine ⟨d, e, h1, fun he => ?_⟩
  rcases h2 with h2 | ⟨_, st, ⟨hle, hJ⟩, hsi, _⟩
  · exact absurd he h2
  · rcases hJ with ⟨_, hwf⟩ | ⟨halpha, k, hk, _⟩
    · exact hwf
    · have ht : str.take st.si = str := List.take_of_length_le hsi
      rw [ht] at halpha hk
      exact wf_of_alpha enc str k halpha hk

set_option maxRecDepth 100000 in
theorem std_alpha_allowed : ∀ c : Byte, StdEncoding.Alpha c → stdAllowed c ∧ c.val ≠ 61 := by
  decide

set_option maxRecDepth 100000 in
theorem url_alpha_allowed : ∀ c : Byte, RawURLEncoding.Alpha c → urlAllowed c := by
  decide

theorem mem_strip (s : List Byte) (c : Byte) (hc : c ∈ s) (hn : ¬ isNewline c) :
    c ∈ strip s := by
  unfold strip
  exact List.mem_filter.mpr ⟨hc, by simpa using hn⟩

theorem getD_mem (l : List Byte) (i : Nat) (h : i < l.length) : l.getD i 0 ∈ l := by
  rw [List.getD_eq_getElem l 0 h]
  exact List.getElem_mem h

theorem getD_replicate_val (p i : Nat) (b : Byte) (h : i < p) :
    (List.replicate p b).getD i 0 = b := by
  rw [List.getD_eq_getElem _ 0 (by rw [List.length_replicate]; exact h)]
  exact List.getElem_replicate _ _

/-- What a well-formed input of `StdEncoding` looks like. -/
theorem std_wf_facts (str : List Byte) (hwf : StdEncoding.WellFormed str) :
    (∀ c ∈ str, stdAllowed c) ∧ (strip str).length % 4 = 0 ∧ PaddingAtEnd (strip str) := by
  unfold Encoding.WellFormed at hwf
  have hp : ¬ StdEncoding.padChar = NoPadding := by decide
  rw [if_neg hp] at hwf
  obtain ⟨body, p, h1, h2, h3, h4⟩ := hwf
  have hpb : StdEncoding.padByte = (61 : Byte) := by decide
  rw [hpb] at h1
  refine ⟨?_, h4, ?_⟩
  · intro c hc
    by_cases hn : isNewline c
    · unfold stdAllowed
      unfold isNewline at hn
      omega
    · have hm := mem_strip str c hc hn
      rw [h1] at hm
      rcases List.mem_append.mp hm with hm | hm
      · exact (std_alpha_allowed c (h2 c hm)).1
      · rw [(List.mem_replicate.mp hm).2]
        decide
  · rw [h1]
    intro i hi h61
    rw [List.length_append, List.length_replicate] at hi ⊢
    have hib : body.length ≤ i := by
      by_contra hlt
      have hlt' : i < body.length := by omega
      rw [List.getD_append body _ 0 i hlt'] at h61
      exact (std_alpha_allowed _ (h2 _ (getD_mem body i hlt'))).2 h61
    refine ⟨by omega, fun k hk hik => ?_⟩
    rw [List.getD_append_right body _ 0 k (by omega), getD_replicate_val p _ _ (by omega)]
    rfl

/-- What a well-formed input of `RawURLEncoding` looks like. -/
theorem url_wf_facts (str : List Byte) (hwf : RawURLEncoding.WellFormed str) :
    (∀ c ∈ str, urlAllowed c) ∧ (strip str).length % 4 ≠ 1 := by
  unfold Encoding.WellFormed at hwf
  have hp : RawURLEncoding.padChar = NoPadding := by decide
  rw [if_pos hp] at hwf
  obtain ⟨h1, h2⟩ := hwf
  refine ⟨?_, h2⟩
  intro c hc
  by_cases hn : isNewline c
  · unfold urlAllowed
    unfold isNewline at hn
    omega
  · exact url_alpha_allowed c (h1 c (mem_strip str c hc hn))

/-! ### From base64 to base64url -/

set_option maxRecDepth 100000 in
theorem url_of_std_char : ∀ v : Fin 64,
    [RawURLEncoding.encodeAt v.val] = replaceAll (replaceAll [StdEncoding.encodeAt v.val] 43 45) 47 95
      ∧ StdEncoding.encodeAt v.val ∉ bytesOf "\n\r="
      ∧ (RawURLEncoding.encodeAt v.val).val ≠ 61 ∧ (RawURLEncoding.encodeAt v.val).val ≠ 43
      ∧ (RawURLEncoding.encodeAt v.val).val ≠ 47 := by
  decide

theorem replaceAll_append (a b : List Byte) (x y : Byte) :
    replaceAll (a ++ b) x y = replaceAll a x y ++ replaceAll b x y := by
  unfold replaceAll
  exact List.map_append _ _ _

theorem dropWhile_replicate (p : Nat) (x : Byte) (cutset l : List Byte) (hx : x ∈ cutset) :
    (List.replicate p x ++ l).dropWhile (fun c => decide (c ∈ cutset))
      = l.dropWhile (fun c => decide (c ∈ cutset)) := by
  induction p with
  | zero => rfl
  | succ p ih =>
    rw [List.replicate_succ, List.cons_append, List.dropWhile_cons_of_pos (by simpa using hx)]
    exact ih

theorem dropWhile_none (cutset l : List Byte) (h : ∀ c ∈ l, c ∉ cutset) :
    l.dropWhile (fun c => decide (c ∈ cutset)) = l := by
  cases l with
  | nil => rfl
  | cons c l =>
    exact List.dropWhile_cons_of_neg (by simpa using h c (List.mem_cons_self c l))

/-- Trimming removes a run of cutset bytes after bytes outside the cutset. -/
theorem trimRight_append_replicate (body cutset : List Byte) (p : Nat) (x : Byte)
    (hx : x ∈ cutset) (hb : ∀ c ∈ body, c ∉ cutset) :
    trimRight (body ++ List.replicate p x) cutset = body := by
  unfold trimRight
  rw [List.reverse_append, List.reverse_replicate, dropWhile_replicate p x cutset _ hx,
    dropWhile_none cutset _ (fun c hc => hb c (List.mem_reverse.mp hc)), List.reverse_reverse]

theorem sextet_lt (x : Nat) : x &&& 0x3F < 64 := by
  rw [Stringhash.and_63]
  omega

theorem encodeBytes_shape_aux : ∀ (n : Nat) (data : List Byte), data.length ≤ n →
    ∃ (vs : List (Fin 64)) (p : Nat), ∀ enc : Encoding,
      enc.encodeBytes data = vs.map (fun v => enc.encodeAt v.val) ++
        (if enc.padChar ≠ NoPadding then List.replicate p enc.padByte else []) := by
  intro n
  induction n using Nat.strong_induction_on with
  | _ n ih =>
    intro data hn
    rcases data with _ | ⟨a, _ | ⟨b, _ | ⟨c, rest⟩⟩⟩
    · refine ⟨[], 0, fun enc => ?_⟩
      rw [encodeBytes_nil]
      split_ifs <;> rfl
    · refine ⟨[⟨_, sextet_lt ((a.val <<< 16) >>> 18)⟩, ⟨_, sextet_lt ((a.val <<< 16) >>> 12)⟩],
        2, fun enc => ?_⟩
      rw [encodeBytes_one]
      rfl
    · refine ⟨[⟨_, sextet_lt (((a.val <<< 16) ||| (b.val <<< 8)) >>> 18)⟩,
        ⟨_, sextet_lt (((a.val <<< 16) ||| (b.val <<< 8)) >>> 12)⟩,
        ⟨_, sextet_lt (((a.val <<< 16) ||| (b.val <<< 8)) >>> 6)⟩], 1, fun enc => ?_⟩
      rw [encodeBytes_two]
      rfl
    · simp only [List.length_cons] at hn
      obtain ⟨vs, p, h⟩ := ih rest.length (by omega) rest (Nat.le_refl _)
      refine ⟨[⟨_, sextet_lt (((a.val <<< 16) ||| (b.val <<< 8) ||| c.val) >>> 18)⟩,
        ⟨_, sextet_lt (((a.val <<< 16) ||| (b.val <<< 8) ||| c.val) >>> 12)⟩,
        ⟨_, sextet_lt (((a.val <<< 16) ||| (b.val <<< 8) ||| c.val) >>> 6)⟩,
        ⟨_, sextet_lt ((a.val <<< 16) ||| (b.val <<< 8) ||| c.val)⟩] ++ vs, p, fun enc => ?_⟩
      rw [encodeBytes_three, h enc, List.map_append, List.append_assoc]
      rfl

/-- The output of `Encode` is a sequence of alphabet characters, the same 6-bit
values for every encoding, followed by padding unless the encoding has none. -/
theorem encodeBytes_shape (data : List Byte) :
    ∃ (vs : List (Fin 64)) (p : Nat), ∀ enc : Encoding,
      enc.encodeBytes data = vs.map (fun v => enc.encodeAt v.val) ++
        (if enc.padChar ≠ NoPadding then List.replicate p enc.padByte else []) :=
  encodeBytes_shape_aux data.length data (Nat.le_refl _)

theorem url_of_std_chars (vs : List (Fin 64)) :
    replaceAll (replaceAll (vs.map (fun v => StdEncoding.encodeAt v.val)) 43 45) 47 95
      = vs.map (fun v => RawURLEncoding.encodeAt v.val) := by
  induction vs with
  | nil => rfl
  | cons v vs ih =>
    rw [List.map_cons, List.map_cons, ← List.singleton_append, replaceAll_append,
      replaceAll_append, ih, ← (url_of_std_char v).1]
    rfl

/-- Claim C17: for every byte string `s`, the output of `EncodeBase64URL` is the
output of `EncodeBase64` after `base64ToBase64URL` (trailing `=` removed, `+`
replaced by `-`, `/` replaced by `_`), and it contains no `=`, `+` or `/`. -/
theorem C17_base64url_from_base64 (s : List Byte) :
    ∃ e u, EncodeBase64 s = .ok e ∧ EncodeBase64URL s = .ok u ∧ u = base64ToBase64URL e ∧
      ∀ c ∈ u, c.val ≠ 61 ∧ c.val ≠ 43 ∧ c.val ≠ 47 := by
  refine ⟨StdEncoding.encodeBytes s, RawURLEncoding.encodeBytes s, Encode_ok StdEncoding s,
    Encode_ok RawURLEncoding s, ?_, ?_⟩
  · obtain ⟨vs, p, h⟩ := encodeBytes_shape s
    have hstd := h StdEncoding
    have hurl := h RawURLEncoding
    rw [if_pos (by decide)] at hstd
    rw [if_neg (by decide), List.append_nil] at hurl
    rw [hstd, hurl]
    unfold base64ToBase64URL
    simp only
    rw [trimRight_append_replicate _ _ p _ (by decide) ?_, url_of_std_chars]
    intro c hc
    obtain ⟨v, _, hv⟩ := List.mem_map.mp hc
    rw [← hv]
    exact (url_of_std_char v).2.1
  · obtain ⟨vs, p, h⟩ := encodeBytes_shape s
    have hurl := h RawURLEncoding
    rw [if_neg (by decide), List.append_nil] at hurl
    rw [hurl]
    intro c hc
    obtain ⟨v, _, hv⟩ := List.mem_map.mp hc
    rw [← hv]
    exact (url_of_std_char v).2.2

/-! ### The claims on decoding -/

/-- Claim C15: for every byte string `s`, `EncodeBase64(s)` returns a string on
which `DecodeBase64` returns `s` and a nil error. -/
theorem C15_base64_round_trip (s : List Byte) :
    ∃ e, EncodeBase64 s = .ok e ∧ DecodeBase64 e = .ok (s, none) := by
  refine ⟨StdEncoding.encodeBytes s, Encode_ok StdEncoding s, ?_⟩
  unfold DecodeBase64 DecodeBase64Bytes
  rw [decode_encodeBytes StdEncoding StdEncoding_sound s]
  rfl

/-- Claim C16: for every byte string `s`, `EncodeBase64URL(s)` returns a string
on which `DecodeBase64URL` returns `s` and a nil error. -/
theorem C16_base64url_round_trip (s : List Byte) :
    ∃ e, EncodeBase64URL s = .ok e ∧ DecodeBase64URL e = .ok (s, none) := by
  refine ⟨RawURLEncoding.encodeBytes s, Encode_ok RawURLEncoding s, ?_⟩
  unfold DecodeBase64URL DecodeBase64URLBytes
  rw [decode_encodeBytes RawURLEncoding RawURLEncoding_sound s]
  rfl

/-- Claim C18: `DecodeBase64` returns the empty string and an error for every
input that contains a character other than `A-Z`, `a-z`, `0-9`, `+`, `/`, `=`,
`'\r'` and `'\n'`, for every input whose length without `'\r'` and `'\n'` is
not a multiple of four, and for every input in which a `=` is not one of the
last two characters or is followed by another character. -/
theorem C18_decode_base64_rejects_invalid (str : List Byte)
    (h : (∃ c ∈ str, ¬ stdAllowed c) ∨ (strip str).length % 4 ≠ 0 ∨
      ¬ PaddingAtEnd (strip str)) :
    ∃ e, DecodeBase64 str = .ok ([], some e) := by
  obtain ⟨d, e, h1, h2⟩ := Decode_wellFormed StdEncoding StdEncoding_sound str
  cases e with
  | none =>
    obtain ⟨w1, w2, w3⟩ := std_wf_facts str (h2 rfl)
    rcases h with ⟨c, hc, hn⟩ | h | h
    · exact absurd (w1 c hc) hn
    · exact absurd w2 h
    · exact absurd w3 h
  | some e =>
    refine ⟨e, ?_⟩
    unfold DecodeBase64 DecodeBase64Bytes
    rw [h1]
    rfl

set_option maxRecDepth 100000 in
theorem C18_decode_base64_rejects_invalid_witness :
    ∃ e, DecodeBase64 (bytesOf "A-BC") = .ok ([], some e) :=
  C18_decode_base64_rejects_invalid (bytesOf "A-BC") (Or.inl (by decide))

/-- Claim C19: `DecodeBase64URL` returns the empty string and an error for every
input that contains a character other than `A-Z`, `a-z`, `0-9`, `-`, `_`,
`'\r'` and `'\n'` (so for `=`, `+` and `/`), and for every input whose length
without `'\r'` and `'\n'` is 1 modulo 4. -/
theorem C19_decode_base64url_rejects_invalid (str : List Byte)
    (h : (∃ c ∈ str, ¬ urlAllowed c) ∨ (strip str).length % 4 = 1) :
    ∃ e, DecodeBase64URL str = .ok ([], some e) := by
  obtain ⟨d, e, h1, h2⟩ := Decode_wellFormed RawURLEncoding RawURLEncoding_sound str
  cases e with
  | none =>
    obtain ⟨w1, w2⟩ := url_wf_facts str (h2 rfl)
    rcases h with ⟨c, hc, hn⟩ | h
    · exact absurd (w1 c hc) hn
    · exact absurd h w2
  | some e =>
    refine ⟨e, ?_⟩
    unfold DecodeBase64URL DecodeBase64URLBytes
    rw [h1]
    rfl

set_option maxRecDepth 100000 in
theorem C19_decode_base64url_rejects_invalid_witness :
    ∃ e, DecodeBase64URL (bytesOf "A+BC") = .ok ([], some e) :=
  C19_decode_base64url_rejects_invalid (bytesOf "A+BC") (Or.inl (by decide))

/-! ### The string and the error of `DecodeBase64` and `DecodeBase64URL` -/

/-- The wrapper of `DecodeBase64` and `DecodeBase64URL` around a result of the
byte decoder: the empty string with a non-nil error, the decoded bytes with a
nil error. -/
theorem decode_string_cases (r : Outcome (List Byte × DecodeError)) (d : List Byte)
    (e : DecodeError) (h : r = .ok (d, e)) :
    (match r with
      | .ok (decodedBytes, err) =>
        if err ≠ none then Outcome.ok (([] : List Byte), err) else .ok (decodedBytes, none)
      | .panic => .panic
      | .outOfFuel => .outOfFuel) = .ok (if e ≠ none then [] else d, e) := by
  subst h
  cases e with
  | none => rfl
  | some x => rfl

set_option maxRecDepth 100000 in
/-- Claim C32: `DecodeBase64Bytes` and `DecodeBase64URLBytes` return bytes `d`
and an error `e` for every input, and `DecodeBase64` and `DecodeBase64URL`
then return the error `e` with the empty string when `e` is not nil and with
the bytes `d` when `e` is nil; so a returned non-nil error comes with the empty
string and a returned nil error with the bytes of the byte decoder. On
`QUJD-A==` the byte decoder returns the prefix `ABC` with its error and
`DecodeBase64` the empty string. -/
theorem C32_decode_string_empty_on_error :
    (∀ str : List Byte,
      (∃ d e, DecodeBase64Bytes str = .ok (d, e) ∧
        DecodeBase64 str = .ok (if e ≠ none then [] else d, e)) ∧
      (∀ s e, DecodeBase64 str = .ok (s, e) →
        (e ≠ none → s = []) ∧ (e = none → DecodeBase64Bytes str = .ok (s, none)))) ∧
    (∀ str : List Byte,
      (∃ d e, DecodeBase64URLBytes str = .ok (d, e) ∧
        DecodeBase64URL str = .ok (if e ≠ none then [] else d, e)) ∧
      (∀ s e, DecodeBase64URL str = .ok (s, e) →
        (e ≠ none → s = []) ∧ (e = none → DecodeBase64URLBytes str = .ok (s, none)))) ∧
    DecodeBase64Bytes (bytesOf "QUJD-A==") = .ok ([65, 66, 67], some 4) ∧
    DecodeBase64 (bytesOf "QUJD-A==") = .ok ([], some 4) ∧
    DecodeBase64URLBytes (bytesOf "QUJD+A") = .ok ([65, 66, 67], some 4) ∧
    DecodeBase64URL (bytesOf "QUJD+A") = .ok ([], some 4) := by
  refine ⟨fun str => ?_, fun str => ?_, by decide, by decide, by decide, by decide⟩
  · obtain ⟨d, e, h1, _⟩ := Decode_wellFormed StdEncoding StdEncoding_sound str
    have hb : DecodeBase64Bytes str = .ok (d, e) := h1
    have hw : DecodeBase64 str = .ok (if e ≠ none then [] else d, e) :=
      decode_string_cases _ d e hb
    refine ⟨⟨d, e, hb, hw⟩, fun s e' hs => ?_⟩
    rw [hw] at hs
    injection hs with hs
    injection hs with hs1 hs2
    subst hs2
    constructor
    · intro hne
      rw [if_pos hne] at hs1
      exact hs1.symm
    · intro he
      rw [if_neg (fun hne => hne he)] at hs1
      rw [hb, hs1, he]
  · obtain ⟨d, e, h1, _⟩ := Decode_wellFormed RawURLEncoding RawURLEncoding_sound str
    have hb : DecodeBase64URLBytes str = .ok (d, e) := h1
    have hw : DecodeBase64URL str = .ok (if e ≠ none then [] else d, e) :=
      decode_string_cases _ d e hb
    refine ⟨⟨d, e, hb, hw⟩, fun s e' hs => ?_⟩
    rw [hw] at hs
    injection hs with hs
    injection hs with hs1 hs2
    subst hs2
    constructor
    · intro hne
      rw [if_pos hne] at hs1
      exact hs1.symm
    · intro he
      rw [if_neg (fun hne => hne he)] at hs1
      rw [hb, hs1, he]

end Base64
